import Mathlib

/-!
Memory simulator: contiguous free-list allocator and buddy allocator

A shallow embedding of `MemoryManager` (src/allocator/MemoryManager.cpp) and
`BuddyAllocator` (src/buddy/BuddyAllocator.cpp).

Conventions of the embedding

* `size_t` values are natural numbers below `SIZE_MOD = 2^64`; every `size_t`
  addition, subtraction and multiplication of the source is written with an
  explicit reduction modulo `SIZE_MOD`.
* `int` values (allocation ids) are integers.  Signed overflow of `next_id` is
  undefined in C++, so the embedding follows the source as long as `next_id` has not
  passed `INT_MAX = 2^31 - 1`; statements about id values carry that bound.
* The fit functions return an `int` index, `-1` meaning "no block"; the embedding
  returns `Option Nat` (`none` for `-1`), which is the same information for every
  block list with fewer than `2^31` entries.
* `MemoryManager::malloc` holds the reference `Block& chosen = blocks[block_index]`
  across `blocks.insert`.  The state carries the capacity of the vector `blocks`:
  an insert into a vector whose size equals its capacity moves the elements to new
  storage (the capacity then becomes `size + max(size, 1)`, as libstdc++ and libc++
  grow it), and the reference is left naming the released storage.  The writes
  `chosen.is_free = false` and `chosen.id = next_id++` that follow do not reach the
  vector in that case, so the block stays free with its old id; the value returned,
  `chosen.id`, is the id just written.  An insert below capacity leaves `chosen`
  naming `blocks[block_index]`.
* The read `used_memory += chosen.size` after a moving insert finds whatever the
  released storage holds by then.  The program does not control that value, so the
  state carries the values such reads will find, one for each moving insert to come
  (field `released`); a statement for every state covers every such value.  No
  branch of the program reads `used_memory`, so the block list, the ids and the
  returned values do not depend on these values.
* Console output is not part of the state.
-/

namespace MemSim

/-- One more than the largest `size_t`: all `size_t` arithmetic is modulo this. -/
def SIZE_MOD : Nat := 2 ^ 64

/-- The constant `SIZE_MAX` of `<cstdint>`. -/
def SIZE_MAX : Nat := 2 ^ 64 - 1

/-- Addition of two `size_t` values. -/
def addSize (a b : Nat) : Nat := (a + b) % SIZE_MOD

/-- Subtraction of two `size_t` values (wraps around below zero). -/
def subSize (a b : Nat) : Nat := (a + (SIZE_MOD - b % SIZE_MOD)) % SIZE_MOD

/-- Multiplication of two `size_t` values. -/
def mulSize (a b : Nat) : Nat := (a * b) % SIZE_MOD

/-- The struct `Block` of include/Block.h. -/
structure Block where
  address : Nat
  size : Nat
  is_free : Bool
  id : Int
  deriving DecidableEq, Repr

/-- The enum `AllocStrategy`. -/
inductive AllocStrategy where
  | FIRST_FIT
  | BEST_FIT
  | WORST_FIT
  deriving DecidableEq, Repr

/-- The data members of class `MemoryManager`, with two components of the environment:
`capacity` is `blocks.capacity()`, which decides whether `blocks.insert` moves the
elements, and `released` lists the `size_t` values that the reads of `chosen.size`
through the dangling reference will find, one for each moving insert to come. -/
structure MemoryManager where
  blocks : List Block
  capacity : Nat
  released : List Nat
  total_memory : Nat
  used_memory : Nat
  next_id : Int
  current_strategy : AllocStrategy
  internal_frag : Nat
  total_alloc_requests : Nat
  failed_requests : Nat
  deriving DecidableEq, Repr

/-- The constructor `MemoryManager::MemoryManager()`. -/
def MemoryManager.new : MemoryManager :=
  { blocks := [], capacity := 0, released := [], total_memory := 0, used_memory := 0, next_id := 1,
    current_strategy := AllocStrategy.FIRST_FIT, internal_frag := 0,
    total_alloc_requests := 0, failed_requests := 0 }

/-- The capacity of a vector after an insertion that found `size() == capacity()`:
`size + max(size, 1)`, as libstdc++ grows it. -/
def grownCapacity (size : Nat) : Nat := size + max size 1

/-- The method `MemoryManager::init`: one free block spanning the extent, counters
zeroed; the strategy is not touched.  `blocks.clear()` keeps the capacity, and
`push_back` on the empty vector allocates only when the capacity is 0. -/
def MemoryManager.init (m : MemoryManager) (total_size : Nat) : MemoryManager :=
  { m with
    blocks := [{ address := 0, size := total_size, is_free := true, id := -1 }]
    capacity := if m.capacity = 0 then grownCapacity 0 else m.capacity
    total_memory := total_size
    used_memory := 0
    next_id := 1
    internal_frag := 0
    total_alloc_requests := 0
    failed_requests := 0 }

/-- The method `MemoryManager::setStrategy`. -/
def MemoryManager.setStrategy (m : MemoryManager) (strategy : AllocStrategy) : MemoryManager :=
  { m with current_strategy := strategy }

/-- The loop of `MemoryManager::firstFit`, entered at index `i` with the blocks from
index `i` on still to visit. -/
def firstFitFrom (size : Nat) : List Block → Nat → Option Nat
  | [], _ => none
  | b :: bs, i =>
    if b.is_free && decide (b.size ≥ size) then some i
    else firstFitFrom size bs (i + 1)

/-- The method `MemoryManager::firstFit`. -/
def firstFit (blocks : List Block) (size : Nat) : Option Nat :=
  firstFitFrom size blocks 0

/-- The loop of `MemoryManager::bestFit`: `best_index` and `best_size` are the two
locals of the source. -/
def bestFitFrom (size : Nat) : List Block → Nat → Option Nat → Nat → Option Nat
  | [], _, best_index, _ => best_index
  | b :: bs, i, best_index, best_size =>
    if b.is_free && decide (b.size ≥ size) then
      if b.size < best_size then bestFitFrom size bs (i + 1) (some i) b.size
      else bestFitFrom size bs (i + 1) best_index best_size
    else bestFitFrom size bs (i + 1) best_index best_size

/-- The method `MemoryManager::bestFit`: starts from `best_index = -1`,
`best_size = SIZE_MAX`. -/
def bestFit (blocks : List Block) (size : Nat) : Option Nat :=
  bestFitFrom size blocks 0 none SIZE_MAX

/-- The loop of `MemoryManager::worstFit`: `worst_index` and `worst_size` are the two
locals of the source. -/
def worstFitFrom (size : Nat) : List Block → Nat → Option Nat → Nat → Option Nat
  | [], _, worst_index, _ => worst_index
  | b :: bs, i, worst_index, worst_size =>
    if b.is_free && decide (b.size ≥ size) then
      if b.size > worst_size then worstFitFrom size bs (i + 1) (some i) b.size
      else worstFitFrom size bs (i + 1) worst_index worst_size
    else worstFitFrom size bs (i + 1) worst_index worst_size

/-- The method `MemoryManager::worstFit`: starts from `worst_index = -1`,
`worst_size = 0`. -/
def worstFit (blocks : List Block) (size : Nat) : Option Nat :=
  worstFitFrom size blocks 0 none 0

/-- The `switch (current_strategy)` of `MemoryManager::malloc`. -/
def selectBlock (strategy : AllocStrategy) (blocks : List Block) (nbytes : Nat) : Option Nat :=
  match strategy with
  | AllocStrategy.FIRST_FIT => firstFit blocks nbytes
  | AllocStrategy.BEST_FIT => bestFit blocks nbytes
  | AllocStrategy.WORST_FIT => worstFit blocks nbytes

/-- The part of `MemoryManager::malloc` after a block index was found: the block list
after the call.  When the chosen block is larger than the request it is cut down to
`nbytes` and the remainder is inserted right after it as a free block.  The writes
`chosen.is_free = false` and `chosen.id = new_id` come after the insert: when the
insert found `blocks.size() == capacity` the elements were moved and the writes miss
the vector, so the block at `block_index` is the chosen block with its size cut down
and nothing else changed; otherwise, and when there is no split, the block is marked
used and given the id. -/
def carve (blocks : List Block) (capacity : Nat) (block_index : Nat) (chosen : Block)
    (nbytes : Nat) (new_id : Int) : List Block :=
  if chosen.size > nbytes then
    if blocks.length = capacity then
      blocks.take block_index ++
        { chosen with size := nbytes } ::
        { address := addSize chosen.address nbytes, size := chosen.size - nbytes,
          is_free := true, id := -1 } ::
        blocks.drop (block_index + 1)
    else
      blocks.take block_index ++
        { address := chosen.address, size := nbytes, is_free := false, id := new_id } ::
        { address := addSize chosen.address nbytes, size := chosen.size - nbytes,
          is_free := true, id := -1 } ::
        blocks.drop (block_index + 1)
  else
    blocks.take block_index ++
      { address := chosen.address, size := chosen.size, is_free := false, id := new_id } ::
      blocks.drop (block_index + 1)

/-- The method `MemoryManager::malloc`: the returned `int` and the state after the
call.  The value returned on success is `chosen.id` right after `chosen.id = next_id++`,
the old next id.  `used_memory += chosen.size` adds the size of the chosen block after
the split; after a moving insert the read goes through the dangling reference and
finds the next value of `released` (0 when the list is exhausted). -/
def MemoryManager.malloc (m : MemoryManager) (nbytes : Nat) : Int × MemoryManager :=
  let m1 := { m with total_alloc_requests := addSize m.total_alloc_requests 1 }
  if nbytes = 0 then
    (-1, { m1 with failed_requests := addSize m1.failed_requests 1 })
  else
    match selectBlock m1.current_strategy m1.blocks nbytes with
    | none => (-1, { m1 with failed_requests := addSize m1.failed_requests 1 })
    | some block_index =>
      match m1.blocks[block_index]? with
      | none => (-1, m1) -- not taken: the fit functions return indices below blocks.size()
      | some chosen =>
        (m1.next_id,
          { m1 with
            internal_frag :=
              if chosen.size > nbytes then addSize m1.internal_frag (chosen.size - nbytes)
              else m1.internal_frag
            blocks := carve m1.blocks m1.capacity block_index chosen nbytes m1.next_id
            capacity :=
              if chosen.size > nbytes ∧ m1.blocks.length = m1.capacity then
                grownCapacity m1.blocks.length
              else m1.capacity
            released :=
              if chosen.size > nbytes ∧ m1.blocks.length = m1.capacity then
                m1.released.tail
              else m1.released
            next_id := m1.next_id + 1
            used_memory :=
              addSize m1.used_memory
                (if chosen.size > nbytes then
                  if m1.blocks.length = m1.capacity then m1.released.headD 0 else nbytes
                else chosen.size) })

/-- The first loop of `MemoryManager::coalesce`: while the block after `index` is free
it is absorbed into `blocks[index]` and erased.  Every round shortens the list, so
`fuel = blocks.size()` rounds are never all used. -/
def coalesceNext : Nat → List Block → Nat → List Block
  | 0, blocks, _ => blocks
  | fuel + 1, blocks, index =>
    match blocks[index]?, blocks[index + 1]? with
    | some b, some nb =>
      if nb.is_free then
        coalesceNext fuel
          ((blocks.set index { b with size := addSize b.size nb.size }).eraseIdx (index + 1))
          index
      else blocks
    | _, _ => blocks

/-- The second loop of `MemoryManager::coalesce`: while `index > 0` and the block before
`index` is free, `blocks[index]` is absorbed into it and erased, and `index` goes down
by one. -/
def coalescePrev : List Block → Nat → List Block
  | blocks, 0 => blocks
  | blocks, i + 1 =>
    match blocks[i]?, blocks[i + 1]? with
    | some pb, some b =>
      if pb.is_free then
        coalescePrev
          ((blocks.set i { pb with size := addSize pb.size b.size }).eraseIdx (i + 1)) i
      else blocks
    | _, _ => blocks

/-- The method `MemoryManager::coalesce`. -/
def coalesce (blocks : List Block) (index : Nat) : List Block :=
  coalescePrev (coalesceNext blocks.length blocks index) index

/-- The search of `MemoryManager::free`: the first index whose block carries
`block_id` and is not free. -/
def findUsedFrom (block_id : Int) : List Block → Nat → Option Nat
  | [], _ => none
  | b :: bs, i =>
    if decide (b.id = block_id) && !b.is_free then some i
    else findUsedFrom block_id bs (i + 1)

/-- The method `MemoryManager::free`. -/
def MemoryManager.free (m : MemoryManager) (block_id : Int) : MemoryManager :=
  match findUsedFrom block_id m.blocks 0 with
  | none => m
  | some i =>
    match m.blocks[i]? with
    | none => m -- not taken: the search returns indices below blocks.size()
    | some b =>
      { m with
        used_memory := subSize m.used_memory b.size
        blocks := coalesce (m.blocks.set i { b with is_free := true, id := -1 }) i }

/-- A call on a `MemoryManager` after `init`. -/
inductive Op where
  | malloc (nbytes : Nat)
  | free (block_id : Int)
  | setStrategy (strategy : AllocStrategy)
  deriving DecidableEq, Repr

/-- The state after one call. -/
def MemoryManager.step (m : MemoryManager) : Op → MemoryManager
  | Op.malloc nbytes => (m.malloc nbytes).2
  | Op.free block_id => m.free block_id
  | Op.setStrategy strategy => m.setStrategy strategy

/-- The state after a sequence of calls, issued left to right. -/
def MemoryManager.run (m : MemoryManager) (ops : List Op) : MemoryManager :=
  ops.foldl MemoryManager.step m

/-- The loop of `MemoryManager::getLargestFreeBlock`, with its local `largest`. -/
def largestFreeFrom : List Block → Nat → Nat
  | [], largest => largest
  | b :: bs, largest =>
    if b.is_free && decide (b.size > largest) then largestFreeFrom bs b.size
    else largestFreeFrom bs largest

/-- The method `MemoryManager::getLargestFreeBlock`. -/
def MemoryManager.getLargestFreeBlock (m : MemoryManager) : Nat :=
  largestFreeFrom m.blocks 0

/-- The loop of `MemoryManager::calculateExternalFragmentation`, with its local
`total_free`. -/
def totalFreeFrom : List Block → Nat → Nat
  | [], total_free => total_free
  | b :: bs, total_free =>
    if b.is_free then totalFreeFrom bs (addSize total_free b.size)
    else totalFreeFrom bs total_free

/-- The method `MemoryManager::calculateExternalFragmentation`:
`((total_free - largest_free) * 100) / total_free` in `size_t` arithmetic, 0 when
`total_free` is 0. -/
def MemoryManager.calculateExternalFragmentation (m : MemoryManager) : Nat :=
  if totalFreeFrom m.blocks 0 = 0 then 0
  else mulSize (subSize (totalFreeFrom m.blocks 0) m.getLargestFreeBlock) 100 /
    totalFreeFrom m.blocks 0

/-- The sum of the sizes of the free blocks, as a natural number. -/
def freeSum (blocks : List Block) : Nat :=
  ((blocks.filter (fun b => b.is_free)).map (fun b => b.size)).sum

/-- The size of the largest free block, 0 when no block is free. -/
def freeMax (blocks : List Block) : Nat :=
  ((blocks.filter (fun b => b.is_free)).map (fun b => b.size)).foldr max 0

/-- Two used blocks carry different ids. -/
def DistinctIds (b c : Block) : Prop :=
  b.is_free = false → c.is_free = false → b.id ≠ c.id

/-- The id invariant of the contiguous allocator: the next id is positive, every free
block carries the id -1, every used block an id from 1 up to the next id, and no two
used blocks share an id. -/
structure IdsInv (m : MemoryManager) : Prop where
  next_pos : 1 ≤ m.next_id
  free_ids : ∀ b ∈ m.blocks, b.is_free = true → b.id = -1
  used_ids : ∀ b ∈ m.blocks, b.is_free = false → 1 ≤ b.id ∧ b.id < m.next_id
  distinct : m.blocks.Pairwise DistinctIds

/-- The values returned by the `malloc` calls of a sequence of calls, in order. -/
def MemoryManager.mallocResults (m : MemoryManager) : List Op → List Int
  | [] => []
  | Op.malloc nbytes :: ops => (m.malloc nbytes).1 :: (m.malloc nbytes).2.mallocResults ops
  | Op.free block_id :: ops => (m.free block_id).mallocResults ops
  | Op.setStrategy strategy :: ops => (m.setStrategy strategy).mallocResults ops

/-! ## The fit functions -/

/-- The test `blocks[i].is_free && blocks[i].size >= size` shared by the three fit
functions. -/
def Fits (n : Nat) (b : Block) : Prop := b.is_free = true ∧ n ≤ b.size

instance (n : Nat) (b : Block) : Decidable (Fits n b) := by
  unfold Fits; infer_instance

/-- The blocks of a list lie end to end from address `a` to address `e`. -/
def TilesFrom : Nat → List Block → Nat → Prop
  | a, [], e => a = e
  | a, b :: bs, e => b.address = a ∧ TilesFrom (a + b.size) bs e

/-- What the first loop of `coalesce` does, seen from the block at `index` and the
blocks after it: the leading free blocks are absorbed one by one. -/
def absorbNext (b : Block) : List Block → Block × List Block
  | [] => (b, [])
  | nb :: rest =>
    if nb.is_free then absorbNext { b with size := addSize b.size nb.size } rest
    else (b, nb :: rest)

/-- What the second loop of `coalesce` does, seen from the block at `index` and the
blocks before it, nearest first: the block is absorbed into the free blocks before
it one by one. -/
def absorbPrev : List Block → Block → List Block × Block
  | [], b => ([], b)
  | pb :: rest, b =>
    if pb.is_free then absorbPrev rest { pb with size := addSize pb.size b.size }
    else (pb :: rest, b)

/-- The invariant of the block list for an extent of `total` bytes: the list is not
empty and lies end to end from address 0 to `total`. -/
def ListInv (blocks : List Block) (total : Nat) : Prop :=
  blocks ≠ [] ∧ TilesFrom 0 blocks total

/-! ## Buddy allocator (`BuddyAllocator`)

The two `std::map` members are association lists kept in increasing key order, read
through `getList` and `findBlock`.  Loops that halt on every input are written by
structural recursion where the source has a counter going down; the three loops that
double a `size_t` take a number of rounds as fuel and return `none` when it runs out.
-/

/-- The struct `BuddyBlock` of include/BuddyAllocator.h. -/
structure BuddyBlock where
  address : Nat
  size : Nat
  id : Int
  deriving DecidableEq, Repr

/-- The data members of class `BuddyAllocator`. -/
structure BuddyAllocator where
  free_lists : List (Nat × List Nat)
  allocated_blocks : List (Int × BuddyBlock)
  total_memory : Nat
  used_memory : Nat
  next_id : Int
  total_alloc_requests : Nat
  failed_requests : Nat
  internal_frag : Nat
  deriving DecidableEq, Repr

/-- The free addresses stored under `key`: the list `free_lists[key]`, empty when the
map has no entry for `key`. -/
def getList : List (Nat × List Nat) → Nat → List Nat
  | [], _ => []
  | (k, l) :: rest, key => if key = k then l else getList rest key

/-- The map with the list under `key` replaced by `l` (the entry is created in key order
when the map has none). -/
def setList : List (Nat × List Nat) → Nat → List Nat → List (Nat × List Nat)
  | [], key, l => [(key, l)]
  | (k, l0) :: rest, key, l =>
    if key < k then (key, l) :: (k, l0) :: rest
    else if key = k then (k, l) :: rest
    else (k, l0) :: setList rest key l

/-- The effect of evaluating `free_lists[key]` on the map: an empty list is created
under `key` when the map has no entry for it. -/
def touch (fl : List (Nat × List Nat)) (key : Nat) : List (Nat × List Nat) :=
  setList fl key (getList fl key)

/-- The call `free_lists[key].push_back(addr)`. -/
def pushBack (fl : List (Nat × List Nat)) (key addr : Nat) : List (Nat × List Nat) :=
  setList fl key (getList fl key ++ [addr])

/-- The call `allocated_blocks.find(block_id)`. -/
def findBlock : List (Int × BuddyBlock) → Int → Option BuddyBlock
  | [], _ => none
  | (k, b) :: rest, block_id => if block_id = k then some b else findBlock rest block_id

/-- The assignment `allocated_blocks[block_id] = b`. -/
def assignBlock : List (Int × BuddyBlock) → Int → BuddyBlock → List (Int × BuddyBlock)
  | [], block_id, b => [(block_id, b)]
  | (k, b0) :: rest, block_id, b =>
    if block_id < k then (block_id, b) :: (k, b0) :: rest
    else if block_id = k then (k, b) :: rest
    else (k, b0) :: assignBlock rest block_id b

/-- The call `allocated_blocks.erase(it)` for the entry found under `block_id`; a
`std::map` holds one entry per key. -/
def eraseBlock : List (Int × BuddyBlock) → Int → List (Int × BuddyBlock)
  | [], _ => []
  | (k, b) :: rest, block_id =>
    if k = block_id then eraseBlock rest block_id else (k, b) :: eraseBlock rest block_id

/-- The constructor `BuddyAllocator::BuddyAllocator()`. -/
def BuddyAllocator.new : BuddyAllocator :=
  { free_lists := [], allocated_blocks := [], total_memory := 0, used_memory := 0,
    next_id := 1, total_alloc_requests := 0, failed_requests := 0, internal_frag := 0 }

/-- The method `BuddyAllocator::isPowerOfTwo`: `n > 0 && (n & (n - 1)) == 0`. -/
def isPowerOfTwo (n : Nat) : Bool :=
  decide (n > 0) && ((n &&& (n - 1)) == 0)

/-- The loop `while (power < n) power *= 2` of `nextPowerOfTwo`.  `power` runs through
1, 2, ..., 2^63 and then wraps to 0, where it stays; the loop either leaves within the
first 64 tests or never. -/
def nextPowerOfTwoLoop : Nat → Nat → Nat → Option Nat
  | 0, _, _ => none
  | fuel + 1, power, n =>
    if power < n then nextPowerOfTwoLoop fuel (mulSize power 2) n else some power

/-- The method `BuddyAllocator::nextPowerOfTwo`; `none` when its loop does not
terminate. -/
def nextPowerOfTwo (n : Nat) : Option Nat :=
  if n = 0 then some 1
  else if isPowerOfTwo n then some n
  else nextPowerOfTwoLoop 65 1 n

/-- The method `BuddyAllocator::getBuddyAddress`: `address ^ size`. -/
def getBuddyAddress (address size : Nat) : Nat := address ^^^ size

/-- The method `BuddyAllocator::splitBlock`, as a function of the free-list map.  A
`size_t` reaches 0 after at most 64 halvings, so a fuel of 65 rounds is never used
up. -/
def splitBlock : Nat → List (Nat × List Nat) → Nat → Nat → Nat → List (Nat × List Nat)
  | 0, fl, _, _, _ => fl
  | fuel + 1, fl, address, current_size, target_size =>
    if current_size > target_size then
      splitBlock fuel (pushBack fl (current_size / 2) (addSize address (current_size / 2)))
        address (current_size / 2) target_size
    else fl

/-- The method `BuddyAllocator::init`. -/
def BuddyAllocator.init (st : BuddyAllocator) (total_size : Nat) : BuddyAllocator :=
  if !isPowerOfTwo total_size then st
  else
    { free_lists := pushBack [] total_size 0
      allocated_blocks := []
      total_memory := total_size
      used_memory := 0
      next_id := 1
      total_alloc_requests := 0
      failed_requests := 0
      internal_frag := 0 }

/-- The search loop of `allocate`:
`while (block_size <= total_memory && free_lists[block_size].empty()) block_size *= 2`.
Returns the final `block_size` and the map (with the entries the tests created).
`block_size` wraps to 0 after at most 64 doublings and stays there, so the loop either
leaves within 65 tests or never. -/
def findBlockSize : Nat → List (Nat × List Nat) → Nat → Nat → Option (Nat × List (Nat × List Nat))
  | 0, _, _, _ => none
  | fuel + 1, fl, total_memory, block_size =>
    if block_size ≤ total_memory then
      if (getList (touch fl block_size) block_size).isEmpty then
        findBlockSize fuel (touch fl block_size) total_memory (mulSize block_size 2)
      else some (block_size, touch fl block_size)
    else some (block_size, fl)

/-- The method `BuddyAllocator::allocate`: the returned `int` and the state after the
call, or `none` when one of its loops does not terminate. -/
def BuddyAllocator.allocate (st : BuddyAllocator) (size : Nat) : Option (Int × BuddyAllocator) :=
  let st1 := { st with total_alloc_requests := addSize st.total_alloc_requests 1 }
  if size = 0 then
    some (-1, { st1 with failed_requests := addSize st1.failed_requests 1 })
  else
    match nextPowerOfTwo size with
    | none => none
    | some actual_size =>
      let st2 := { st1 with internal_frag := addSize st1.internal_frag (subSize actual_size size) }
      match findBlockSize 65 st2.free_lists st2.total_memory actual_size with
      | none => none
      | some (block_size, fl) =>
        if block_size > st2.total_memory then
          some (-1, { st2 with free_lists := fl, failed_requests := addSize st2.failed_requests 1 })
        else
          match getList fl block_size with
          | [] => none -- not taken: the search loop left on a non-empty list
          | address :: rest =>
            some (st2.next_id,
              { st2 with
                free_lists := splitBlock 65 (setList fl block_size rest) address block_size actual_size
                allocated_blocks :=
                  assignBlock st2.allocated_blocks st2.next_id
                    { address := address, size := actual_size, id := st2.next_id }
                next_id := st2.next_id + 1
                used_memory := addSize st2.used_memory actual_size })

/-- The merge loop of `free`: while `size < total_memory` and the buddy address is in
the free list of the current size, the buddy is erased, the lower of the two addresses
is kept and the size doubles.  Returns the map, the address and the size at exit, or
`none` when the fuel runs out. -/
def mergeLoop : Nat → List (Nat × List Nat) → Nat → Nat → Nat →
    Option (List (Nat × List Nat) × Nat × Nat)
  | 0, _, _, _, _ => none
  | fuel + 1, fl, total_memory, address, size =>
    if size < total_memory then
      if getBuddyAddress address size ∈ getList (touch fl size) size then
        mergeLoop fuel
          (setList (touch fl size) size
            ((getList (touch fl size) size).erase (getBuddyAddress address size)))
          total_memory (min address (getBuddyAddress address size)) (mulSize size 2)
      else some (touch fl size, address, size)
    else some (fl, address, size)

/-- The method `BuddyAllocator::free`.  The merge loop gets 65 rounds, more than it
runs in any state whose block sizes are powers of two up to `total_memory`. -/
def BuddyAllocator.free (st : BuddyAllocator) (block_id : Int) : Option BuddyAllocator :=
  match findBlock st.allocated_blocks block_id with
  | none => some st
  | some block =>
    match mergeLoop 65 st.free_lists st.total_memory block.address block.size with
    | none => none
    | some (fl, address, size) =>
      some { st with
        allocated_blocks := eraseBlock st.allocated_blocks block_id
        used_memory := subSize st.used_memory block.size
        free_lists := pushBack fl size address }

/-- A call on a `BuddyAllocator` after `init`. -/
inductive BuddyOp where
  | allocate (size : Nat)
  | free (block_id : Int)
  deriving DecidableEq, Repr

/-- The state after one call, `none` when the call does not return. -/
def BuddyAllocator.step (st : BuddyAllocator) : BuddyOp → Option BuddyAllocator
  | BuddyOp.allocate size => (st.allocate size).map (fun r => r.2)
  | BuddyOp.free block_id => st.free block_id

/-- The state after a sequence of calls, issued left to right, `none` when one of them
does not return. -/
def BuddyAllocator.run (st : BuddyAllocator) : List BuddyOp → Option BuddyAllocator
  | [] => some st
  | op :: ops =>
    match st.step op with
    | none => none
    | some st1 => st1.run ops

/-- 1 when `x` lies in the span `[a, a + s)`, else 0. -/
def ind (a s x : Nat) : Nat := if a ≤ x ∧ x < a + s then 1 else 0

/-- The number of addresses `a` of the list whose span `[a, a + s)` holds `x`. -/
def cntList (s : Nat) (l : List Nat) (x : Nat) : Nat := (l.map (fun a => ind a s x)).sum

/-- The number of free blocks, over the size classes `2^0 .. 2^63`, whose span
holds `x`. -/
def coverFree (fl : List (Nat × List Nat)) (x : Nat) : Nat :=
  Finset.sum (Finset.range 64) (fun j => cntList (2 ^ j) (getList fl (2 ^ j)) x)

/-- 1 when the entry is a block whose span holds `x`, else 0. -/
def liveInd : Option BuddyBlock → Nat → Nat
  | none, _ => 0
  | some b, x => ind b.address b.size x

/-- The number of live blocks with an id in `0 .. n - 1` whose span holds `x`. -/
def coverLive (live : List (Int × BuddyBlock)) (n : Nat) (x : Nat) : Nat :=
  Finset.sum (Finset.range n) (fun i => liveInd (findBlock live (i : Int)) x)

/-- Every free list sits under a power of two up to `2^k` and holds multiples of it. -/
def FreeOK (k : Nat) (fl : List (Nat × List Nat)) : Prop :=
  ∀ s a, a ∈ getList fl s → ∃ j, j ≤ k ∧ s = 2 ^ j ∧ s ∣ a

/-- The invariant of the buddy allocator for an extent of `2^k` bytes: free lists and
live blocks are aligned powers of two, live ids are below `next_id`, and every address
below `2^k` lies in exactly one free or live span, every other address in none. -/
structure BuddyInv (st : BuddyAllocator) (k : Nat) : Prop where
  total : st.total_memory = 2 ^ k
  next_nonneg : 0 ≤ st.next_id
  free_ok : FreeOK k st.free_lists
  live_ok : ∀ id b, findBlock st.allocated_blocks id = some b →
    0 ≤ id ∧ id < st.next_id ∧ ∃ j, j ≤ k ∧ b.size = 2 ^ j ∧ b.size ∣ b.address
  cover : ∀ x, coverFree st.free_lists x + coverLive st.allocated_blocks st.next_id.toNat x =
    if x < 2 ^ k then 1 else 0

/-- The state after `init(1024)`, `allocate(100)`, `allocate(200)`, `free(1)`: block 2
is live at `[256, 512)`, and `[0, 256)` and `[512, 1024)` are free. -/
def buddyExample : BuddyAllocator :=
  { free_lists := [(128, []), (256, [0]), (512, [512]), (1024, [])]
    allocated_blocks := [(2, { address := 256, size := 256, id := 2 })]
    total_memory := 1024
    used_memory := 256
    next_id := 3
    total_alloc_requests := 2
    failed_requests := 0
    internal_frag := 84 }

/-- The state after `init(1024)`, `allocate(1)`, `allocate(300)`, `free(1)`,
`allocate(60)`. -/
def buddyExample2 : BuddyAllocator :=
  { free_lists := [(1, []), (2, []), (4, []), (8, []), (16, []), (32, []), (64, [64]),
      (128, [128]), (256, [256]), (512, []), (1024, [])]
    allocated_blocks := [(2, { address := 512, size := 512, id := 2 }),
      (3, { address := 0, size := 64, id := 3 })]
    total_memory := 1024
    used_memory := 576
    next_id := 4
    total_alloc_requests := 3
    failed_requests := 0
    internal_frag := 216 }

/-- The sum of the sizes of the used blocks, as a natural number. -/
def usedSum (blocks : List Block) : Nat :=
  ((blocks.filter (fun b => !b.is_free)).map (fun b => b.size)).sum

/-- The size of a live record, 0 for no record. -/
def liveSize : Option BuddyBlock → Nat
  | none => 0
  | some b => b.size

/-- The sum of the sizes of the live blocks with an id in `0 .. n - 1`. -/
def liveTotal (live : List (Int × BuddyBlock)) (n : Nat) : Nat :=
  Finset.sum (Finset.range n) (fun i => liveSize (findBlock live (i : Int)))

/-- The accounting invariant of the buddy allocator: `used_memory` is the sum of the
sizes of the live blocks. -/
def BuddyUsed (st : BuddyAllocator) : Prop :=
  st.used_memory = liveTotal st.allocated_blocks st.next_id.toNat

/-- The address `a` rounded down to a multiple of `m`, in the words of the merge
postcondition. -/
def roundDown (a m : Nat) : Nat := a / m * m

/-- The state after `init(1024)` and four failed `allocate(2^62 + 1)`: each call rounds
to `2^63` and adds `2^62 - 1` to the internal-fragmentation counter, which stands at
`2^64 - 4`. -/
def buddyFragFull : BuddyAllocator :=
  { free_lists := [(1024, [0])]
    allocated_blocks := []
    total_memory := 1024
    used_memory := 0
    next_id := 1
    total_alloc_requests := 4
    failed_requests := 4
    internal_frag := 2 ^ 64 - 4 }

/-- The state after `init(2^63)`, `allocate(2^63)`: the whole extent is one live
block and no size class has a free address. -/
def buddyTopFull : BuddyAllocator :=
  { free_lists := [(2 ^ 63, [])]
    allocated_blocks := [(1, { address := 0, size := 2 ^ 63, id := 1 })]
    total_memory := 2 ^ 63
    used_memory := 2 ^ 63
    next_id := 2
    total_alloc_requests := 1
    failed_requests := 0
    internal_frag := 0 }

/-! ## Lemmas on the fit functions -/

theorem fits_test (n : Nat) (b : Block) :
    (b.is_free && decide (b.size ≥ n)) = true ↔ Fits n b := by
  simp [Fits]

theorem firstFitFrom_none (n : Nat) (bs : List Block) (k : Nat) :
    firstFitFrom n bs k = none ↔ ∀ b ∈ bs, ¬ Fits n b := by
  induction bs generalizing k with
  | nil => simp [firstFitFrom]
  | cons b bs ih =>
    unfold firstFitFrom
    by_cases hb : Fits n b
    · rw [if_pos ((fits_test n b).2 hb)]
      simp [hb]
    · rw [if_neg (fun h => hb ((fits_test n b).1 h)), ih]
      simp [hb]

theorem firstFitFrom_some (n : Nat) (bs : List Block) (k i : Nat)
    (h : firstFitFrom n bs k = some i) :
    ∃ j b, i = k + j ∧ bs[j]? = some b ∧ Fits n b ∧
      ∀ j2 c, j2 < j → bs[j2]? = some c → ¬ Fits n c := by
  induction bs generalizing k with
  | nil => simp [firstFitFrom] at h
  | cons b bs ih =>
    unfold firstFitFrom at h
    by_cases hb : Fits n b
    · rw [if_pos ((fits_test n b).2 hb)] at h
      refine ⟨0, b, ?_, by simp, hb, ?_⟩
      · simpa using h.symm
      · intro j2 c hj; omega
    · rw [if_neg (fun h => hb ((fits_test n b).1 h))] at h
      obtain ⟨j, c, hi, hc, hfit, hmin⟩ := ih (k + 1) h
      refine ⟨j + 1, c, by omega, by simpa using hc, hfit, ?_⟩
      intro j2 d hj hd
      cases j2 with
      | zero => simp at hd; subst hd; exact hb
      | succ j3 => exact hmin j3 d (by omega) (by simpa using hd)


theorem firstFit_lt_length (n : Nat) (bs : List Block) (i : Nat)
    (h : firstFit bs n = some i) : ∃ b, bs[i]? = some b ∧ Fits n b := by
  obtain ⟨j, b, hi, hb, hfit, -⟩ := firstFitFrom_some n bs 0 i h
  exact ⟨b, by simpa [hi] using hb, hfit⟩

/-- What the loop of `worstFit` computes from any entry state: either nothing on the
way beats `worst_size` and the entry index is returned, or the first block of largest
size among the fitting ones is. -/
theorem worstFitFrom_spec (n : Nat) (bs : List Block) (k : Nat) (wi : Option Nat) (ws : Nat) :
    ((∀ b ∈ bs, Fits n b → b.size ≤ ws) ∧ worstFitFrom n bs k wi ws = wi) ∨
    ∃ j b, bs[j]? = some b ∧ Fits n b ∧ ws < b.size ∧
      (∀ c ∈ bs, Fits n c → c.size ≤ b.size) ∧
      (∀ j2 c, j2 < j → bs[j2]? = some c → Fits n c → c.size < b.size) ∧
      worstFitFrom n bs k wi ws = some (k + j) := by
  induction bs generalizing k wi ws with
  | nil => left; simp [worstFitFrom]
  | cons b bs ih =>
    unfold worstFitFrom
    by_cases hb : Fits n b
    · rw [if_pos ((fits_test n b).2 hb)]
      by_cases hgt : b.size > ws
      · rw [if_pos hgt]
        rcases ih (k + 1) (some k) b.size with ⟨hall, hres⟩ | ⟨j, c, hc, hfit, hlt, hmax, hfirst, hres⟩
        · right
          refine ⟨0, b, by simp, hb, hgt, ?_, ?_, by simpa using hres⟩
          · intro c hc hfit
            rcases List.mem_cons.1 hc with rfl | hc
            · exact le_refl _
            · exact hall c hc hfit
          · intro j2 c hj; omega
        · right
          refine ⟨j + 1, c, by simpa using hc, hfit, by omega, ?_, ?_, ?_⟩
          · intro d hd hdfit
            rcases List.mem_cons.1 hd with rfl | hd
            · omega
            · exact hmax d hd hdfit
          · intro j2 d hj hd hdfit
            cases j2 with
            | zero => simp at hd; subst hd; exact hlt
            | succ j3 => exact hfirst j3 d (by omega) (by simpa using hd) hdfit
          · rw [hres]; congr 1; omega
      · rw [if_neg hgt]
        rcases ih (k + 1) wi ws with ⟨hall, hres⟩ | ⟨j, c, hc, hfit, hlt, hmax, hfirst, hres⟩
        · left
          refine ⟨?_, hres⟩
          intro c hc hfit
          rcases List.mem_cons.1 hc with rfl | hc
          · omega
          · exact hall c hc hfit
        · right
          refine ⟨j + 1, c, by simpa using hc, hfit, hlt, ?_, ?_, ?_⟩
          · intro d hd hdfit
            rcases List.mem_cons.1 hd with rfl | hd
            · omega
            · exact hmax d hd hdfit
          · intro j2 d hj hd hdfit
            cases j2 with
            | zero => simp at hd; subst hd; omega
            | succ j3 => exact hfirst j3 d (by omega) (by simpa using hd) hdfit
          · rw [hres]; congr 1; omega
    · rw [if_neg (fun h => hb ((fits_test n b).1 h))]
      rcases ih (k + 1) wi ws with ⟨hall, hres⟩ | ⟨j, c, hc, hfit, hlt, hmax, hfirst, hres⟩
      · left
        refine ⟨?_, hres⟩
        intro c hc hfit
        rcases List.mem_cons.1 hc with rfl | hc
        · exact absurd hfit hb
        · exact hall c hc hfit
      · right
        refine ⟨j + 1, c, by simpa using hc, hfit, hlt, ?_, ?_, ?_⟩
        · intro d hd hdfit
          rcases List.mem_cons.1 hd with rfl | hd
          · exact absurd hdfit hb
          · exact hmax d hd hdfit
        · intro j2 d hj hd hdfit
          cases j2 with
          | zero => simp at hd; subst hd; exact absurd hdfit hb
          | succ j3 => exact hfirst j3 d (by omega) (by simpa using hd) hdfit
        · rw [hres]; congr 1; omega

/-- What the loop of `bestFit` computes from any entry state: either nothing on the way
is below `best_size` and the entry index is returned, or the first block of smallest
size among the fitting ones is. -/
theorem bestFitFrom_spec (n : Nat) (bs : List Block) (k : Nat) (bi : Option Nat) (bsz : Nat) :
    ((∀ b ∈ bs, Fits n b → bsz ≤ b.size) ∧ bestFitFrom n bs k bi bsz = bi) ∨
    ∃ j b, bs[j]? = some b ∧ Fits n b ∧ b.size < bsz ∧
      (∀ c ∈ bs, Fits n c → b.size ≤ c.size) ∧
      (∀ j2 c, j2 < j → bs[j2]? = some c → Fits n c → b.size < c.size) ∧
      bestFitFrom n bs k bi bsz = some (k + j) := by
  induction bs generalizing k bi bsz with
  | nil => left; simp [bestFitFrom]
  | cons b bs ih =>
    unfold bestFitFrom
    by_cases hb : Fits n b
    · rw [if_pos ((fits_test n b).2 hb)]
      by_cases hgt : b.size < bsz
      · rw [if_pos hgt]
        rcases ih (k + 1) (some k) b.size with ⟨hall, hres⟩ | ⟨j, c, hc, hfit, hlt, hmax, hfirst, hres⟩
        · right
          refine ⟨0, b, by simp, hb, hgt, ?_, ?_, by simpa using hres⟩
          · intro c hc hfit
            rcases List.mem_cons.1 hc with rfl | hc
            · exact le_refl _
            · exact hall c hc hfit
          · intro j2 c hj; omega
        · right
          refine ⟨j + 1, c, by simpa using hc, hfit, by omega, ?_, ?_, ?_⟩
          · intro d hd hdfit
            rcases List.mem_cons.1 hd with rfl | hd
            · omega
            · exact hmax d hd hdfit
          · intro j2 d hj hd hdfit
            cases j2 with
            | zero => simp at hd; subst hd; exact hlt
            | succ j3 => exact hfirst j3 d (by omega) (by simpa using hd) hdfit
          · rw [hres]; congr 1; omega
      · rw [if_neg hgt]
        rcases ih (k + 1) bi bsz with ⟨hall, hres⟩ | ⟨j, c, hc, hfit, hlt, hmax, hfirst, hres⟩
        · left
          refine ⟨?_, hres⟩
          intro c hc hfit
          rcases List.mem_cons.1 hc with rfl | hc
          · omega
          · exact hall c hc hfit
        · right
          refine ⟨j + 1, c, by simpa using hc, hfit, hlt, ?_, ?_, ?_⟩
          · intro d hd hdfit
            rcases List.mem_cons.1 hd with rfl | hd
            · omega
            · exact hmax d hd hdfit
          · intro j2 d hj hd hdfit
            cases j2 with
            | zero => simp at hd; subst hd; omega
            | succ j3 => exact hfirst j3 d (by omega) (by simpa using hd) hdfit
          · rw [hres]; congr 1; omega
    · rw [if_neg (fun h => hb ((fits_test n b).1 h))]
      rcases ih (k + 1) bi bsz with ⟨hall, hres⟩ | ⟨j, c, hc, hfit, hlt, hmax, hfirst, hres⟩
      · left
        refine ⟨?_, hres⟩
        intro c hc hfit
        rcases List.mem_cons.1 hc with rfl | hc
        · exact absurd hfit hb
        · exact hall c hc hfit
      · right
        refine ⟨j + 1, c, by simpa using hc, hfit, hlt, ?_, ?_, ?_⟩
        · intro d hd hdfit
          rcases List.mem_cons.1 hd with rfl | hd
          · exact absurd hdfit hb
          · exact hmax d hd hdfit
        · intro j2 d hj hd hdfit
          cases j2 with
          | zero => simp at hd; subst hd; exact absurd hdfit hb
          | succ j3 => exact hfirst j3 d (by omega) (by simpa using hd) hdfit
        · rw [hres]; congr 1; omega

theorem worstFit_some (n : Nat) (bs : List Block) (i : Nat) (h : worstFit bs n = some i) :
    ∃ b, bs[i]? = some b ∧ Fits n b ∧ (∀ c ∈ bs, Fits n c → c.size ≤ b.size) ∧
      ∀ j2 c, j2 < i → bs[j2]? = some c → Fits n c → c.size < b.size := by
  unfold worstFit at h
  rcases worstFitFrom_spec n bs 0 none 0 with ⟨-, hres⟩ | ⟨j, b, hb, hfit, -, hmax, hfirst, hres⟩
  · rw [hres] at h; cases h
  · rw [hres] at h
    have hi : i = j := by simpa using h.symm
    subst hi
    exact ⟨b, hb, hfit, hmax, hfirst⟩

theorem bestFit_some (n : Nat) (bs : List Block) (i : Nat) (h : bestFit bs n = some i) :
    ∃ b, bs[i]? = some b ∧ Fits n b ∧ b.size < SIZE_MAX ∧
      (∀ c ∈ bs, Fits n c → b.size ≤ c.size) ∧
      ∀ j2 c, j2 < i → bs[j2]? = some c → Fits n c → b.size < c.size := by
  unfold bestFit at h
  rcases bestFitFrom_spec n bs 0 none SIZE_MAX with ⟨-, hres⟩ | ⟨j, b, hb, hfit, hlt, hmax, hfirst, hres⟩
  · rw [hres] at h; cases h
  · rw [hres] at h
    have hi : i = j := by simpa using h.symm
    subst hi
    exact ⟨b, hb, hfit, hlt, hmax, hfirst⟩

theorem bestFit_none (n : Nat) (bs : List Block) :
    bestFit bs n = none ↔ ∀ b ∈ bs, Fits n b → SIZE_MAX ≤ b.size := by
  unfold bestFit
  rcases bestFitFrom_spec n bs 0 none SIZE_MAX with ⟨hall, hres⟩ | ⟨j, b, hb, hfit, hlt, -, -, hres⟩
  · simp [hres]; exact hall
  · simp only [hres]
    constructor
    · intro h; cases h
    · intro h
      have := h b (List.getElem?_mem hb) hfit
      omega

theorem worstFit_none (n : Nat) (hn : 1 ≤ n) (bs : List Block) :
    worstFit bs n = none ↔ ∀ b ∈ bs, ¬ Fits n b := by
  unfold worstFit
  rcases worstFitFrom_spec n bs 0 none 0 with ⟨hall, hres⟩ | ⟨j, b, hb, hfit, hlt, -, -, hres⟩
  · simp only [hres, true_iff]
    intro b hb hfit
    have h1 := hall b hb hfit
    have h2 := hfit.2
    omega
  · simp only [hres]
    constructor
    · intro h; cases h
    · intro h
      exact absurd hfit (h b (List.getElem?_mem hb))

/-- Every strategy returns the index of a free block that is large enough. -/
theorem selectBlock_some (s : AllocStrategy) (bs : List Block) (n i : Nat)
    (h : selectBlock s bs n = some i) : ∃ b, bs[i]? = some b ∧ Fits n b := by
  cases s with
  | FIRST_FIT => exact firstFit_lt_length n bs i h
  | BEST_FIT =>
    obtain ⟨b, hb, hfit, -⟩ := bestFit_some n bs i h
    exact ⟨b, hb, hfit⟩
  | WORST_FIT =>
    obtain ⟨b, hb, hfit, -⟩ := worstFit_some n bs i h
    exact ⟨b, hb, hfit⟩
/-! ## The coalescing loops on a split block list -/

theorem getElem?_mid (pre : List Block) (b : Block) (post : List Block) :
    (pre ++ b :: post)[pre.length]? = some b := by
  rw [List.getElem?_append_right (le_refl _)]
  simp

theorem getElem?_mid_succ (pre : List Block) (b : Block) (post : List Block) :
    (pre ++ b :: post)[pre.length + 1]? = post[0]? := by
  rw [List.getElem?_append_right (by omega)]
  simp

theorem set_mid (pre : List Block) (b c : Block) (post : List Block) :
    (pre ++ b :: post).set pre.length c = pre ++ c :: post := by
  simp

theorem eraseIdx_mid_succ (pre : List Block) (b nb : Block) (post : List Block) :
    (pre ++ b :: nb :: post).eraseIdx (pre.length + 1) = pre ++ b :: post := by
  rw [List.eraseIdx_append_of_length_le (by omega)]
  simp

theorem coalesceNext_eq (pre post : List Block) (b : Block) (fuel : Nat)
    (h : post.length < fuel) :
    coalesceNext fuel (pre ++ b :: post) pre.length =
      pre ++ (absorbNext b post).1 :: (absorbNext b post).2 := by
  induction post generalizing b fuel with
  | nil =>
    cases fuel with
    | zero => simp at h
    | succ f =>
      unfold coalesceNext
      rw [getElem?_mid, getElem?_mid_succ]
      simp [absorbNext]
  | cons nb rest ih =>
    cases fuel with
    | zero => simp at h
    | succ f =>
      unfold coalesceNext
      rw [getElem?_mid, getElem?_mid_succ]
      simp only [List.getElem?_cons_zero]
      by_cases hf : nb.is_free = true
      · rw [if_pos hf, absorbNext, if_pos hf, set_mid, eraseIdx_mid_succ]
        exact ih _ f (by simp at h; omega)
      · rw [if_neg hf, absorbNext, if_neg hf]

theorem coalescePrev_eq (rpre post : List Block) (b : Block) :
    coalescePrev (rpre.reverse ++ b :: post) rpre.length =
      (absorbPrev rpre b).1.reverse ++ (absorbPrev rpre b).2 :: post := by
  induction rpre generalizing b with
  | nil => simp [coalescePrev, absorbPrev]
  | cons pb rest ih =>
    have hlen : rest.reverse.length = rest.length := List.length_reverse rest
    have e1 : (pb :: rest).reverse ++ b :: post = rest.reverse ++ pb :: b :: post := by simp
    rw [e1, List.length_cons]
    unfold coalescePrev
    have g1 : (rest.reverse ++ pb :: b :: post)[rest.length]? = some pb := by
      rw [← hlen]; exact getElem?_mid _ _ _
    have g2 : (rest.reverse ++ pb :: b :: post)[rest.length + 1]? = some b := by
      rw [← hlen, getElem?_mid_succ]; simp
    rw [g1, g2]
    by_cases hf : pb.is_free = true
    · simp only []
      rw [if_pos hf, absorbPrev, if_pos hf]
      have s1 : (rest.reverse ++ pb :: b :: post).set rest.length
          { pb with size := addSize pb.size b.size } =
          rest.reverse ++ { pb with size := addSize pb.size b.size } :: b :: post := by
        rw [← hlen]; exact set_mid _ _ _ _
      rw [s1]
      have s2 : (rest.reverse ++ { pb with size := addSize pb.size b.size } :: b :: post).eraseIdx
          (rest.length + 1) = rest.reverse ++ { pb with size := addSize pb.size b.size } :: post := by
        rw [← hlen]; exact eraseIdx_mid_succ _ _ _ _
      rw [s2]
      exact ih _
    · simp only []
      rw [if_neg hf, absorbPrev, if_neg hf]
      simp

/-- The method `coalesce` on a list split at `index`. -/
theorem coalesce_eq (pre post : List Block) (b : Block) :
    coalesce (pre ++ b :: post) pre.length =
      (absorbPrev pre.reverse (absorbNext b post).1).1.reverse ++
        (absorbPrev pre.reverse (absorbNext b post).1).2 :: (absorbNext b post).2 := by
  unfold coalesce
  rw [coalesceNext_eq pre post b _ (by simp; omega)]
  have h := coalescePrev_eq pre.reverse (absorbNext b post).2 (absorbNext b post).1
  rw [List.reverse_reverse, List.length_reverse] at h
  exact h

/-- A list is its first `i` blocks, block `i`, and the rest. -/
theorem split_at (bs : List Block) (i : Nat) (b : Block) (h : bs[i]? = some b) :
    bs = bs.take i ++ b :: bs.drop (i + 1) ∧ (bs.take i).length = i := by
  have hi : i < bs.length := by
    rcases Nat.lt_or_ge i bs.length with h1 | h1
    · exact h1
    · rw [List.getElem?_eq_none h1] at h; cases h
  have hb : bs[i] = b := by
    rw [List.getElem?_eq_getElem hi] at h
    exact Option.some.inj h
  constructor
  · rw [← hb, List.getElem_cons_drop _ _ hi, List.take_append_drop]
  · simp [List.length_take]; omega
/-! ## The invariant of the contiguous allocator -/

theorem addSize_eq (a b : Nat) (h : a + b < SIZE_MOD) : addSize a b = a + b := by
  unfold addSize
  exact Nat.mod_eq_of_lt h

theorem tilesFrom_append (a e : Nat) (l1 l2 : List Block) :
    TilesFrom a (l1 ++ l2) e ↔ ∃ mid, TilesFrom a l1 mid ∧ TilesFrom mid l2 e := by
  induction l1 generalizing a with
  | nil => simp [TilesFrom]
  | cons b l ih =>
    show (b.address = a ∧ TilesFrom (a + b.size) (l ++ l2) e) ↔
      ∃ mid, (b.address = a ∧ TilesFrom (a + b.size) l mid) ∧ TilesFrom mid l2 e
    rw [ih]
    constructor
    · rintro ⟨hb, mid, h1, h2⟩
      exact ⟨mid, ⟨hb, h1⟩, h2⟩
    · rintro ⟨mid, ⟨hb, h1⟩, h2⟩
      exact ⟨hb, mid, h1, h2⟩

theorem tilesFrom_le (a e : Nat) (l : List Block) (h : TilesFrom a l e) : a ≤ e := by
  induction l generalizing a with
  | nil => simp [TilesFrom] at h; omega
  | cons b l ih =>
    have := ih _ h.2
    omega

theorem tilesFrom_sum (a e : Nat) (l : List Block) (h : TilesFrom a l e) :
    a + (l.map (fun b => b.size)).sum = e := by
  induction l generalizing a with
  | nil => simpa [TilesFrom] using h
  | cons b l ih =>
    have := ih _ h.2
    simp only [List.map_cons, List.sum_cons]
    omega

theorem tilesFrom_adjacent (a e : Nat) (l : List Block) (h : TilesFrom a l e)
    (i : Nat) (b c : Block) (hb : l[i]? = some b) (hc : l[i + 1]? = some c) :
    b.address + b.size = c.address := by
  induction l generalizing a i with
  | nil => simp at hb
  | cons x l ih =>
    cases i with
    | zero =>
      simp at hb
      subst hb
      cases l with
      | nil => simp at hc
      | cons y l2 =>
        simp at hc
        subst hc
        have h1 := h.1
        have h2 := h.2.1
        omega
    | succ j =>
      exact ih _ h.2 j (by simpa using hb) (by simpa using hc)

theorem tilesFrom_absorbNext (a e : Nat) (b : Block) (post : List Block)
    (he : e < SIZE_MOD) (h : TilesFrom a (b :: post) e) :
    TilesFrom a ((absorbNext b post).1 :: (absorbNext b post).2) e := by
  induction post generalizing b with
  | nil => simpa [absorbNext] using h
  | cons nb rest ih =>
    unfold absorbNext
    by_cases hf : nb.is_free = true
    · rw [if_pos hf]
      apply ih
      obtain ⟨h1, h2, h3⟩ := h
      have hle := tilesFrom_le _ _ _ h3
      have hadd : addSize b.size nb.size = b.size + nb.size := addSize_eq _ _ (by omega)
      refine ⟨h1, ?_⟩
      simp only [hadd]
      rw [← Nat.add_assoc]
      exact h3
    · rw [if_neg hf]
      exact h

theorem tilesFrom_absorbPrev (a e : Nat) (rpre post : List Block) (b : Block)
    (he : e < SIZE_MOD) (h : TilesFrom a (rpre.reverse ++ b :: post) e) :
    TilesFrom a ((absorbPrev rpre b).1.reverse ++ (absorbPrev rpre b).2 :: post) e := by
  induction rpre generalizing b with
  | nil => simpa [absorbPrev] using h
  | cons pb rest ih =>
    unfold absorbPrev
    by_cases hf : pb.is_free = true
    · rw [if_pos hf]
      apply ih
      have e1 : (pb :: rest).reverse ++ b :: post = rest.reverse ++ pb :: b :: post := by simp
      rw [e1, tilesFrom_append] at h
      obtain ⟨mid, h0, h1, h2, h3⟩ := h
      have hle := tilesFrom_le _ _ _ h3
      have hadd : addSize pb.size b.size = pb.size + b.size := addSize_eq _ _ (by omega)
      rw [tilesFrom_append]
      refine ⟨mid, h0, h1, ?_⟩
      simp only [hadd]
      rw [← Nat.add_assoc]
      exact h3
    · rw [if_neg hf]
      exact h

theorem carve_listInv (blocks : List Block) (capacity idx : Nat) (chosen : Block) (n : Nat)
    (new_id : Int) (total : Nat) (ht : total < SIZE_MOD) (hidx : blocks[idx]? = some chosen)
    (h : ListInv blocks total) :
    ListInv (carve blocks capacity idx chosen n new_id) total := by
  obtain ⟨-, htiles⟩ := h
  obtain ⟨hsplit, -⟩ := split_at blocks idx chosen hidx
  rw [hsplit] at htiles
  rw [tilesFrom_append] at htiles
  obtain ⟨mid, h0, h1, h2⟩ := htiles
  have hle := tilesFrom_le _ _ _ h2
  have hsplitTiles : ∀ (f : Bool) (k : Int), chosen.size > n →
      TilesFrom 0 (blocks.take idx ++
        { address := chosen.address, size := n, is_free := f, id := k } ::
        { address := addSize chosen.address n, size := chosen.size - n,
          is_free := true, id := -1 } :: blocks.drop (idx + 1)) total := by
    intro f k hgt
    rw [tilesFrom_append]
    refine ⟨mid, h0, h1, ?_, ?_⟩
    · show addSize chosen.address n = mid + n
      rw [h1]
      exact addSize_eq _ _ (by omega)
    · show TilesFrom (mid + n + (chosen.size - n)) _ total
      have e : mid + n + (chosen.size - n) = mid + chosen.size := by omega
      rw [e]
      exact h2
  unfold carve
  by_cases hgt : chosen.size > n
  · rw [if_pos hgt]
    by_cases hcap : blocks.length = capacity
    · rw [if_pos hcap]
      exact ⟨by simp, hsplitTiles chosen.is_free chosen.id hgt⟩
    · rw [if_neg hcap]
      exact ⟨by simp, hsplitTiles false new_id hgt⟩
  · rw [if_neg hgt]
    refine ⟨by simp, ?_⟩
    rw [tilesFrom_append]
    exact ⟨mid, h0, h1, h2⟩

/-- The two outcomes of `malloc` for the block list: untouched, or one fitting block
carved. -/
theorem malloc_blocks (m : MemoryManager) (n : Nat) :
    (m.malloc n).2.blocks = m.blocks ∨
    ∃ idx chosen, selectBlock m.current_strategy m.blocks n = some idx ∧
      m.blocks[idx]? = some chosen ∧ Fits n chosen ∧
      (m.malloc n).2.blocks = carve m.blocks m.capacity idx chosen n m.next_id := by
  unfold MemoryManager.malloc
  by_cases hn : n = 0
  · left; simp [hn]
  · simp only [hn, if_false]
    cases hsel : selectBlock m.current_strategy m.blocks n with
    | none => left; simp
    | some idx =>
      obtain ⟨chosen, hc, hfit⟩ := selectBlock_some _ _ _ _ hsel
      right
      exact ⟨idx, chosen, rfl, hc, hfit, by simp [hc]⟩

theorem malloc_listInv (m : MemoryManager) (n total : Nat) (ht : total < SIZE_MOD)
    (h : ListInv m.blocks total) : ListInv (m.malloc n).2.blocks total := by
  rcases malloc_blocks m n with h1 | ⟨idx, chosen, -, hc, -, h1⟩
  · rw [h1]; exact h
  · rw [h1]; exact carve_listInv _ _ _ _ _ _ _ ht hc h

theorem findUsedFrom_some (block_id : Int) (bs : List Block) (k i : Nat)
    (h : findUsedFrom block_id bs k = some i) :
    ∃ j b, i = k + j ∧ bs[j]? = some b ∧ b.id = block_id ∧ b.is_free = false ∧
      ∀ j2 c, j2 < j → bs[j2]? = some c → ¬ (c.id = block_id ∧ c.is_free = false) := by
  induction bs generalizing k with
  | nil => simp [findUsedFrom] at h
  | cons b bs ih =>
    unfold findUsedFrom at h
    by_cases hb : b.id = block_id ∧ b.is_free = false
    · refine ⟨0, b, ?_, by simp, hb.1, hb.2, ?_⟩
      · simp [hb.1, hb.2] at h; omega
      · intro j2 c hj; omega
    · have hcond : ¬ ((decide (b.id = block_id) && !b.is_free) = true) := by
        simpa using hb
      rw [if_neg hcond] at h
      obtain ⟨j, c, hi, hc, h1, h2, hmin⟩ := ih (k + 1) h
      refine ⟨j + 1, c, by omega, by simpa using hc, h1, h2, ?_⟩
      intro j2 d hj hd
      cases j2 with
      | zero => simp at hd; subst hd; exact hb
      | succ j3 => exact hmin j3 d (by omega) (by simpa using hd)

/-- The two outcomes of `free` for the block list: untouched when no used block has the
id, otherwise the first such block is marked free and the list is coalesced there. -/
theorem free_blocks (m : MemoryManager) (block_id : Int) :
    (findUsedFrom block_id m.blocks 0 = none ∧ m.free block_id = m) ∨
    ∃ i b, findUsedFrom block_id m.blocks 0 = some i ∧ m.blocks[i]? = some b ∧
      b.id = block_id ∧ b.is_free = false ∧
      m.free block_id =
        { m with
          used_memory := subSize m.used_memory b.size
          blocks := coalesce (m.blocks.set i { b with is_free := true, id := -1 }) i } := by
  unfold MemoryManager.free
  cases hfind : findUsedFrom block_id m.blocks 0 with
  | none => left; simp
  | some i =>
    obtain ⟨j, b, hi, hb, h1, h2, -⟩ := findUsedFrom_some _ _ _ _ hfind
    have hij : i = j := by omega
    subst hij
    right
    exact ⟨i, b, rfl, hb, h1, h2, by simp [hb]⟩

theorem coalesce_listInv (blocks : List Block) (i : Nat) (b : Block) (total : Nat)
    (ht : total < SIZE_MOD) (hb : blocks[i]? = some b) (h : ListInv blocks total) :
    ListInv (coalesce (blocks.set i { b with is_free := true, id := -1 }) i) total := by
  obtain ⟨-, htiles⟩ := h
  obtain ⟨hsplit, hlen⟩ := split_at blocks i b hb
  generalize blocks.take i = pre at hsplit hlen
  generalize blocks.drop (i + 1) = post at hsplit
  subst hsplit
  subst hlen
  rw [set_mid, coalesce_eq]
  rw [tilesFrom_append] at htiles
  obtain ⟨mid, h0, h1, h2⟩ := htiles
  refine ⟨by simp, ?_⟩
  apply tilesFrom_absorbPrev _ _ _ _ _ ht
  rw [List.reverse_reverse, tilesFrom_append]
  refine ⟨mid, h0, ?_⟩
  apply tilesFrom_absorbNext _ _ _ _ ht
  exact ⟨h1, h2⟩

theorem free_listInv (m : MemoryManager) (block_id : Int) (total : Nat) (ht : total < SIZE_MOD)
    (h : ListInv m.blocks total) : ListInv (m.free block_id).blocks total := by
  rcases free_blocks m block_id with ⟨-, h1⟩ | ⟨i, b, -, hb, -, -, h1⟩
  · rw [h1]; exact h
  · rw [h1]; exact coalesce_listInv _ _ _ _ ht hb h

theorem init_listInv (m : MemoryManager) (total : Nat) : ListInv (m.init total).blocks total := by
  refine ⟨by simp [MemoryManager.init], ?_⟩
  simp [MemoryManager.init, TilesFrom]

theorem step_listInv (m : MemoryManager) (op : Op) (total : Nat) (ht : total < SIZE_MOD)
    (h : ListInv m.blocks total) : ListInv (m.step op).blocks total := by
  cases op with
  | malloc n => exact malloc_listInv m n total ht h
  | free block_id => exact free_listInv m block_id total ht h
  | setStrategy s => exact h

theorem run_listInv (m : MemoryManager) (ops : List Op) (total : Nat) (ht : total < SIZE_MOD)
    (h : ListInv m.blocks total) : ListInv (m.run ops).blocks total := by
  induction ops generalizing m with
  | nil => exact h
  | cons op ops ih => exact ih (m.step op) (step_listInv m op total ht h)
/-! ## Ids in the contiguous allocator -/

/-- What a successful `malloc` returns, with the whole state after it. -/
theorem malloc_success_eq (m : MemoryManager) (n block_index : Nat) (chosen : Block)
    (hn : n ≠ 0) (hsel : selectBlock m.current_strategy m.blocks n = some block_index)
    (hc : m.blocks[block_index]? = some chosen) :
    m.malloc n = (m.next_id,
      { m with
        total_alloc_requests := addSize m.total_alloc_requests 1
        internal_frag :=
          if chosen.size > n then addSize m.internal_frag (chosen.size - n)
          else m.internal_frag
        blocks := carve m.blocks m.capacity block_index chosen n m.next_id
        capacity :=
          if chosen.size > n ∧ m.blocks.length = m.capacity then grownCapacity m.blocks.length
          else m.capacity
        released :=
          if chosen.size > n ∧ m.blocks.length = m.capacity then m.released.tail
          else m.released
        next_id := m.next_id + 1
        used_memory :=
          addSize m.used_memory
            (if chosen.size > n then
              if m.blocks.length = m.capacity then m.released.headD 0 else n
            else chosen.size) }) := by
  unfold MemoryManager.malloc
  simp [hn, hsel, hc]

/-- What a failing `malloc` returns, with the whole state after it. -/
theorem malloc_failure_eq (m : MemoryManager) (n : Nat)
    (h : n = 0 ∨ selectBlock m.current_strategy m.blocks n = none) :
    m.malloc n = (-1,
      { m with
        total_alloc_requests := addSize m.total_alloc_requests 1
        failed_requests := addSize m.failed_requests 1 }) := by
  unfold MemoryManager.malloc
  by_cases hn : n = 0
  · simp [hn]
  · rcases h with h | h
    · exact absurd h hn
    · simp [hn, h]

/-- The two outcomes of `malloc`. -/
theorem malloc_cases (m : MemoryManager) (n : Nat) :
    (m.malloc n = (-1,
      { m with
        total_alloc_requests := addSize m.total_alloc_requests 1
        failed_requests := addSize m.failed_requests 1 })) ∨
    ∃ block_index chosen, n ≠ 0 ∧
      selectBlock m.current_strategy m.blocks n = some block_index ∧
      m.blocks[block_index]? = some chosen ∧ Fits n chosen ∧
      m.malloc n = (m.next_id,
        { m with
          total_alloc_requests := addSize m.total_alloc_requests 1
          internal_frag :=
            if chosen.size > n then addSize m.internal_frag (chosen.size - n)
            else m.internal_frag
          blocks := carve m.blocks m.capacity block_index chosen n m.next_id
          capacity :=
            if chosen.size > n ∧ m.blocks.length = m.capacity then
              grownCapacity m.blocks.length
            else m.capacity
          released :=
            if chosen.size > n ∧ m.blocks.length = m.capacity then m.released.tail
            else m.released
          next_id := m.next_id + 1
          used_memory :=
            addSize m.used_memory
              (if chosen.size > n then
                if m.blocks.length = m.capacity then m.released.headD 0 else n
              else chosen.size) }) := by
  by_cases hn : n = 0
  · left; exact malloc_failure_eq m n (Or.inl hn)
  · cases hsel : selectBlock m.current_strategy m.blocks n with
    | none => left; exact malloc_failure_eq m n (Or.inr hsel)
    | some idx =>
      obtain ⟨chosen, hc, hfit⟩ := selectBlock_some _ _ _ _ hsel
      right
      exact ⟨idx, chosen, hn, rfl, hc, hfit, malloc_success_eq m n idx chosen hn hsel hc⟩

theorem absorbNext_stop (b : Block) (post : List Block)
    (h : ∀ c, post.head? = some c → c.is_free = false) : absorbNext b post = (b, post) := by
  cases post with
  | nil => rfl
  | cons nb rest =>
    have hnb := h nb rfl
    unfold absorbNext
    rw [if_neg (by rw [hnb]; decide)]

theorem absorbPrev_stop (rpre : List Block) (b : Block)
    (h : ∀ c, rpre.head? = some c → c.is_free = false) : absorbPrev rpre b = (rpre, b) := by
  cases rpre with
  | nil => rfl
  | cons pb rest =>
    have hpb := h pb rfl
    unfold absorbPrev
    rw [if_neg (by rw [hpb]; decide)]

theorem findUsedFrom_skip (block_id : Int) (pre l : List Block) (k : Nat)
    (h : ∀ c ∈ pre, ¬ (c.id = block_id ∧ c.is_free = false)) :
    findUsedFrom block_id (pre ++ l) k = findUsedFrom block_id l (k + pre.length) := by
  induction pre generalizing k with
  | nil => simp
  | cons c pre ih =>
    have hc := h c (List.mem_cons_self _ _)
    have hcond : ¬ ((decide (c.id = block_id) && !c.is_free) = true) := by
      simpa using hc
    rw [List.cons_append, findUsedFrom, if_neg hcond,
      ih (k + 1) (fun x hx => h x (List.mem_cons_of_mem _ hx))]
    have e : k + 1 + pre.length = k + (c :: pre).length := by
      simp only [List.length_cons]
      omega
    rw [e]

theorem free_at (m : MemoryManager) (block_id : Int) (i : Nat) (b : Block)
    (hfind : findUsedFrom block_id m.blocks 0 = some i) (hb : m.blocks[i]? = some b) :
    m.free block_id =
      { m with
        used_memory := subSize m.used_memory b.size
        blocks := coalesce (m.blocks.set i { b with is_free := true, id := -1 }) i } := by
  unfold MemoryManager.free
  simp [hfind, hb]

/-! ## The ids returned along a sequence of calls -/

/-- The first loop of `coalesce` on a run of free blocks that ends at a used block or at
the end of the list: the run is absorbed, sizes added. -/
theorem absorbNext_run (b : Block) (runR post : List Block)
    (hR : ∀ c ∈ runR, c.is_free = true)
    (hpost : ∀ c, post.head? = some c → c.is_free = false)
    (hsum : b.size + (runR.map (fun c => c.size)).sum < SIZE_MOD) :
    absorbNext b (runR ++ post) =
      ({ b with size := b.size + (runR.map (fun c => c.size)).sum }, post) := by
  induction runR generalizing b with
  | nil =>
    rw [List.nil_append, absorbNext_stop b post hpost]
    simp
  | cons nb rest ih =>
    rw [List.cons_append]
    unfold absorbNext
    rw [if_pos (hR nb (List.mem_cons_self _ _))]
    simp only [List.map_cons, List.sum_cons] at hsum ⊢
    have hadd : addSize b.size nb.size = b.size + nb.size := addSize_eq _ _ (by omega)
    rw [hadd, ih _ (fun c hc => hR c (List.mem_cons_of_mem _ hc)) (by simp only; omega)]
    simp only [Nat.add_assoc]

/-- The second loop of `coalesce` on a run of free blocks that starts after a used block
or at the start of the list: the block is absorbed into the first block of the run,
sizes added. -/
theorem absorbPrev_run (rrun rpre : List Block) (b : Block)
    (hL : ∀ c ∈ rrun, c.is_free = true)
    (hpre : ∀ c, rpre.head? = some c → c.is_free = false)
    (hsum : b.size + (rrun.map (fun c => c.size)).sum < SIZE_MOD) :
    absorbPrev (rrun ++ rpre) b =
      (rpre, { (rrun.getLast?.getD b) with
        size := b.size + (rrun.map (fun c => c.size)).sum }) := by
  induction rrun generalizing b with
  | nil =>
    rw [List.nil_append, absorbPrev_stop rpre b hpre]
    simp
  | cons pb rest ih =>
    rw [List.cons_append]
    unfold absorbPrev
    rw [if_pos (hL pb (List.mem_cons_self _ _))]
    simp only [List.map_cons, List.sum_cons] at hsum ⊢
    have hadd : addSize pb.size b.size = pb.size + b.size := addSize_eq _ _ (by omega)
    rw [hadd, ih _ (fun c hc => hL c (List.mem_cons_of_mem _ hc)) (by simp only; omega)]
    cases rest with
    | nil => simp; omega
    | cons x t =>
      simp only [List.getLast?_cons_cons, List.map_cons, List.sum_cons]
      congr 2
      omega

/-- In a state that satisfies the invariants, `free` of the id of a used block merges
the maximal run of free blocks around it: the blocks before and after the run are
kept, and the run becomes one free block with id -1 at the address of its first block
whose size is the sum of the sizes in the run; `used_memory` goes down by the size of
the block in `size_t` arithmetic. -/
theorem free_run (m : MemoryManager) (total : Nat) (ht : total < SIZE_MOD)
    (hl : ListInv m.blocks total) (hi : IdsInv m)
    (pre runL : List Block) (b : Block) (runR post : List Block)
    (hsplit : m.blocks = pre ++ runL ++ b :: (runR ++ post))
    (hused : b.is_free = false)
    (hL : ∀ c ∈ runL, c.is_free = true) (hR : ∀ c ∈ runR, c.is_free = true)
    (hpre : ∀ c, pre.getLast? = some c → c.is_free = false)
    (hpost : ∀ c, post.head? = some c → c.is_free = false) :
    (m.free b.id).blocks =
      pre ++ { address := (runL.head?.getD b).address,
               size := ((runL ++ b :: runR).map (fun c => c.size)).sum,
               is_free := true, id := -1 } :: post ∧
    (m.free b.id).used_memory = subSize m.used_memory b.size := by
  have hdist := hi.distinct
  rw [hsplit, List.pairwise_append] at hdist
  obtain ⟨-, -, hcross⟩ := hdist
  have hskip : ∀ c ∈ pre ++ runL, ¬ (c.id = b.id ∧ c.is_free = false) := by
    intro c hc hcid
    exact hcross c hc b (List.mem_cons_self _ _) hcid.2 hused hcid.1
  have hfind : findUsedFrom b.id m.blocks 0 = some (pre ++ runL).length := by
    rw [hsplit, findUsedFrom_skip _ _ _ _ hskip]
    unfold findUsedFrom
    simp [hused]
  have hget : m.blocks[(pre ++ runL).length]? = some b := by
    rw [hsplit]
    exact getElem?_mid _ _ _
  rw [free_at m b.id _ b hfind hget]
  refine ⟨?_, rfl⟩
  show coalesce (m.blocks.set (pre ++ runL).length { b with is_free := true, id := -1 })
    (pre ++ runL).length = _
  have hset : m.blocks.set (pre ++ runL).length { b with is_free := true, id := -1 } =
      (pre ++ runL) ++ { b with is_free := true, id := -1 } :: (runR ++ post) := by
    rw [hsplit]
    exact set_mid _ _ _ _
  rw [hset, coalesce_eq]
  have htot := tilesFrom_sum _ _ _ hl.2
  rw [hsplit] at htot
  simp only [List.map_append, List.map_cons, List.sum_append, List.sum_cons] at htot
  have hnext := absorbNext_run { b with is_free := true, id := -1 } runR post hR hpost
    (by simp only; omega)
  rw [hnext]
  simp only
  have hrev : (pre ++ runL).reverse = runL.reverse ++ pre.reverse := List.reverse_append _ _
  have hsumrev : (runL.reverse.map (fun c => c.size)).sum = (runL.map (fun c => c.size)).sum := by
    rw [List.map_reverse, List.sum_reverse]
  have hprev := absorbPrev_run runL.reverse pre.reverse
    { b with is_free := true, id := -1, size := b.size + (runR.map (fun c => c.size)).sum }
    (fun c hc => hL c (List.mem_reverse.1 hc))
    (fun c hc => hpre c (by rw [← List.head?_reverse]; exact hc))
    (by simp only; rw [hsumrev]; omega)
  rw [hrev, hprev]
  simp only [List.reverse_reverse, List.getLast?_reverse, hsumrev]
  congr 2
  simp only [List.map_append, List.map_cons, List.sum_append, List.sum_cons]
  cases runL with
  | nil =>
    simp
  | cons f t =>
    have hf := hL f (List.mem_cons_self _ _)
    have hfid := hi.free_ids f (by rw [hsplit]; simp) hf
    simp only [List.head?_cons, Option.getD_some, List.map_cons, List.sum_cons]
    cases f
    simp only at hf hfid
    subst hf hfid
    simp only [Block.mk.injEq, true_and, and_true]
    omega
/-! ## The two maps of the buddy allocator -/

theorem getList_setList (fl : List (Nat × List Nat)) (k : Nat) (l : List Nat) (key : Nat) :
    getList (setList fl k l) key = if key = k then l else getList fl key := by
  induction fl with
  | nil => simp [setList, getList]
  | cons e rest ih =>
    obtain ⟨k0, l0⟩ := e
    unfold setList
    by_cases h1 : k < k0
    · rw [if_pos h1]
      by_cases h2 : key = k
      · simp [getList, h2]
      · simp [getList, h2]
    · rw [if_neg h1]
      by_cases h3 : k = k0
      · rw [if_pos h3]
        subst h3
        by_cases h2 : key = k
        · simp [getList, h2]
        · simp [getList, h2]
      · rw [if_neg h3]
        by_cases h2 : key = k
        · subst h2
          simp [getList, h3, ih]
        · by_cases h4 : key = k0
          · subst h4
            simp [getList, h2]
          · simp [getList, h4, h2, ih]

theorem getList_touch (fl : List (Nat × List Nat)) (k key : Nat) :
    getList (touch fl k) key = getList fl key := by
  unfold touch
  rw [getList_setList]
  by_cases h : key = k
  · rw [if_pos h, h]
  · rw [if_neg h]

theorem getList_pushBack (fl : List (Nat × List Nat)) (k addr key : Nat) :
    getList (pushBack fl k addr) key =
      if key = k then getList fl k ++ [addr] else getList fl key := by
  unfold pushBack
  rw [getList_setList]

theorem findBlock_assignBlock (m : List (Int × BuddyBlock)) (k : Int) (b : BuddyBlock)
    (key : Int) :
    findBlock (assignBlock m k b) key = if key = k then some b else findBlock m key := by
  induction m with
  | nil => simp [assignBlock, findBlock]
  | cons e rest ih =>
    obtain ⟨k0, b0⟩ := e
    unfold assignBlock
    by_cases h1 : k < k0
    · rw [if_pos h1]
      by_cases h2 : key = k
      · simp [findBlock, h2]
      · simp [findBlock, h2]
    · rw [if_neg h1]
      by_cases h3 : k = k0
      · rw [if_pos h3]
        subst h3
        by_cases h2 : key = k
        · simp [findBlock, h2]
        · simp [findBlock, h2]
      · rw [if_neg h3]
        by_cases h2 : key = k
        · subst h2
          simp [findBlock, h3, ih]
        · by_cases h4 : key = k0
          · subst h4
            simp [findBlock, h2]
          · simp [findBlock, h4, h2, ih]

theorem findBlock_eraseBlock (m : List (Int × BuddyBlock)) (k key : Int) :
    findBlock (eraseBlock m k) key = if key = k then none else findBlock m key := by
  induction m with
  | nil => simp [eraseBlock, findBlock]
  | cons e rest ih =>
    obtain ⟨k0, b0⟩ := e
    unfold eraseBlock
    by_cases h1 : k0 = k
    · rw [if_pos h1, ih]
      subst h1
      by_cases h2 : key = k0
      · simp [h2]
      · simp [findBlock, h2]
    · rw [if_neg h1]
      by_cases h4 : key = k0
      · subst h4
        simp [findBlock, h1]
      · simp [findBlock, h4, ih]

/-! ## Powers of two, bit by bit -/

theorem and_pred_eq_zero (n : Nat) (hn : 0 < n) (h : n &&& (n - 1) = 0) : ∃ j, n = 2 ^ j := by
  induction n using Nat.strong_induction_on with
  | _ n ih =>
    rcases Nat.even_or_odd n with he | ho
    · obtain ⟨m, hm⟩ := he
      have hm2 : n = 2 * m := by omega
      have hmpos : 0 < m := by omega
      have h2 : (n &&& (n - 1)) / 2 = m &&& (m - 1) := by
        rw [Nat.and_div_two]
        congr 1 <;> omega
      rw [h] at h2
      obtain ⟨j, hj⟩ := ih m (by omega) hmpos (by simpa using h2.symm)
      exact ⟨j + 1, by rw [hm2, hj, Nat.pow_succ]; ring⟩
    · obtain ⟨m, hm⟩ := ho
      have h2 : (n &&& (n - 1)) / 2 = m &&& m := by
        rw [Nat.and_div_two]
        congr 1 <;> omega
      rw [h, Nat.and_self] at h2
      exact ⟨0, by simp at h2; omega⟩

theorem isPowerOfTwo_iff (n : Nat) : isPowerOfTwo n = true ↔ ∃ j, n = 2 ^ j := by
  unfold isPowerOfTwo
  constructor
  · intro h
    simp only [Bool.and_eq_true, decide_eq_true_eq, beq_iff_eq] at h
    exact and_pred_eq_zero n h.1 h.2
  · rintro ⟨j, rfl⟩
    simp only [Bool.and_eq_true, decide_eq_true_eq, beq_iff_eq]
    exact ⟨Nat.two_pow_pos j, by rw [Nat.and_pow_two_sub_one_eq_mod]; exact Nat.mod_self _⟩

/-- The buddy address of a block of size `2^j` at an address that is a multiple of
`2^j`: the next block when the address is an even multiple, the previous one when it is
an odd multiple. -/
theorem xor_two_pow (j a : Nat) (h : 2 ^ j ∣ a) :
    a ^^^ 2 ^ j = if (a / 2 ^ j) % 2 = 0 then a + 2 ^ j else a - 2 ^ j := by
  induction j generalizing a with
  | zero =>
    have h1 : (a ^^^ 1) / 2 = a / 2 := by rw [Nat.xor_div_two]; simp
    have h2 : (a ^^^ 1) % 2 = (a + 1) % 2 := Nat.xor_mod_two_eq
    simp only [Nat.pow_zero, Nat.div_one]
    split <;> omega
  | succ j ih =>
    obtain ⟨q, hq⟩ := h
    have hpos : 0 < 2 ^ j := Nat.two_pow_pos j
    have hp : 2 ^ (j + 1) = 2 * 2 ^ j := by rw [Nat.pow_succ]; ring
    have ha2 : a / 2 = 2 ^ j * q := by rw [hq, hp]; rw [Nat.mul_assoc]; simp
    have h1 : (a ^^^ 2 ^ (j + 1)) / 2 = a / 2 ^^^ 2 ^ j := by
      rw [Nat.xor_div_two]
      congr 1
      rw [hp]; simp
    have h2 : (a ^^^ 2 ^ (j + 1)) % 2 = 0 := by
      rw [Nat.xor_mod_two_eq, hq, hp]
      have : 2 * 2 ^ j * q + 2 * 2 ^ j = 2 * (2 ^ j * q + 2 ^ j) := by ring
      rw [this]; simp
    have h3 := ih (a / 2) ⟨q, ha2⟩
    have hd1 : a / 2 / 2 ^ j = q := by rw [ha2]; exact Nat.mul_div_cancel_left q hpos
    have hd2 : a / 2 ^ (j + 1) = q := by
      rw [hq]; exact Nat.mul_div_cancel_left q (Nat.two_pow_pos _)
    rw [hd1] at h3
    rw [hd2]
    have ha : a = 2 * (a / 2) := by rw [ha2, hq, hp]; ring
    by_cases hq2 : q % 2 = 0
    · rw [if_pos hq2] at h3 ⊢
      omega
    · rw [if_neg hq2] at h3 ⊢
      omega
/-! ## Counting the spans that hold an address -/

theorem ind_eq_one (a s x : Nat) : ind a s x = 1 ↔ a ≤ x ∧ x < a + s := by
  unfold ind; split <;> simp_all

theorem ind_split (a h x : Nat) : ind a (h + h) x = ind a h x + ind (a + h) h x := by
  unfold ind
  split_ifs <;> omega

theorem cntList_cons (s a : Nat) (l : List Nat) (x : Nat) :
    cntList s (a :: l) x = ind a s x + cntList s l x := by
  simp [cntList]

theorem cntList_append (s : Nat) (l1 l2 : List Nat) (x : Nat) :
    cntList s (l1 ++ l2) x = cntList s l1 x + cntList s l2 x := by
  simp [cntList]

theorem cntList_erase (s a : Nat) (l : List Nat) (x : Nat) (h : a ∈ l) :
    cntList s (l.erase a) x + ind a s x = cntList s l x := by
  induction l with
  | nil => simp at h
  | cons b t ih =>
    by_cases hb : b = a
    · subst hb
      rw [List.erase_cons_head, cntList_cons]
      omega
    · have hne : (b == a) = false := by simpa using hb
      rw [List.erase_cons_tail (by simp [hne]), cntList_cons, cntList_cons]
      have hat : a ∈ t := by
        rcases List.mem_cons.1 h with h1 | h1
        · exact absurd h1.symm hb
        · exact h1
      have := ih hat
      omega

theorem cntList_mem (s a : Nat) (l : List Nat) (x : Nat) (h : a ∈ l) :
    ind a s x ≤ cntList s l x := by
  have := cntList_erase s a l x h
  omega

theorem coverFree_congr (fl1 fl2 : List (Nat × List Nat))
    (h : ∀ s, getList fl1 s = getList fl2 s) (x : Nat) : coverFree fl1 x = coverFree fl2 x := by
  unfold coverFree
  exact Finset.sum_congr rfl (fun j _ => by rw [h])

theorem coverFree_setList (fl : List (Nat × List Nat)) (j0 : Nat) (hj : j0 < 64)
    (l : List Nat) (x : Nat) :
    coverFree (setList fl (2 ^ j0) l) x + cntList (2 ^ j0) (getList fl (2 ^ j0)) x =
      coverFree fl x + cntList (2 ^ j0) l x := by
  unfold coverFree
  have hmem : j0 ∈ Finset.range 64 := Finset.mem_range.2 hj
  rw [← Finset.add_sum_erase _ _ hmem, ← Finset.add_sum_erase (Finset.range 64) _ hmem]
  have hrest : Finset.sum ((Finset.range 64).erase j0)
      (fun j => cntList (2 ^ j) (getList (setList fl (2 ^ j0) l) (2 ^ j)) x) =
      Finset.sum ((Finset.range 64).erase j0)
      (fun j => cntList (2 ^ j) (getList fl (2 ^ j)) x) := by
    apply Finset.sum_congr rfl
    intro j hjm
    have hne : j ≠ j0 := (Finset.mem_erase.1 hjm).1
    have hpow : (2 : Nat) ^ j ≠ 2 ^ j0 := fun h => hne (Nat.pow_right_injective (le_refl 2) h)
    rw [getList_setList, if_neg hpow]
  rw [hrest, getList_setList, if_pos rfl]
  omega

theorem coverFree_nil (x : Nat) : coverFree [] x = 0 := by
  simp [coverFree, getList, cntList]

theorem coverFree_ge (fl : List (Nat × List Nat)) (j : Nat) (hj : j < 64) (x : Nat) :
    cntList (2 ^ j) (getList fl (2 ^ j)) x ≤ coverFree fl x := by
  unfold coverFree
  exact Finset.single_le_sum (f := fun j => cntList (2 ^ j) (getList fl (2 ^ j)) x)
    (fun _ _ => Nat.zero_le _) (Finset.mem_range.2 hj)

theorem coverLive_ge (live : List (Int × BuddyBlock)) (n i : Nat) (hi : i < n) (x : Nat) :
    liveInd (findBlock live (i : Int)) x ≤ coverLive live n x := by
  unfold coverLive
  exact Finset.single_le_sum (f := fun i : Nat => liveInd (findBlock live (i : Int)) x)
    (fun _ _ => Nat.zero_le _) (Finset.mem_range.2 hi)

theorem coverLive_assign (live : List (Int × BuddyBlock)) (n : Nat) (b : BuddyBlock) (x : Nat) :
    coverLive (assignBlock live (n : Int) b) (n + 1) x =
      coverLive live n x + ind b.address b.size x := by
  unfold coverLive
  rw [Finset.sum_range_succ, findBlock_assignBlock, if_pos rfl]
  have hrest : Finset.sum (Finset.range n)
      (fun i : Nat => liveInd (findBlock (assignBlock live (n : Int) b) (i : Int)) x) =
      Finset.sum (Finset.range n) (fun i : Nat => liveInd (findBlock live (i : Int)) x) := by
    apply Finset.sum_congr rfl
    intro i hi
    have hlt : i < n := Finset.mem_range.1 hi
    have hne : (i : Int) ≠ (n : Int) := by omega
    rw [findBlock_assignBlock, if_neg hne]
  rw [hrest]
  rfl

theorem coverLive_erase (live : List (Int × BuddyBlock)) (n i0 : Nat) (hi : i0 < n)
    (b : BuddyBlock) (hb : findBlock live (i0 : Int) = some b) (x : Nat) :
    coverLive (eraseBlock live (i0 : Int)) n x + ind b.address b.size x =
      coverLive live n x := by
  unfold coverLive
  have hmem : i0 ∈ Finset.range n := Finset.mem_range.2 hi
  rw [← Finset.add_sum_erase _ _ hmem, ← Finset.add_sum_erase (Finset.range n) _ hmem]
  have hrest : Finset.sum ((Finset.range n).erase i0)
      (fun i : Nat => liveInd (findBlock (eraseBlock live (i0 : Int)) (i : Int)) x) =
      Finset.sum ((Finset.range n).erase i0)
      (fun i : Nat => liveInd (findBlock live (i : Int)) x) := by
    apply Finset.sum_congr rfl
    intro i him
    have hne : i ≠ i0 := (Finset.mem_erase.1 him).1
    have hne2 : (i : Int) ≠ (i0 : Int) := by omega
    rw [findBlock_eraseBlock, if_neg hne2]
  rw [hrest, findBlock_eraseBlock, if_pos rfl, hb]
  simp only [liveInd]
  omega
/-! ## The loops of the buddy allocator -/

theorem pow2_le (i k : Nat) : 2 ^ i ≤ 2 ^ k ↔ i ≤ k :=
  Nat.pow_le_pow_iff_right (by norm_num)

theorem pow2_lt (i k : Nat) : 2 ^ i < 2 ^ k ↔ i < k :=
  Nat.pow_lt_pow_iff_right (by norm_num)

theorem pow2_lt_size (i : Nat) (h : i < 64) : 2 ^ i < SIZE_MOD := by
  unfold SIZE_MOD
  exact (pow2_lt i 64).2 h

theorem pow2_half (i : Nat) (h : 0 < i) : 2 ^ i / 2 = 2 ^ (i - 1) := by
  obtain ⟨m, rfl⟩ : ∃ m, i = m + 1 := ⟨i - 1, by omega⟩
  rw [Nat.pow_succ]
  simp

theorem pow2_double (i : Nat) : 2 ^ (i + 1) = 2 ^ i + 2 ^ i := by
  rw [Nat.pow_succ]
  omega

theorem mulSize_two_pow (i : Nat) (h : i + 1 < 64) : mulSize (2 ^ i) 2 = 2 ^ (i + 1) := by
  unfold mulSize
  rw [← Nat.pow_succ]
  exact Nat.mod_eq_of_lt (pow2_lt_size _ h)

theorem mulSize_two_pow_top : mulSize (2 ^ 63) 2 = 0 := by decide

theorem mulSize_zero : mulSize 0 2 = 0 := by decide

theorem nextPowerOfTwoLoop_zero (fuel n : Nat) (hn : 0 < n) :
    nextPowerOfTwoLoop fuel 0 n = none := by
  induction fuel with
  | zero => rfl
  | succ f ih =>
    unfold nextPowerOfTwoLoop
    rw [if_pos hn, mulSize_zero]
    exact ih

theorem nextPowerOfTwoLoop_some (fuel i n r : Nat) (hn : 0 < n) (hi : i < 64)
    (h : nextPowerOfTwoLoop fuel (2 ^ i) n = some r) : ∃ j, j < 64 ∧ r = 2 ^ j ∧ n ≤ r := by
  induction fuel generalizing i with
  | zero => simp [nextPowerOfTwoLoop] at h
  | succ f ih =>
    unfold nextPowerOfTwoLoop at h
    by_cases hlt : 2 ^ i < n
    · rw [if_pos hlt] at h
      by_cases h63 : i + 1 < 64
      · rw [mulSize_two_pow i h63] at h
        exact ih (i + 1) h63 h
      · have hi63 : i = 63 := by omega
        subst hi63
        rw [mulSize_two_pow_top, nextPowerOfTwoLoop_zero f n hn] at h
        cases h
    · rw [if_neg hlt] at h
      have hr : 2 ^ i = r := Option.some.inj h
      exact ⟨i, hi, hr.symm, by omega⟩

theorem nextPowerOfTwo_some (n r : Nat) (hn : n ≠ 0) (h : nextPowerOfTwo n = some r) :
    ∃ j, r = 2 ^ j ∧ n ≤ r := by
  unfold nextPowerOfTwo at h
  rw [if_neg hn] at h
  by_cases hp : isPowerOfTwo n = true
  · rw [if_pos hp] at h
    have hr : n = r := Option.some.inj h
    obtain ⟨j, hj⟩ := (isPowerOfTwo_iff n).1 hp
    exact ⟨j, by rw [← hr, hj], by omega⟩
  · rw [if_neg hp] at h
    obtain ⟨j, -, hj, hle⟩ := nextPowerOfTwoLoop_some 65 0 n r (by omega) (by norm_num) h
    exact ⟨j, hj, hle⟩

theorem freeOK_zero (k : Nat) (fl : List (Nat × List Nat)) (hok : FreeOK k fl) :
    getList fl 0 = [] := by
  cases hl : getList fl 0 with
  | nil => rfl
  | cons a t =>
    obtain ⟨j, -, hj, -⟩ := hok 0 a (by rw [hl]; exact List.mem_cons_self _ _)
    have := Nat.two_pow_pos j
    omega

theorem freeOK_congr (k : Nat) (fl1 fl2 : List (Nat × List Nat))
    (h : ∀ s, getList fl1 s = getList fl2 s) (hok : FreeOK k fl2) : FreeOK k fl1 := by
  intro s a ha
  rw [h] at ha
  exact hok s a ha

theorem findBlockSize_zero (fuel : Nat) (fl : List (Nat × List Nat)) (total : Nat)
    (h0 : getList fl 0 = []) : findBlockSize fuel fl total 0 = none := by
  induction fuel generalizing fl with
  | zero => rfl
  | succ f ih =>
    unfold findBlockSize
    have h1 : getList (touch fl 0) 0 = [] := by rw [getList_touch]; exact h0
    rw [if_pos (Nat.zero_le _), h1]
    simp only [List.isEmpty_nil, if_true, mulSize_zero]
    exact ih _ h1

/-- The search loop of `allocate` from a power of two, in a state with sound free
lists: when it returns, no list was changed and the size it stops at is a power of two
that is above the extent or has a free address. -/
theorem findBlockSize_some (k : Nat) (hk : k < 64) (fuel : Nat) (fl : List (Nat × List Nat))
    (i B : Nat) (fl2 : List (Nat × List Nat)) (hok : FreeOK k fl)
    (h : findBlockSize fuel fl (2 ^ k) (2 ^ i) = some (B, fl2)) :
    (∀ s, getList fl2 s = getList fl s) ∧
      ∃ i2, i ≤ i2 ∧ B = 2 ^ i2 ∧ (B ≤ 2 ^ k → getList fl B ≠ []) ∧
        (∀ i3, i ≤ i3 → i3 < i2 → getList fl (2 ^ i3) = []) := by
  induction fuel generalizing fl i with
  | zero => simp [findBlockSize] at h
  | succ f ih =>
    unfold findBlockSize at h
    have htouch : ∀ s, getList (touch fl (2 ^ i)) s = getList fl s := fun s => getList_touch _ _ _
    by_cases hle : 2 ^ i ≤ 2 ^ k
    · rw [if_pos hle] at h
      have hik : i ≤ k := (pow2_le i k).1 hle
      by_cases hemp : (getList (touch fl (2 ^ i)) (2 ^ i)).isEmpty = true
      · rw [if_pos hemp] at h
        have hnil : getList fl (2 ^ i) = [] := by
          rw [htouch] at hemp
          exact List.isEmpty_iff.1 hemp
        by_cases h63 : i + 1 < 64
        · rw [mulSize_two_pow i h63] at h
          obtain ⟨hsame, i2, hi2, hB, hne, hbelow⟩ :=
            ih (touch fl (2 ^ i)) (i + 1) (freeOK_congr k _ _ htouch hok) h
          refine ⟨fun s => by rw [hsame, htouch], i2, by omega, hB, ?_, ?_⟩
          · intro hBle
            have := hne hBle
            rwa [htouch] at this
          · intro i3 h3 h4
            rcases Nat.eq_or_lt_of_le h3 with h5 | h5
            · rw [← h5]; exact hnil
            · have := hbelow i3 (by omega) h4
              rwa [htouch] at this
        · have hi63 : i = 63 := by omega
          subst hi63
          rw [mulSize_two_pow_top, findBlockSize_zero] at h
          · cases h
          · rw [htouch]; exact freeOK_zero k fl hok
      · rw [if_neg hemp] at h
        have hB : 2 ^ i = B := (Prod.mk.inj (Option.some.inj h)).1
        have hfl : touch fl (2 ^ i) = fl2 := (Prod.mk.inj (Option.some.inj h)).2
        subst hB hfl
        refine ⟨htouch, i, le_refl _, rfl, ?_, fun i3 h3 h4 => by omega⟩
        intro _ hnil
        apply hemp
        rw [htouch, hnil]
        rfl
    · rw [if_neg hle] at h
      have hB : 2 ^ i = B := (Prod.mk.inj (Option.some.inj h)).1
      have hfl : fl = fl2 := (Prod.mk.inj (Option.some.inj h)).2
      subst hB hfl
      exact ⟨fun _ => rfl, i, le_refl _, rfl, fun hBle => absurd hBle hle,
        fun i3 h3 h4 => by omega⟩

/-- The split loop on a block of size `2^i` at an aligned address `a`, down to size
`2^j`: the free lists stay sound and the upper halves pushed on the way, together with
the block `[a, a + 2^j)` that is left, cover what `[a, a + 2^i)` covered. -/
theorem splitBlock_inv (k : Nat) (hk : k < 64) (fuel : Nat) (fl : List (Nat × List Nat))
    (a i j : Nat) (hji : j ≤ i) (hik : i ≤ k) (hal : 2 ^ i ∣ a) (hend : a + 2 ^ i ≤ 2 ^ k)
    (hfuel : i - j < fuel) (hok : FreeOK k fl) :
    FreeOK k (splitBlock fuel fl a (2 ^ i) (2 ^ j)) ∧
      ∀ x, coverFree (splitBlock fuel fl a (2 ^ i) (2 ^ j)) x + ind a (2 ^ j) x =
        coverFree fl x + ind a (2 ^ i) x := by
  induction fuel generalizing fl i with
  | zero => omega
  | succ f ih =>
    unfold splitBlock
    by_cases hgt : 2 ^ i > 2 ^ j
    · rw [if_pos hgt]
      have hlt : j < i := (pow2_lt j i).1 hgt
      have hhalf : 2 ^ i / 2 = 2 ^ (i - 1) := pow2_half i (by omega)
      have hdbl : 2 ^ i = 2 ^ (i - 1) + 2 ^ (i - 1) := by
        have := pow2_double (i - 1)
        rwa [Nat.sub_add_cancel (by omega : 1 ≤ i)] at this
      have hk2 : 2 ^ k < SIZE_MOD := pow2_lt_size k hk
      have hadd : addSize a (2 ^ (i - 1)) = a + 2 ^ (i - 1) := addSize_eq _ _ (by omega)
      rw [hhalf, hadd]
      have hdvd : 2 ^ (i - 1) ∣ a :=
        Dvd.dvd.trans (pow_dvd_pow 2 (by omega : i - 1 ≤ i)) hal
      have hok2 : FreeOK k (pushBack fl (2 ^ (i - 1)) (a + 2 ^ (i - 1))) := by
        intro s b hb
        rw [getList_pushBack] at hb
        by_cases hs : s = 2 ^ (i - 1)
        · rw [if_pos hs] at hb
          rcases List.mem_append.1 hb with h1 | h1
          · exact hok s b (by rw [hs]; exact h1)
          · have hb2 : b = a + 2 ^ (i - 1) := by simpa using h1
            refine ⟨i - 1, by omega, hs, ?_⟩
            rw [hs, hb2]
            exact Dvd.dvd.add hdvd (dvd_refl _)
        · rw [if_neg hs] at hb
          exact hok s b hb
      obtain ⟨hok3, hcov⟩ := ih (pushBack fl (2 ^ (i - 1)) (a + 2 ^ (i - 1))) (i - 1)
        (by omega) (by omega) hdvd (by omega) (by omega) hok2
      refine ⟨hok3, ?_⟩
      intro x
      have h1 := hcov x
      have h2 : coverFree (pushBack fl (2 ^ (i - 1)) (a + 2 ^ (i - 1))) x +
          cntList (2 ^ (i - 1)) (getList fl (2 ^ (i - 1))) x =
          coverFree fl x +
            cntList (2 ^ (i - 1)) (getList fl (2 ^ (i - 1)) ++ [a + 2 ^ (i - 1)]) x :=
        coverFree_setList fl (i - 1) (by omega) _ x
      rw [cntList_append] at h2
      have h3 : cntList (2 ^ (i - 1)) [a + 2 ^ (i - 1)] x = ind (a + 2 ^ (i - 1)) (2 ^ (i - 1)) x := by
        simp [cntList]
      have h4 := ind_split a (2 ^ (i - 1)) x
      rw [← hdbl] at h4
      omega
    · rw [if_neg hgt]
      have hij : i = j := by
        have := (pow2_lt j i).not.1 hgt
        omega
      subst hij
      exact ⟨hok, fun x => rfl⟩
theorem dvd_double_of_even (j a : Nat) (h : 2 ^ j ∣ a) (he : (a / 2 ^ j) % 2 = 0) :
    2 ^ (j + 1) ∣ a := by
  obtain ⟨q, rfl⟩ := h
  rw [Nat.mul_div_cancel_left q (Nat.two_pow_pos j)] at he
  refine ⟨q / 2, ?_⟩
  rw [Nat.pow_succ, Nat.mul_assoc]
  congr 1
  omega

theorem dvd_double_of_odd (j a : Nat) (h : 2 ^ j ∣ a) (ho : ¬ (a / 2 ^ j) % 2 = 0) :
    2 ^ j ≤ a ∧ 2 ^ (j + 1) ∣ a - 2 ^ j := by
  obtain ⟨q, rfl⟩ := h
  rw [Nat.mul_div_cancel_left q (Nat.two_pow_pos j)] at ho
  constructor
  · exact Nat.le_mul_of_pos_right _ (by omega)
  · refine ⟨q / 2, ?_⟩
    have h1 : 2 ^ j * q - 2 ^ j = 2 ^ j * (q - 1) := by
      rw [Nat.mul_sub, Nat.mul_one]
    rw [h1, Nat.pow_succ, Nat.mul_assoc]
    congr 1
    omega

/-- The merge loop of `free` on a block of size `2^j` at an aligned address, in a state
with sound free lists: it returns, with a block of size `2^j2` at an aligned address
that covers what the block and the buddies erased on the way covered. -/
theorem mergeLoop_inv (k : Nat) (hk : k < 64) (fuel : Nat) (fl : List (Nat × List Nat))
    (a j : Nat) (hjk : j ≤ k) (hal : 2 ^ j ∣ a) (hfuel : k - j < fuel) (hok : FreeOK k fl) :
    ∃ fl2 a2 j2, mergeLoop fuel fl (2 ^ k) a (2 ^ j) = some (fl2, a2, 2 ^ j2) ∧
      j2 ≤ k ∧ 2 ^ j2 ∣ a2 ∧ FreeOK k fl2 ∧
      ∀ x, coverFree fl2 x + ind a2 (2 ^ j2) x = coverFree fl x + ind a (2 ^ j) x := by
  induction fuel generalizing fl a j with
  | zero => omega
  | succ f ih =>
    unfold mergeLoop
    have htouch : ∀ s, getList (touch fl (2 ^ j)) s = getList fl s := fun s => getList_touch _ _ _
    by_cases hlt : 2 ^ j < 2 ^ k
    · rw [if_pos hlt]
      have hjlt : j < k := (pow2_lt j k).1 hlt
      by_cases hmem : getBuddyAddress a (2 ^ j) ∈ getList (touch fl (2 ^ j)) (2 ^ j)
      · rw [if_pos hmem, mulSize_two_pow j (by omega)]
        have hmem2 : getBuddyAddress a (2 ^ j) ∈ getList fl (2 ^ j) := by
          rw [htouch] at hmem; exact hmem
        have hok1 : FreeOK k (setList (touch fl (2 ^ j)) (2 ^ j)
            ((getList (touch fl (2 ^ j)) (2 ^ j)).erase (getBuddyAddress a (2 ^ j)))) := by
          intro s b hb
          rw [getList_setList] at hb
          by_cases hs : s = 2 ^ j
          · rw [if_pos hs] at hb
            have hb2 := List.mem_of_mem_erase hb
            rw [htouch] at hb2
            exact hok s b (by rw [hs]; exact hb2)
          · rw [if_neg hs, htouch] at hb
            exact hok s b hb
        have hx := xor_two_pow j a hal
        have hmin : 2 ^ (j + 1) ∣ min a (getBuddyAddress a (2 ^ j)) ∧
            ∀ x, ind (min a (getBuddyAddress a (2 ^ j))) (2 ^ (j + 1)) x =
              ind a (2 ^ j) x + ind (getBuddyAddress a (2 ^ j)) (2 ^ j) x := by
          unfold getBuddyAddress
          rw [hx, pow2_double j]
          by_cases he : (a / 2 ^ j) % 2 = 0
          · rw [if_pos he]
            have hm : min a (a + 2 ^ j) = a := by omega
            rw [hm, ← pow2_double j]
            exact ⟨dvd_double_of_even j a hal he, fun x => by
              rw [pow2_double j]; exact ind_split a (2 ^ j) x⟩
          · rw [if_neg he]
            obtain ⟨hle, hdvd⟩ := dvd_double_of_odd j a hal he
            have hm : min a (a - 2 ^ j) = a - 2 ^ j := by omega
            rw [hm, ← pow2_double j]
            refine ⟨hdvd, fun x => ?_⟩
            rw [pow2_double j]
            have := ind_split (a - 2 ^ j) (2 ^ j) x
            rw [Nat.sub_add_cancel hle] at this
            omega
        obtain ⟨fl2, a2, j2, hres, hj2, hal2, hok2, hcov2⟩ :=
          ih _ (min a (getBuddyAddress a (2 ^ j))) (j + 1) (by omega) hmin.1 (by omega) hok1
        refine ⟨fl2, a2, j2, hres, hj2, hal2, hok2, ?_⟩
        intro x
        have h1 := hcov2 x
        have h2 := coverFree_setList (touch fl (2 ^ j)) j (by omega)
          ((getList (touch fl (2 ^ j)) (2 ^ j)).erase (getBuddyAddress a (2 ^ j))) x
        have h3 := cntList_erase (2 ^ j) _ _ x hmem
        have h4 := coverFree_congr _ _ htouch x
        have h5 := hmin.2 x
        omega
      · rw [if_neg hmem]
        exact ⟨touch fl (2 ^ j), a, j, rfl, hjk, hal, freeOK_congr k _ _ htouch hok,
          fun x => by rw [coverFree_congr _ _ htouch x]⟩
    · rw [if_neg hlt]
      exact ⟨fl, a, j, rfl, hjk, hal, hok, fun x => rfl⟩

/-! ## What `allocate` and `free` return -/

theorem allocate_zero (st : BuddyAllocator) :
    st.allocate 0 = some (-1,
      { st with
        total_alloc_requests := addSize st.total_alloc_requests 1
        failed_requests := addSize st.failed_requests 1 }) := by
  simp [BuddyAllocator.allocate]

theorem allocate_diverges_round (st : BuddyAllocator) (n : Nat) (hn : n ≠ 0)
    (h : nextPowerOfTwo n = none) : st.allocate n = none := by
  simp [BuddyAllocator.allocate, hn, h]

theorem allocate_diverges_search (st : BuddyAllocator) (n r : Nat) (hn : n ≠ 0)
    (hr : nextPowerOfTwo n = some r)
    (h : findBlockSize 65 st.free_lists st.total_memory r = none) : st.allocate n = none := by
  simp [BuddyAllocator.allocate, hn, hr, h]

theorem allocate_out_of_memory (st : BuddyAllocator) (n r B : Nat) (fl : List (Nat × List Nat))
    (hn : n ≠ 0) (hr : nextPowerOfTwo n = some r)
    (h : findBlockSize 65 st.free_lists st.total_memory r = some (B, fl))
    (hB : B > st.total_memory) :
    st.allocate n = some (-1,
      { st with
        total_alloc_requests := addSize st.total_alloc_requests 1
        internal_frag := addSize st.internal_frag (subSize r n)
        free_lists := fl
        failed_requests := addSize st.failed_requests 1 }) := by
  simp [BuddyAllocator.allocate, hn, hr, h, hB]

theorem allocate_success (st : BuddyAllocator) (n r B : Nat) (fl : List (Nat × List Nat))
    (address : Nat) (rest : List Nat)
    (hn : n ≠ 0) (hr : nextPowerOfTwo n = some r)
    (h : findBlockSize 65 st.free_lists st.total_memory r = some (B, fl))
    (hB : ¬ B > st.total_memory) (hl : getList fl B = address :: rest) :
    st.allocate n = some (st.next_id,
      { st with
        total_alloc_requests := addSize st.total_alloc_requests 1
        internal_frag := addSize st.internal_frag (subSize r n)
        free_lists := splitBlock 65 (setList fl B rest) address B r
        allocated_blocks :=
          assignBlock st.allocated_blocks st.next_id
            { address := address, size := r, id := st.next_id }
        next_id := st.next_id + 1
        used_memory := addSize st.used_memory r }) := by
  simp [BuddyAllocator.allocate, hn, hr, h, hB, hl]

theorem free_not_found (st : BuddyAllocator) (block_id : Int)
    (h : findBlock st.allocated_blocks block_id = none) : st.free block_id = some st := by
  simp [BuddyAllocator.free, h]

theorem free_found (st : BuddyAllocator) (block_id : Int) (block : BuddyBlock)
    (fl : List (Nat × List Nat)) (address size : Nat)
    (h : findBlock st.allocated_blocks block_id = some block)
    (hm : mergeLoop 65 st.free_lists st.total_memory block.address block.size =
      some (fl, address, size)) :
    st.free block_id = some
      { st with
        allocated_blocks := eraseBlock st.allocated_blocks block_id
        used_memory := subSize st.used_memory block.size
        free_lists := pushBack fl size address } := by
  simp [BuddyAllocator.free, h, hm]
/-! ## Each call preserves the invariant of the buddy allocator -/

theorem init_buddyInv (st0 : BuddyAllocator) (k : Nat) (hk : k < 64) :
    BuddyInv (st0.init (2 ^ k)) k := by
  have hp : isPowerOfTwo (2 ^ k) = true := (isPowerOfTwo_iff _).2 ⟨k, rfl⟩
  unfold BuddyAllocator.init
  rw [hp]
  simp only [Bool.not_true, Bool.false_eq_true, if_false]
  refine ⟨rfl, ?_, ?_, ?_, ?_⟩
  · show (0 : Int) ≤ 1
    decide
  · intro s a ha
    rw [getList_pushBack] at ha
    by_cases hs : s = 2 ^ k
    · rw [if_pos hs] at ha
      have ha0 : a = 0 := by simpa [getList] using ha
      exact ⟨k, le_refl _, hs, by rw [ha0]; exact dvd_zero _⟩
    · rw [if_neg hs] at ha
      simp [getList] at ha
  · intro id b hb
    simp [findBlock] at hb
  · intro x
    have h1 : coverFree (pushBack [] (2 ^ k) 0) x + cntList (2 ^ k) (getList [] (2 ^ k)) x =
        coverFree [] x + cntList (2 ^ k) (getList [] (2 ^ k) ++ [0]) x :=
      coverFree_setList [] k hk _ x
    have h2 : coverLive [] (1 : Int).toNat x = 0 := by
      simp [coverLive, findBlock, liveInd]
    simp only [getList, List.nil_append, cntList, List.map_nil, List.sum_nil, List.map_cons,
      List.sum_cons, coverFree_nil] at h1
    show coverFree (pushBack [] (2 ^ k) 0) x + coverLive [] (1 : Int).toNat x = _
    rw [h2]
    unfold ind at h1
    split_ifs at h1 ⊢ <;> omega

theorem allocate_buddyInv (k : Nat) (hk : k < 64) (st : BuddyAllocator) (n : Nat) (id : Int)
    (st2 : BuddyAllocator) (hinv : BuddyInv st k) (h : st.allocate n = some (id, st2)) :
    BuddyInv st2 k := by
  by_cases hn : n = 0
  · subst hn
    rw [allocate_zero] at h
    have h2 := (Prod.mk.inj (Option.some.inj h)).2
    subst h2
    exact ⟨hinv.total, hinv.next_nonneg, hinv.free_ok, hinv.live_ok, hinv.cover⟩
  · cases hr : nextPowerOfTwo n with
    | none => rw [allocate_diverges_round st n hn hr] at h; cases h
    | some r =>
      obtain ⟨j, hrj, hnr⟩ := nextPowerOfTwo_some n r hn hr
      cases hf : findBlockSize 65 st.free_lists st.total_memory r with
      | none => rw [allocate_diverges_search st n r hn hr hf] at h; cases h
      | some res =>
        obtain ⟨B, fl⟩ := res
        have hf2 := hf
        rw [hinv.total, hrj] at hf2
        obtain ⟨hsame, i, hji, hBi, hne, -⟩ :=
          findBlockSize_some k hk 65 st.free_lists j B fl hinv.free_ok hf2
        by_cases hB : B > st.total_memory
        · rw [allocate_out_of_memory st n r B fl hn hr hf hB] at h
          have h2 := (Prod.mk.inj (Option.some.inj h)).2
          subst h2
          refine ⟨hinv.total, hinv.next_nonneg, freeOK_congr k _ _ hsame hinv.free_ok,
            hinv.live_ok, ?_⟩
          intro x
          show coverFree fl x + coverLive st.allocated_blocks st.next_id.toNat x = _
          rw [coverFree_congr _ _ hsame x]
          exact hinv.cover x
        · have hBle : B ≤ 2 ^ k := by rw [← hinv.total]; omega
          have hik : i ≤ k := by rw [hBi] at hBle; exact (pow2_le i k).1 hBle
          cases hl : getList fl B with
          | nil =>
            rw [hsame] at hl
            exact absurd hl (hne hBle)
          | cons address rest =>
            rw [allocate_success st n r B fl address rest hn hr hf hB hl] at h
            have h2 := (Prod.mk.inj (Option.some.inj h)).2
            subst h2
            have hl2 : getList st.free_lists (2 ^ i) = address :: rest := by
              rw [← hsame, ← hBi]; exact hl
            have hmem : address ∈ getList st.free_lists (2 ^ i) := by
              rw [hl2]; exact List.mem_cons_self _ _
            obtain ⟨i2, -, hi2, hdvd⟩ := hinv.free_ok _ _ hmem
            have hend : address + 2 ^ i ≤ 2 ^ k := by
              have hpos := Nat.two_pow_pos i
              have h1 := coverFree_ge st.free_lists i (by omega) (address + 2 ^ i - 1)
              have h2 := cntList_mem (2 ^ i) address _ (address + 2 ^ i - 1) hmem
              have h3 : ind address (2 ^ i) (address + 2 ^ i - 1) = 1 :=
                (ind_eq_one _ _ _).2 ⟨by omega, by omega⟩
              have h4 := hinv.cover (address + 2 ^ i - 1)
              by_contra hcon
              rw [if_neg (by omega)] at h4
              omega
            have hok1 : FreeOK k (setList fl B rest) := by
              intro s a ha
              rw [getList_setList] at ha
              by_cases hs : s = B
              · rw [if_pos hs] at ha
                apply hinv.free_ok s a
                rw [hs, hBi, hl2]
                exact List.mem_cons_of_mem _ ha
              · rw [if_neg hs, hsame] at ha
                exact hinv.free_ok s a ha
            have hcov1 : ∀ x, coverFree (setList fl B rest) x + ind address (2 ^ i) x =
                coverFree st.free_lists x := by
              intro x
              have h1 := coverFree_setList fl i (by omega) rest x
              rw [← hBi, hl, cntList_cons] at h1
              have h2 := coverFree_congr _ _ hsame x
              rw [← hBi]
              omega
            rw [hBi, hrj] at *
            obtain ⟨hok2, hcov2⟩ := splitBlock_inv k hk 65 (setList fl (2 ^ i) rest) address i j
              hji hik hdvd hend (by omega) hok1
            obtain ⟨n0, hn0⟩ : ∃ n0 : Nat, (n0 : Int) = st.next_id :=
              ⟨st.next_id.toNat, Int.toNat_of_nonneg hinv.next_nonneg⟩
            refine ⟨hinv.total, ?_, hok2, ?_, ?_⟩
            · show 0 ≤ st.next_id + 1
              have := hinv.next_nonneg
              omega
            · intro id2 b hb
              have hb2 : findBlock (assignBlock st.allocated_blocks st.next_id
                  { address := address, size := 2 ^ j, id := st.next_id }) id2 = some b := hb
              rw [findBlock_assignBlock] at hb2
              show 0 ≤ id2 ∧ id2 < st.next_id + 1 ∧ _
              by_cases hid : id2 = st.next_id
              · rw [if_pos hid] at hb2
                have hb3 := Option.some.inj hb2
                subst hb3
                have := hinv.next_nonneg
                refine ⟨by omega, by omega, j, by omega, rfl, ?_⟩
                exact Dvd.dvd.trans (pow_dvd_pow 2 hji) hdvd
              · rw [if_neg hid] at hb2
                obtain ⟨h1, h2, h3⟩ := hinv.live_ok id2 b hb2
                exact ⟨h1, by omega, h3⟩
            · intro x
              show coverFree (splitBlock 65 (setList fl (2 ^ i) rest) address (2 ^ i) (2 ^ j)) x +
                coverLive (assignBlock st.allocated_blocks st.next_id
                  { address := address, size := 2 ^ j, id := st.next_id })
                  (st.next_id + 1).toNat x = _
              have h1 := hcov2 x
              have h2 := hcov1 x
              have h3 := hinv.cover x
              have h4 := coverLive_assign st.allocated_blocks n0
                { address := address, size := 2 ^ j, id := st.next_id } x
              rw [← hn0] at h3 h4 ⊢
              have e1 : ((n0 : Int) + 1).toNat = n0 + 1 := by omega
              have e2 : (n0 : Int).toNat = n0 := by omega
              rw [e1]
              rw [e2] at h3
              simp only at h4
              omega

/-- In a state that satisfies the invariant `free` returns, and the state it returns
satisfies the invariant. -/
theorem free_buddyInv (k : Nat) (hk : k < 64) (st : BuddyAllocator) (block_id : Int)
    (hinv : BuddyInv st k) : ∃ st2, st.free block_id = some st2 ∧ BuddyInv st2 k := by
  cases hfind : findBlock st.allocated_blocks block_id with
  | none => exact ⟨st, free_not_found st block_id hfind, hinv⟩
  | some b =>
    obtain ⟨hid0, hidlt, j, hjk, hbs, hdvd⟩ := hinv.live_ok block_id b hfind
    rw [hbs] at hdvd
    obtain ⟨fl2, a2, j2, hres, hj2, hal2, hok2, hcov2⟩ :=
      mergeLoop_inv k hk 65 st.free_lists b.address j hjk hdvd (by omega) hinv.free_ok
    rw [← hinv.total, ← hbs] at hres
    refine ⟨_, free_found st block_id b fl2 a2 (2 ^ j2) hfind hres, ?_⟩
    obtain ⟨i0, hi0⟩ : ∃ i0 : Nat, (i0 : Int) = block_id :=
      ⟨block_id.toNat, Int.toNat_of_nonneg hid0⟩
    refine ⟨hinv.total, hinv.next_nonneg, ?_, ?_, ?_⟩
    · intro s a ha
      have ha2 : a ∈ getList (pushBack fl2 (2 ^ j2) a2) s := ha
      rw [getList_pushBack] at ha2
      by_cases hs : s = 2 ^ j2
      · rw [if_pos hs] at ha2
        rcases List.mem_append.1 ha2 with h1 | h1
        · exact hok2 s a (by rw [hs]; exact h1)
        · have ha3 : a = a2 := by simpa using h1
          exact ⟨j2, hj2, hs, by rw [hs, ha3]; exact hal2⟩
      · rw [if_neg hs] at ha2
        exact hok2 s a ha2
    · intro id2 b2 hb2
      have hb3 : findBlock (eraseBlock st.allocated_blocks block_id) id2 = some b2 := hb2
      rw [findBlock_eraseBlock] at hb3
      by_cases hid : id2 = block_id
      · rw [if_pos hid] at hb3; cases hb3
      · rw [if_neg hid] at hb3
        exact hinv.live_ok id2 b2 hb3
    · intro x
      show coverFree (pushBack fl2 (2 ^ j2) a2) x +
        coverLive (eraseBlock st.allocated_blocks block_id) st.next_id.toNat x = _
      have h1 := hcov2 x
      have h2 : coverFree (pushBack fl2 (2 ^ j2) a2) x +
          cntList (2 ^ j2) (getList fl2 (2 ^ j2)) x =
          coverFree fl2 x + cntList (2 ^ j2) (getList fl2 (2 ^ j2) ++ [a2]) x :=
        coverFree_setList fl2 j2 (by omega) _ x
      rw [cntList_append] at h2
      have h3 : cntList (2 ^ j2) [a2] x = ind a2 (2 ^ j2) x := by simp [cntList]
      have h4 := hinv.cover x
      have h5 := coverLive_erase st.allocated_blocks st.next_id.toNat i0 (by omega) b
        (by rw [hi0]; exact hfind) x
      rw [hi0, hbs] at h5
      omega

theorem step_buddyInv (k : Nat) (hk : k < 64) (st : BuddyAllocator) (op : BuddyOp)
    (st2 : BuddyAllocator) (hinv : BuddyInv st k) (h : st.step op = some st2) :
    BuddyInv st2 k := by
  cases op with
  | allocate n =>
    have h : Option.map (fun r => r.2) (st.allocate n) = some st2 := h
    cases ha : st.allocate n with
    | none => rw [ha] at h; cases h
    | some r =>
      rw [ha] at h
      obtain ⟨id, st3⟩ := r
      have h2 : st3 = st2 := Option.some.inj h
      subst h2
      exact allocate_buddyInv k hk st n id st3 hinv ha
  | free block_id =>
    obtain ⟨st3, h3, hinv3⟩ := free_buddyInv k hk st block_id hinv
    have h4 : st.free block_id = some st2 := h
    rw [h3] at h4
    have h5 := Option.some.inj h4
    subst h5
    exact hinv3

theorem run_buddyInv (k : Nat) (hk : k < 64) (st : BuddyAllocator) (ops : List BuddyOp)
    (st2 : BuddyAllocator) (hinv : BuddyInv st k) (h : st.run ops = some st2) :
    BuddyInv st2 k := by
  induction ops generalizing st with
  | nil =>
    have h2 : st = st2 := Option.some.inj h
    subst h2
    exact hinv
  | cons op ops ih =>
    unfold BuddyAllocator.run at h
    cases hs : st.step op with
    | none => rw [hs] at h; cases h
    | some st1 =>
      rw [hs] at h
      exact ih st1 (step_buddyInv k hk st op st1 hinv hs) h
/-! ## From the counting invariant to disjoint spans -/

theorem cover_le_one (st : BuddyAllocator) (k : Nat) (hinv : BuddyInv st k) (x : Nat) :
    coverFree st.free_lists x + coverLive st.allocated_blocks st.next_id.toNat x ≤ 1 := by
  rw [hinv.cover x]
  split <;> omega

/-- A live block is counted by `coverLive`. -/
theorem live_counted (st : BuddyAllocator) (k : Nat) (hinv : BuddyInv st k)
    (id : Int) (b : BuddyBlock) (hb : findBlock st.allocated_blocks id = some b) :
    ∃ i : Nat, (i : Int) = id ∧ i < st.next_id.toNat ∧ 0 < b.size ∧
      ∀ x, ind b.address b.size x =
        liveInd (findBlock st.allocated_blocks (i : Int)) x := by
  obtain ⟨h0, hlt, j, -, hs, -⟩ := hinv.live_ok id b hb
  refine ⟨id.toNat, Int.toNat_of_nonneg h0, by omega, by rw [hs]; exact Nat.two_pow_pos j, ?_⟩
  intro x
  rw [Int.toNat_of_nonneg h0, hb]
  rfl

/-- The lists after the split loop: every size class `2^h` from the target size up to
half the block size gets the address `a + 2^h` appended, every other list is kept. -/
theorem splitBlock_lists (k : Nat) (hk : k < 64) (fuel : Nat) (fl : List (Nat × List Nat))
    (a i j : Nat) (hji : j ≤ i) (hik : i ≤ k) (hend : a + 2 ^ i ≤ 2 ^ k)
    (hfuel : i - j < fuel) :
    (∀ h, j ≤ h → h < i →
      getList (splitBlock fuel fl a (2 ^ i) (2 ^ j)) (2 ^ h) = getList fl (2 ^ h) ++ [a + 2 ^ h]) ∧
    (∀ s, (∀ h, j ≤ h → h < i → s ≠ 2 ^ h) →
      getList (splitBlock fuel fl a (2 ^ i) (2 ^ j)) s = getList fl s) := by
  induction fuel generalizing fl i with
  | zero => omega
  | succ f ih =>
    unfold splitBlock
    by_cases hgt : 2 ^ i > 2 ^ j
    · rw [if_pos hgt]
      have hlt : j < i := (pow2_lt j i).1 hgt
      have hhalf : 2 ^ i / 2 = 2 ^ (i - 1) := pow2_half i (by omega)
      have hdbl : 2 ^ i = 2 ^ (i - 1) + 2 ^ (i - 1) := by
        have := pow2_double (i - 1)
        rwa [Nat.sub_add_cancel (by omega : 1 ≤ i)] at this
      have hk2 : 2 ^ k < SIZE_MOD := pow2_lt_size k hk
      have hp1 : 0 < 2 ^ (i - 1) := Nat.two_pow_pos (i - 1)
      have hadd : addSize a (2 ^ (i - 1)) = a + 2 ^ (i - 1) := addSize_eq _ _ (by omega)
      rw [hhalf, hadd]
      obtain ⟨ih1, ih2⟩ := ih (pushBack fl (2 ^ (i - 1)) (a + 2 ^ (i - 1))) (i - 1)
        (by omega) (by omega) (by omega) (by omega)
      constructor
      · intro h hjh hhi
        by_cases hh : h = i - 1
        · subst hh
          rw [ih2 _ (fun h2 _ h3 heq => by
            have := Nat.pow_right_injective (le_refl 2) heq
            omega), getList_pushBack, if_pos rfl]
        · rw [ih1 h hjh (by omega), getList_pushBack, if_neg (fun heq => hh
            (Nat.pow_right_injective (le_refl 2) heq))]
      · intro s hs
        rw [ih2 s (fun h2 h3 h4 => hs h2 h3 (by omega)), getList_pushBack,
          if_neg (hs (i - 1) (by omega) (by omega))]
    · rw [if_neg hgt]
      have hij : i = j := by
        have := (pow2_lt j i).not.1 hgt
        omega
      subst hij
      exact ⟨fun h h1 h2 => by omega, fun s _ => rfl⟩

/-- The two outcomes of an `allocate` that returns: a failure that changes no list, no
live record and no id, or a success that takes the first address of the first
non-empty size class `2^i` at or above the rounded size `2^j`, leaves the upper halves
in the classes between, and records the block under the next id. -/
theorem allocate_outcome (k : Nat) (hk : k < 64) (st : BuddyAllocator) (n : Nat) (id : Int)
    (st1 : BuddyAllocator) (hinv : BuddyInv st k) (h : st.allocate n = some (id, st1)) :
    (id = -1 ∧ st1.allocated_blocks = st.allocated_blocks ∧ st1.next_id = st.next_id ∧
      st1.total_memory = st.total_memory ∧ st1.used_memory = st.used_memory ∧
      (∀ s, getList st1.free_lists s = getList st.free_lists s)) ∨
    (∃ i j address rest, n ≠ 0 ∧ nextPowerOfTwo n = some (2 ^ j) ∧ j ≤ i ∧ i ≤ k ∧
      getList st.free_lists (2 ^ i) = address :: rest ∧
      (∀ h, j ≤ h → h < i → getList st.free_lists (2 ^ h) = []) ∧
      2 ^ i ∣ address ∧ address + 2 ^ i ≤ 2 ^ k ∧
      id = st.next_id ∧ st1.next_id = st.next_id + 1 ∧
      st1.total_memory = st.total_memory ∧
      st1.used_memory = addSize st.used_memory (2 ^ j) ∧
      st1.allocated_blocks = assignBlock st.allocated_blocks st.next_id
        { address := address, size := 2 ^ j, id := st.next_id } ∧
      getList st1.free_lists (2 ^ i) = rest ∧
      (∀ h, j ≤ h → h < i → getList st1.free_lists (2 ^ h) = [address + 2 ^ h]) ∧
      (∀ s, s ≠ 2 ^ i → (∀ h, j ≤ h → h < i → s ≠ 2 ^ h) →
        getList st1.free_lists s = getList st.free_lists s)) := by
  by_cases hn : n = 0
  · subst hn
    rw [allocate_zero] at h
    have h1 := (Prod.mk.inj (Option.some.inj h)).1
    have h2 := (Prod.mk.inj (Option.some.inj h)).2
    subst h2
    exact Or.inl ⟨h1.symm, rfl, rfl, rfl, rfl, fun _ => rfl⟩
  · cases hr : nextPowerOfTwo n with
    | none => rw [allocate_diverges_round st n hn hr] at h; cases h
    | some r =>
      obtain ⟨j, hrj, hnr⟩ := nextPowerOfTwo_some n r hn hr
      cases hf : findBlockSize 65 st.free_lists st.total_memory r with
      | none => rw [allocate_diverges_search st n r hn hr hf] at h; cases h
      | some res =>
        obtain ⟨B, fl⟩ := res
        have hf2 := hf
        rw [hinv.total, hrj] at hf2
        obtain ⟨hsame, i, hji, hBi, hne, hbelow⟩ :=
          findBlockSize_some k hk 65 st.free_lists j B fl hinv.free_ok hf2
        by_cases hB : B > st.total_memory
        · rw [allocate_out_of_memory st n r B fl hn hr hf hB] at h
          have h1 := (Prod.mk.inj (Option.some.inj h)).1
          have h2 := (Prod.mk.inj (Option.some.inj h)).2
          subst h2
          exact Or.inl ⟨h1.symm, rfl, rfl, rfl, rfl, hsame⟩
        · have hBle : B ≤ 2 ^ k := by rw [← hinv.total]; omega
          have hik : i ≤ k := by rw [hBi] at hBle; exact (pow2_le i k).1 hBle
          cases hl : getList fl B with
          | nil =>
            rw [hsame] at hl
            exact absurd hl (hne hBle)
          | cons address rest =>
            rw [allocate_success st n r B fl address rest hn hr hf hB hl] at h
            have h1 := (Prod.mk.inj (Option.some.inj h)).1
            have h2 := (Prod.mk.inj (Option.some.inj h)).2
            subst h2
            have hl2 : getList st.free_lists (2 ^ i) = address :: rest := by
              rw [← hsame, ← hBi]; exact hl
            have hmem : address ∈ getList st.free_lists (2 ^ i) := by
              rw [hl2]; exact List.mem_cons_self _ _
            obtain ⟨i2, -, hi2, hdvd⟩ := hinv.free_ok _ _ hmem
            have hend : address + 2 ^ i ≤ 2 ^ k := by
              have hpos := Nat.two_pow_pos i
              have e1 := coverFree_ge st.free_lists i (by omega) (address + 2 ^ i - 1)
              have e2 := cntList_mem (2 ^ i) address _ (address + 2 ^ i - 1) hmem
              have e3 : ind address (2 ^ i) (address + 2 ^ i - 1) = 1 :=
                (ind_eq_one _ _ _).2 ⟨by omega, by omega⟩
              have e4 := hinv.cover (address + 2 ^ i - 1)
              by_contra hcon
              rw [if_neg (by omega)] at e4
              omega
            subst hBi hrj
            obtain ⟨hs1, hs2⟩ := splitBlock_lists k hk 65 (setList fl (2 ^ i) rest) address i j
              hji hik hend (by omega)
            have hne2 : ∀ h, h < i → (2 : Nat) ^ h ≠ 2 ^ i := fun h hh heq => by
              have := Nat.pow_right_injective (le_refl 2) heq
              omega
            refine Or.inr ⟨i, j, address, rest, hn, rfl, hji, hik, hl2, hbelow, hdvd, hend,
              h1.symm, rfl, rfl, rfl, rfl, ?_, ?_, ?_⟩
            · show getList (splitBlock 65 (setList fl (2 ^ i) rest) address (2 ^ i) (2 ^ j))
                (2 ^ i) = rest
              rw [hs2 _ (fun h _ hh heq => hne2 h hh heq.symm), getList_setList, if_pos rfl]
            · intro h hh1 hh2
              show getList (splitBlock 65 (setList fl (2 ^ i) rest) address (2 ^ i) (2 ^ j))
                (2 ^ h) = [address + 2 ^ h]
              rw [hs1 h hh1 hh2, getList_setList, if_neg (hne2 h hh2), hsame,
                hbelow h hh1 hh2]
              rfl
            · intro s hs1b hs2b
              show getList (splitBlock 65 (setList fl (2 ^ i) rest) address (2 ^ i) (2 ^ j))
                s = getList st.free_lists s
              rw [hs2 s hs2b, getList_setList, if_neg hs1b, hsame]

/-- A successful `free` in a state that satisfies the invariant: the merge loop returns
and the state after the call is the one the source builds from its result. -/
theorem free_outcome (k : Nat) (hk : k < 64) (st : BuddyAllocator) (block_id : Int)
    (b : BuddyBlock) (hinv : BuddyInv st k)
    (hfind : findBlock st.allocated_blocks block_id = some b) :
    ∃ fl2 a2 j2, mergeLoop 65 st.free_lists st.total_memory b.address b.size =
        some (fl2, a2, 2 ^ j2) ∧ j2 ≤ k ∧
      st.free block_id = some
        { st with
          allocated_blocks := eraseBlock st.allocated_blocks block_id
          used_memory := subSize st.used_memory b.size
          free_lists := pushBack fl2 (2 ^ j2) a2 } := by
  obtain ⟨-, -, j, hjk, hbs, hdvd⟩ := hinv.live_ok block_id b hfind
  rw [hbs] at hdvd
  obtain ⟨fl2, a2, j2, hres, hj2, -, -, -⟩ :=
    mergeLoop_inv k hk 65 st.free_lists b.address j hjk hdvd (by omega) hinv.free_ok
  rw [← hinv.total, ← hbs] at hres
  exact ⟨fl2, a2, j2, hres, hj2, free_found st block_id b fl2 a2 (2 ^ j2) hfind hres⟩

/-- The doubling loop from `2^i` for a request up to `2^63`: it leaves at the first
power of two from `2^i` on that is not below `n`. -/
theorem nextPowerOfTwoLoop_returns (fuel i n : Nat) (hi : i < 64) (hn : n ≤ 2 ^ 63)
    (hfuel : 64 ≤ fuel + i) :
    ∃ j, i ≤ j ∧ j < 64 ∧ nextPowerOfTwoLoop fuel (2 ^ i) n = some (2 ^ j) ∧ n ≤ 2 ^ j ∧
      ∀ t, i ≤ t → t < j → 2 ^ t < n := by
  induction fuel generalizing i with
  | zero => omega
  | succ f ih =>
    unfold nextPowerOfTwoLoop
    by_cases hlt : 2 ^ i < n
    · rw [if_pos hlt]
      have h63 : i < 63 := (pow2_lt i 63).1 (by omega)
      rw [mulSize_two_pow i (by omega)]
      obtain ⟨j, h1, h2, h3, h4, h5⟩ := ih (i + 1) (by omega) (by omega)
      refine ⟨j, by omega, h2, h3, h4, ?_⟩
      intro t ht1 ht2
      rcases Nat.eq_or_lt_of_le ht1 with h6 | h6
      · rw [← h6]; exact hlt
      · exact h5 t (by omega) ht2
    · rw [if_neg hlt]
      exact ⟨i, le_refl _, hi, rfl, by omega, fun t h1 h2 => by omega⟩

/-- For a request from 1 to `2^63`, `nextPowerOfTwo` returns the least power of two
that is not below the request. -/
theorem nextPowerOfTwo_spec (n : Nat) (h1 : 1 ≤ n) (h2 : n ≤ 2 ^ 63) :
    ∃ j, j < 64 ∧ nextPowerOfTwo n = some (2 ^ j) ∧ n ≤ 2 ^ j ∧ ∀ i, n ≤ 2 ^ i → j ≤ i := by
  unfold nextPowerOfTwo
  rw [if_neg (by omega)]
  by_cases hp : isPowerOfTwo n = true
  · rw [if_pos hp]
    obtain ⟨j, hj⟩ := (isPowerOfTwo_iff n).1 hp
    subst hj
    exact ⟨j, by have := (pow2_le j 63).1 h2; omega, rfl, le_refl _,
      fun i hi => (pow2_le j i).1 hi⟩
  · rw [if_neg hp]
    obtain ⟨j, -, hj, hr, hle, hbelow⟩ :=
      nextPowerOfTwoLoop_returns 65 0 n (by norm_num) h2 (by norm_num)
    rw [Nat.pow_zero] at hr
    refine ⟨j, hj, hr, hle, ?_⟩
    intro i hi
    by_contra hcon
    have := hbelow i (Nat.zero_le _) (by omega)
    omega

/-- The doubling loop on a request above `2^63` never leaves, whatever the number of
rounds: `power` reaches `2^63`, wraps to 0 and stays there. -/
theorem nextPowerOfTwoLoop_diverges (fuel i n : Nat) (hi : i < 64) (hn : 2 ^ 63 < n) :
    nextPowerOfTwoLoop fuel (2 ^ i) n = none := by
  induction fuel generalizing i with
  | zero => rfl
  | succ f ih =>
    unfold nextPowerOfTwoLoop
    have hle : 2 ^ i ≤ 2 ^ 63 := (pow2_le i 63).2 (by omega)
    rw [if_pos (by omega)]
    by_cases h63 : i + 1 < 64
    · rw [mulSize_two_pow i h63]
      exact ih (i + 1) h63
    · have hi63 : i = 63 := by omega
      subst hi63
      rw [mulSize_two_pow_top]
      exact nextPowerOfTwoLoop_zero f n (by omega)

theorem nextPowerOfTwo_none (n : Nat) (h1 : 2 ^ 63 < n) (h2 : n < 2 ^ 64) :
    nextPowerOfTwo n = none := by
  unfold nextPowerOfTwo
  rw [if_neg (by omega)]
  have hp : ¬ isPowerOfTwo n = true := by
    intro hp
    obtain ⟨j, hj⟩ := (isPowerOfTwo_iff n).1 hp
    subst hj
    have e1 := (pow2_lt 63 j).1 h1
    have e2 := (pow2_lt j 64).1 h2
    omega
  rw [if_neg hp]
  have := nextPowerOfTwoLoop_diverges 65 0 n (by norm_num) h1
  rwa [Nat.pow_zero] at this

/-- The search loop returns when a size class from the start size up to the extent has
a free address. -/
theorem findBlockSize_finds (k : Nat) (hk : k < 64) (fuel : Nat) (fl : List (Nat × List Nat))
    (i i2 : Nat) (h1 : i ≤ i2) (h2 : i2 ≤ k) (hne : getList fl (2 ^ i2) ≠ [])
    (hfuel : i2 - i < fuel) : ∃ r, findBlockSize fuel fl (2 ^ k) (2 ^ i) = some r := by
  induction fuel generalizing fl i with
  | zero => omega
  | succ f ih =>
    unfold findBlockSize
    have htouch : ∀ s, getList (touch fl (2 ^ i)) s = getList fl s := fun s => getList_touch _ _ _
    rw [if_pos ((pow2_le i k).2 (by omega))]
    by_cases hemp : (getList (touch fl (2 ^ i)) (2 ^ i)).isEmpty = true
    · rw [if_pos hemp]
      have hnil : getList fl (2 ^ i) = [] := by
        rw [htouch] at hemp
        exact List.isEmpty_iff.1 hemp
      have hlt : i < i2 := by
        rcases Nat.eq_or_lt_of_le h1 with h | h
        · rw [h] at hnil; exact absurd hnil hne
        · exact h
      rw [mulSize_two_pow i (by omega)]
      exact ih (touch fl (2 ^ i)) (i + 1) (by omega) (by rw [htouch]; exact hne) (by omega)
    · rw [if_neg hemp]
      exact ⟨_, rfl⟩

/-- The search loop returns in an extent below `2^63`: the size it tests passes the
extent before it can wrap. -/
theorem findBlockSize_returns (k : Nat) (hk : k < 63) (fuel : Nat) (fl : List (Nat × List Nat))
    (i : Nat) (hi : i < 64) (hfuel : k + 2 ≤ fuel + i) (hpos : 0 < fuel) :
    ∃ r, findBlockSize fuel fl (2 ^ k) (2 ^ i) = some r := by
  induction fuel generalizing fl i with
  | zero => omega
  | succ f ih =>
    unfold findBlockSize
    by_cases hle : 2 ^ i ≤ 2 ^ k
    · rw [if_pos hle]
      have hik : i ≤ k := (pow2_le i k).1 hle
      by_cases hemp : (getList (touch fl (2 ^ i)) (2 ^ i)).isEmpty = true
      · rw [if_pos hemp, mulSize_two_pow i (by omega)]
        exact ih (touch fl (2 ^ i)) (i + 1) (by omega) (by omega) (by omega)
      · rw [if_neg hemp]
        exact ⟨_, rfl⟩
    · rw [if_neg hle]
      exact ⟨_, rfl⟩

/-- The search loop in an extent of `2^63` bytes with no free address from the start
size up never leaves, whatever the number of rounds: the size it tests reaches `2^63`,
wraps to 0 and stays there. -/
theorem findBlockSize_diverges (fuel : Nat) (fl : List (Nat × List Nat)) (i : Nat)
    (hi : i < 64) (hok : FreeOK 63 fl) (hemp : ∀ t, i ≤ t → t < 64 → getList fl (2 ^ t) = []) :
    findBlockSize fuel fl (2 ^ 63) (2 ^ i) = none := by
  induction fuel generalizing fl i with
  | zero => rfl
  | succ f ih =>
    unfold findBlockSize
    have htouch : ∀ s, getList (touch fl (2 ^ i)) s = getList fl s := fun s => getList_touch _ _ _
    rw [if_pos ((pow2_le i 63).2 (by omega))]
    have hnil : (getList (touch fl (2 ^ i)) (2 ^ i)).isEmpty = true := by
      rw [htouch, hemp i (le_refl _) hi]
      rfl
    rw [if_pos hnil]
    by_cases h63 : i + 1 < 64
    · rw [mulSize_two_pow i h63]
      apply ih (touch fl (2 ^ i)) (i + 1) h63 (freeOK_congr 63 _ _ htouch hok)
      intro t ht1 ht2
      rw [htouch]
      exact hemp t (by omega) ht2
    · have hi63 : i = 63 := by omega
      subst hi63
      rw [mulSize_two_pow_top]
      apply findBlockSize_zero
      rw [htouch]
      exact freeOK_zero 63 fl hok

/-- In a state that satisfies the invariant, `allocate(n)` returns for every request up
to `2^63` when the extent is below `2^63` or some size class from the rounded size up
to the extent has a free address. -/
theorem allocate_returns (k : Nat) (hk : k < 64) (st : BuddyAllocator) (n : Nat)
    (hinv : BuddyInv st k) (hn : n ≤ 2 ^ 63)
    (h : k < 63 ∨ ∃ j i2, nextPowerOfTwo n = some (2 ^ j) ∧ j ≤ i2 ∧ i2 ≤ k ∧
      getList st.free_lists (2 ^ i2) ≠ []) :
    ∃ id st1, st.allocate n = some (id, st1) := by
  by_cases hn0 : n = 0
  · subst hn0
    exact ⟨_, _, allocate_zero st⟩
  · obtain ⟨j, hj, hr, -, -⟩ := nextPowerOfTwo_spec n (by omega) hn
    have hfind : ∃ r, findBlockSize 65 st.free_lists st.total_memory (2 ^ j) = some r := by
      rw [hinv.total]
      rcases h with h | ⟨j2, i2, hr2, h1, h2, h3⟩
      · exact findBlockSize_returns k h 65 _ j hj (by omega) (by norm_num)
      · rw [hr] at hr2
        have hjj : j = j2 := Nat.pow_right_injective (le_refl 2) (Option.some.inj hr2)
        subst hjj
        exact findBlockSize_finds k hk 65 _ j i2 h1 h2 h3 (by omega)
    obtain ⟨⟨B, fl⟩, hf⟩ := hfind
    by_cases hB : B > st.total_memory
    · exact ⟨_, _, allocate_out_of_memory st n _ B fl hn0 hr hf hB⟩
    · have hf2 := hf
      rw [hinv.total] at hf2
      obtain ⟨hsame, i, -, -, hne, -⟩ :=
        findBlockSize_some k hk 65 st.free_lists j B fl hinv.free_ok hf2
      cases hl : getList fl B with
      | nil =>
        rw [hsame] at hl
        exact absurd hl (hne (by rw [← hinv.total]; omega))
      | cons address rest =>
        exact ⟨_, _, allocate_success st n _ B fl address rest hn0 hr hf hB hl⟩
/-! ## Used-bytes accounting of the buddy allocator -/

theorem sum_ind_upto (N a s : Nat) :
    Finset.sum (Finset.range N) (fun x => ind a s x) =
      if N ≤ a then 0 else if N ≤ a + s then N - a else s := by
  induction N with
  | zero => simp
  | succ N ih =>
    rw [Finset.sum_range_succ, ih]
    unfold ind
    split_ifs <;> omega

theorem sum_ind (N a s : Nat) (h : a + s ≤ N) :
    Finset.sum (Finset.range N) (fun x => ind a s x) = s := by
  rw [sum_ind_upto]
  split_ifs <;> omega

theorem liveTotal_assign (live : List (Int × BuddyBlock)) (n : Nat) (b : BuddyBlock) :
    liveTotal (assignBlock live (n : Int) b) (n + 1) = liveTotal live n + b.size := by
  unfold liveTotal
  rw [Finset.sum_range_succ, findBlock_assignBlock, if_pos rfl]
  have hrest : Finset.sum (Finset.range n)
      (fun i : Nat => liveSize (findBlock (assignBlock live (n : Int) b) (i : Int))) =
      Finset.sum (Finset.range n) (fun i : Nat => liveSize (findBlock live (i : Int))) := by
    apply Finset.sum_congr rfl
    intro i hi
    have hlt : i < n := Finset.mem_range.1 hi
    have hne : (i : Int) ≠ (n : Int) := by omega
    rw [findBlock_assignBlock, if_neg hne]
  rw [hrest]
  rfl

theorem liveTotal_erase (live : List (Int × BuddyBlock)) (n i0 : Nat) (hi : i0 < n)
    (b : BuddyBlock) (hb : findBlock live (i0 : Int) = some b) :
    liveTotal (eraseBlock live (i0 : Int)) n + b.size = liveTotal live n := by
  unfold liveTotal
  have hmem : i0 ∈ Finset.range n := Finset.mem_range.2 hi
  rw [← Finset.add_sum_erase _ _ hmem, ← Finset.add_sum_erase (Finset.range n) _ hmem]
  have hrest : Finset.sum ((Finset.range n).erase i0)
      (fun i : Nat => liveSize (findBlock (eraseBlock live (i0 : Int)) (i : Int))) =
      Finset.sum ((Finset.range n).erase i0)
      (fun i : Nat => liveSize (findBlock live (i : Int))) := by
    apply Finset.sum_congr rfl
    intro i him
    have hne : i ≠ i0 := (Finset.mem_erase.1 him).1
    have hne2 : (i : Int) ≠ (i0 : Int) := by omega
    rw [findBlock_eraseBlock, if_neg hne2]
  rw [hrest, findBlock_eraseBlock, if_pos rfl, hb]
  simp only [liveSize]
  omega

/-- A live block ends at or below the end of the extent. -/
theorem live_span_le (st : BuddyAllocator) (k : Nat) (hinv : BuddyInv st k)
    (id : Int) (b : BuddyBlock) (hb : findBlock st.allocated_blocks id = some b) :
    b.address + b.size ≤ 2 ^ k := by
  obtain ⟨i, hi, hlt, hpos, hc⟩ := live_counted st k hinv id b hb
  have e1 := coverLive_ge st.allocated_blocks _ i hlt (b.address + b.size - 1)
  have e2 := hc (b.address + b.size - 1)
  have e3 : ind b.address b.size (b.address + b.size - 1) = 1 :=
    (ind_eq_one _ _ _).2 ⟨by omega, by omega⟩
  have e4 := hinv.cover (b.address + b.size - 1)
  by_contra hcon
  rw [if_neg (by omega)] at e4
  omega

/-- The sizes of the live blocks sum to what their spans cover. -/
theorem liveTotal_eq_cover (st : BuddyAllocator) (k : Nat) (hinv : BuddyInv st k) :
    liveTotal st.allocated_blocks st.next_id.toNat =
      Finset.sum (Finset.range (2 ^ k))
        (fun x => coverLive st.allocated_blocks st.next_id.toNat x) := by
  unfold liveTotal coverLive
  rw [Finset.sum_comm]
  apply Finset.sum_congr rfl
  intro i _
  cases hf : findBlock st.allocated_blocks (i : Int) with
  | none => simp [liveSize, liveInd]
  | some b =>
    simp only [liveSize, liveInd]
    exact (sum_ind _ _ _ (live_span_le st k hinv _ b hf)).symm

theorem liveTotal_le (st : BuddyAllocator) (k : Nat) (hinv : BuddyInv st k) :
    liveTotal st.allocated_blocks st.next_id.toNat ≤ 2 ^ k := by
  rw [liveTotal_eq_cover st k hinv]
  have h1 : Finset.sum (Finset.range (2 ^ k))
      (fun x => coverLive st.allocated_blocks st.next_id.toNat x) ≤
      Finset.sum (Finset.range (2 ^ k)) (fun _ => 1) := by
    apply Finset.sum_le_sum
    intro x _
    have := cover_le_one st k hinv x
    omega
  simpa using h1

theorem liveTotal_ge (live : List (Int × BuddyBlock)) (n i : Nat) (hi : i < n) :
    liveSize (findBlock live (i : Int)) ≤ liveTotal live n := by
  unfold liveTotal
  exact Finset.single_le_sum (f := fun i : Nat => liveSize (findBlock live (i : Int)))
    (fun _ _ => Nat.zero_le _) (Finset.mem_range.2 hi)

theorem init_buddyUsed (st0 : BuddyAllocator) (k : Nat) : BuddyUsed (st0.init (2 ^ k)) := by
  have hp : isPowerOfTwo (2 ^ k) = true := (isPowerOfTwo_iff _).2 ⟨k, rfl⟩
  unfold BuddyUsed BuddyAllocator.init
  rw [hp]
  simp [liveTotal, findBlock, liveSize]

/-- Across an `allocate` that returns, `used_memory` stays the sum of the live sizes;
on success it grows by the rounded size, as a natural number. -/
theorem allocate_buddyUsed (k : Nat) (hk : k < 64) (st : BuddyAllocator) (n : Nat) (id : Int)
    (st1 : BuddyAllocator) (hinv : BuddyInv st k) (hu : BuddyUsed st)
    (h : st.allocate n = some (id, st1)) :
    BuddyUsed st1 ∧
      (id ≠ -1 → ∃ r, nextPowerOfTwo n = some r ∧ st1.used_memory = st.used_memory + r) := by
  have hinv1 := allocate_buddyInv k hk st n id st1 hinv h
  have hle1 := liveTotal_le st1 k hinv1
  unfold BuddyUsed at hu ⊢
  rcases allocate_outcome k hk st n id st1 hinv h with
    ⟨h1, h2, h3, -, h4, -⟩ |
    ⟨i, j, address, rest, -, hr, -, -, -, -, -, -, -, hnext, -, hused, hal, -, -, -⟩
  · rw [h2, h3, h4]
    exact ⟨hu, fun hid => absurd h1 hid⟩
  · obtain ⟨n0, hn0⟩ : ∃ n0 : Nat, (n0 : Int) = st.next_id :=
      ⟨st.next_id.toNat, Int.toNat_of_nonneg hinv.next_nonneg⟩
    have e1 : ((n0 : Int) + 1).toNat = n0 + 1 := by omega
    have e2 : (n0 : Int).toNat = n0 := by omega
    rw [← hn0] at hal hnext hu
    have h5 := liveTotal_assign st.allocated_blocks n0
      { address := address, size := 2 ^ j, id := (n0 : Int) }
    rw [hal, hnext, e1, h5] at hle1
    rw [e2] at hu
    have hk2 : 2 ^ k < SIZE_MOD := pow2_lt_size k hk
    have hadd : addSize st.used_memory (2 ^ j) = st.used_memory + 2 ^ j :=
      addSize_eq _ _ (by simp only at hle1; omega)
    constructor
    · rw [hused, hal, hnext, e1, h5, hadd, hu]
    · intro _
      exact ⟨2 ^ j, hr, by rw [hused, hadd]⟩

/-- Across a `free` that finds the id, `used_memory` stays the sum of the live sizes and
drops by the size of the freed block, as a natural number. -/
theorem free_buddyUsed (k : Nat) (hk : k < 64) (st : BuddyAllocator) (block_id : Int)
    (st2 : BuddyAllocator) (hinv : BuddyInv st k) (hu : BuddyUsed st)
    (h : st.free block_id = some st2) :
    BuddyUsed st2 ∧
      ∀ b, findBlock st.allocated_blocks block_id = some b →
        st2.used_memory + b.size = st.used_memory := by
  have hle := liveTotal_le st k hinv
  have hk2 : 2 ^ k < SIZE_MOD := pow2_lt_size k hk
  unfold BuddyUsed at hu ⊢
  cases hfind : findBlock st.allocated_blocks block_id with
  | none =>
    rw [free_not_found st block_id hfind] at h
    rw [← Option.some.inj h]
    exact ⟨hu, fun b hb => by cases hb⟩
  | some b =>
    obtain ⟨fl2, a2, j2, -, -, hst⟩ := free_outcome k hk st block_id b hinv hfind
    rw [hst] at h
    rw [← Option.some.inj h]
    obtain ⟨h0, hlt, -⟩ := hinv.live_ok block_id b hfind
    obtain ⟨i0, hi0⟩ : ∃ i0 : Nat, (i0 : Int) = block_id :=
      ⟨block_id.toNat, Int.toNat_of_nonneg h0⟩
    have hi0lt : i0 < st.next_id.toNat := by omega
    have h5 := liveTotal_erase st.allocated_blocks st.next_id.toNat i0 hi0lt b
      (by rw [hi0]; exact hfind)
    rw [hi0] at h5
    have hsub : subSize st.used_memory b.size = st.used_memory - b.size := by
      unfold subSize SIZE_MOD at *
      omega
    constructor
    · show subSize st.used_memory b.size =
        liveTotal (eraseBlock st.allocated_blocks block_id) st.next_id.toNat
      rw [hsub]
      omega
    · intro b2 hb2
      have hbb : b = b2 := Option.some.inj hb2
      subst hbb
      show subSize st.used_memory b.size + b.size = st.used_memory
      rw [hsub]
      omega

theorem run_buddyUsed (k : Nat) (hk : k < 64) (st : BuddyAllocator) (ops : List BuddyOp)
    (st2 : BuddyAllocator) (hinv : BuddyInv st k) (hu : BuddyUsed st)
    (h : st.run ops = some st2) : BuddyUsed st2 := by
  induction ops generalizing st with
  | nil =>
    have h2 : st = st2 := Option.some.inj h
    subst h2
    exact hu
  | cons op ops ih =>
    unfold BuddyAllocator.run at h
    cases hs : st.step op with
    | none => rw [hs] at h; cases h
    | some st1 =>
      rw [hs] at h
      have hinv1 := step_buddyInv k hk st op st1 hinv hs
      refine ih st1 hinv1 ?_ h
      cases op with
      | allocate n =>
        have hs2 : Option.map (fun r => r.2) (st.allocate n) = some st1 := hs
        cases ha : st.allocate n with
        | none => rw [ha] at hs2; cases hs2
        | some r =>
          rw [ha] at hs2
          obtain ⟨id, st3⟩ := r
          have h2 : st3 = st1 := Option.some.inj hs2
          subst h2
          exact (allocate_buddyUsed k hk st n id st3 hinv hu ha).1
      | free block_id =>
        exact (free_buddyUsed k hk st block_id st1 hinv hu hs).1
/-! ## The merge loop, buddy by buddy -/

theorem roundDown_of_dvd (a m : Nat) (h : m ∣ a) : roundDown a m = a :=
  Nat.div_mul_cancel h

theorem roundDown_roundDown (a m c : Nat) :
    roundDown (roundDown a m) (m * c) = roundDown a (m * c) := by
  unfold roundDown
  by_cases hm : m = 0
  · subst hm
    simp
  · have hpos : 0 < m := Nat.pos_of_ne_zero hm
    congr 1
    rw [← Nat.div_div_eq_div_mul (a / m * m) m c, Nat.mul_div_cancel _ hpos,
      Nat.div_div_eq_div_mul]

/-- The lower of an aligned block and its buddy is the block address rounded down to a
multiple of twice the size. -/
theorem min_buddy (j a : Nat) (h : 2 ^ j ∣ a) :
    min a (getBuddyAddress a (2 ^ j)) = roundDown a (2 ^ (j + 1)) := by
  unfold getBuddyAddress
  rw [xor_two_pow j a h]
  by_cases he : (a / 2 ^ j) % 2 = 0
  · rw [if_pos he, roundDown_of_dvd _ _ (dvd_double_of_even j a h he)]
    omega
  · rw [if_neg he]
    obtain ⟨hle, q, hq⟩ := dvd_double_of_odd j a h he
    have hm : min a (a - 2 ^ j) = a - 2 ^ j := by omega
    have ha : a = 2 ^ (j + 1) * q + 2 ^ j := by omega
    have hlt : 2 ^ j < 2 ^ (j + 1) := (pow2_lt j (j + 1)).2 (by omega)
    rw [hm]
    unfold roundDown
    conv_rhs => rw [ha]
    rw [Nat.mul_add_div (Nat.two_pow_pos (j + 1)), Nat.div_eq_of_lt hlt, Nat.add_zero, hq,
      Nat.mul_comm]

/-- The merge loop on an aligned block of size `2^j`: it returns at a size `2^i`, having
found the buddy of the block rounded down to each size from `2^j` to `2^(i-1)` in the
free list of that size and erased it there; at size `2^i` the extent is reached or the
buddy is not free; every other list is kept. -/
theorem mergeLoop_exact (k : Nat) (hk : k < 64) (fuel : Nat) (fl : List (Nat × List Nat))
    (a j : Nat) (hjk : j ≤ k) (hal : 2 ^ j ∣ a) (hfuel : k - j < fuel) :
    ∃ i fl2, j ≤ i ∧ i ≤ k ∧
      mergeLoop fuel fl (2 ^ k) a (2 ^ j) = some (fl2, roundDown a (2 ^ i), 2 ^ i) ∧
      (∀ t, j ≤ t → t < i →
        getBuddyAddress (roundDown a (2 ^ t)) (2 ^ t) ∈ getList fl (2 ^ t)) ∧
      (i < k → getBuddyAddress (roundDown a (2 ^ i)) (2 ^ i) ∉ getList fl (2 ^ i)) ∧
      (∀ t, j ≤ t → t < i → getList fl2 (2 ^ t) =
        (getList fl (2 ^ t)).erase (getBuddyAddress (roundDown a (2 ^ t)) (2 ^ t))) ∧
      (∀ c, (∀ t, j ≤ t → t < i → c ≠ 2 ^ t) → getList fl2 c = getList fl c) := by
  induction fuel generalizing fl a j with
  | zero => omega
  | succ f ih =>
    unfold mergeLoop
    have htouch : ∀ s, getList (touch fl (2 ^ j)) s = getList fl s := fun s => getList_touch _ _ _
    have hself : roundDown a (2 ^ j) = a := roundDown_of_dvd _ _ hal
    by_cases hlt : 2 ^ j < 2 ^ k
    · rw [if_pos hlt]
      have hjlt : j < k := (pow2_lt j k).1 hlt
      by_cases hmem : getBuddyAddress a (2 ^ j) ∈ getList (touch fl (2 ^ j)) (2 ^ j)
      · rw [if_pos hmem, mulSize_two_pow j (by omega), min_buddy j a hal]
        have hdvd : 2 ^ (j + 1) ∣ roundDown a (2 ^ (j + 1)) := Dvd.intro_left _ rfl
        obtain ⟨i, fl2, h1, h2, hres, hin, hstop, her, hoth⟩ :=
          ih (setList (touch fl (2 ^ j)) (2 ^ j)
              ((getList (touch fl (2 ^ j)) (2 ^ j)).erase (getBuddyAddress a (2 ^ j))))
            (roundDown a (2 ^ (j + 1))) (j + 1) (by omega) hdvd (by omega)
        have hrd : ∀ t, j + 1 ≤ t → roundDown (roundDown a (2 ^ (j + 1))) (2 ^ t) =
            roundDown a (2 ^ t) := by
          intro t ht
          have e : 2 ^ t = 2 ^ (j + 1) * 2 ^ (t - (j + 1)) := by
            rw [← Nat.pow_add]
            congr 1
            omega
          rw [e]
          exact roundDown_roundDown _ _ _
        have hne : ∀ t, j + 1 ≤ t → (2 : Nat) ^ t ≠ 2 ^ j := fun t ht heq => by
          have := Nat.pow_right_injective (le_refl 2) heq
          omega
        have hget : ∀ t, j + 1 ≤ t →
            getList (setList (touch fl (2 ^ j)) (2 ^ j)
              ((getList (touch fl (2 ^ j)) (2 ^ j)).erase (getBuddyAddress a (2 ^ j))))
              (2 ^ t) = getList fl (2 ^ t) := by
          intro t ht
          rw [getList_setList, if_neg (hne t ht), htouch]
        refine ⟨i, fl2, by omega, h2, ?_, ?_, ?_, ?_, ?_⟩
        · rw [hres, hrd i h1]
        · intro t ht1 ht2
          rcases Nat.eq_or_lt_of_le ht1 with h3 | h3
          · subst h3
            rw [hself, ← htouch]
            exact hmem
          · have := hin t (by omega) ht2
            rwa [hrd t (by omega), hget t (by omega)] at this
        · intro hik
          have := hstop hik
          rwa [hrd i h1, hget i h1] at this
        · intro t ht1 ht2
          rcases Nat.eq_or_lt_of_le ht1 with h3 | h3
          · subst h3
            rw [hoth _ (fun t2 h4 _ heq => hne t2 h4 heq.symm), getList_setList, if_pos rfl,
              htouch, hself]
          · rw [her t (by omega) ht2, hrd t (by omega), hget t (by omega)]
        · intro c hc
          rw [hoth c (fun t h4 h5 => hc t (by omega) h5), getList_setList,
            if_neg (hc j (le_refl _) (by omega)), htouch]
      · rw [if_neg hmem]
        refine ⟨j, touch fl (2 ^ j), le_refl _, hjk, by rw [hself],
          fun t h1 h2 => by omega, ?_, fun t h1 h2 => by omega, fun c _ => htouch c⟩
        intro _
        rw [hself, ← htouch]
        exact hmem
    · rw [if_neg hlt]
      have hjk2 : j = k := by
        have := (pow2_lt j k).not.1 hlt
        omega
      refine ⟨j, fl, le_refl _, hjk, by rw [hself], fun t h1 h2 => by omega,
        fun h => by omega, fun t h1 h2 => by omega, fun c _ => rfl⟩
/-! ## The failing calls of `allocate` and its counters -/

/-- The internal-fragmentation counter across an `allocate(n)` that returns, in any
state: for `n` other than 0 the rounded size minus `n` is added, as a `size_t`. -/
theorem allocate_frag (st : BuddyAllocator) (n : Nat) (id : Int) (st1 : BuddyAllocator)
    (hn : n ≠ 0) (h : st.allocate n = some (id, st1)) :
    ∃ r, nextPowerOfTwo n = some r ∧
      st1.internal_frag = addSize st.internal_frag (subSize r n) := by
  cases hr : nextPowerOfTwo n with
  | none => rw [allocate_diverges_round st n hn hr] at h; cases h
  | some r =>
    refine ⟨r, rfl, ?_⟩
    cases hf : findBlockSize 65 st.free_lists st.total_memory r with
    | none => rw [allocate_diverges_search st n r hn hr hf] at h; cases h
    | some res =>
      obtain ⟨B, fl⟩ := res
      by_cases hB : B > st.total_memory
      · rw [allocate_out_of_memory st n r B fl hn hr hf hB] at h
        rw [← (Prod.mk.inj (Option.some.inj h)).2]
      · cases hl : getList fl B with
        | nil =>
          have hnone : st.allocate n = none := by
            simp [BuddyAllocator.allocate, hn, hr, hf, hB, hl]
          rw [hnone] at h
          cases h
        | cons address rest =>
          rw [allocate_success st n r B fl address rest hn hr hf hB hl] at h
          rw [← (Prod.mk.inj (Option.some.inj h)).2]

theorem subSize_eq (r n : Nat) (h1 : n ≤ r) (h2 : r < SIZE_MOD) : subSize r n = r - n := by
  unfold subSize SIZE_MOD at *
  omega

/-- C1, tiling invariant of the contiguous allocator.  After `init(total)` (any
`size_t` value `total`, on any earlier state) and any finite sequence of
`malloc` / `free` / `setStrategy` calls, the block list is not empty, its first block
has address 0, every block ends where the next one starts, and the block sizes sum to
`total`. -/
theorem contiguous_tiling_invariant (m0 : MemoryManager) (total : Nat)
    (ht : total < SIZE_MOD) (ops : List Op) :
    ((m0.init total).run ops).blocks ≠ [] ∧
    (∀ b, ((m0.init total).run ops).blocks[0]? = some b → b.address = 0) ∧
    (∀ i b c, ((m0.init total).run ops).blocks[i]? = some b →
      ((m0.init total).run ops).blocks[i + 1]? = some c → b.address + b.size = c.address) ∧
    (((m0.init total).run ops).blocks.map (fun b => b.size)).sum = total := by
  obtain ⟨hne, htiles⟩ := run_listInv (m0.init total) ops total ht (init_listInv m0 total)
  refine ⟨hne, ?_, ?_, ?_⟩
  · intro b hb
    cases hbl : ((m0.init total).run ops).blocks with
    | nil => exact absurd hbl hne
    | cons x l =>
      rw [hbl] at hb htiles
      simp at hb
      subst hb
      exact htiles.1
  · exact fun i b c hb hc => tilesFrom_adjacent _ _ _ htiles i b c hb hc
  · simpa using tilesFrom_sum _ _ _ htiles

/-- C1 at `init(1024)`, `malloc(100)`, `malloc(200)`, `free(1)`, best fit, `malloc(50)`. -/
theorem contiguous_tiling_invariant_witness :
    1024 < SIZE_MOD ∧
    ((MemoryManager.new.init 1024).run
        [Op.malloc 100, Op.malloc 200, Op.free 1,
          Op.setStrategy AllocStrategy.BEST_FIT, Op.malloc 50]).blocks ≠ [] ∧
    (∀ b, ((MemoryManager.new.init 1024).run
        [Op.malloc 100, Op.malloc 200, Op.free 1,
          Op.setStrategy AllocStrategy.BEST_FIT, Op.malloc 50]).blocks[0]? = some b →
      b.address = 0) ∧
    (∀ i b c, ((MemoryManager.new.init 1024).run
        [Op.malloc 100, Op.malloc 200, Op.free 1,
          Op.setStrategy AllocStrategy.BEST_FIT, Op.malloc 50]).blocks[i]? = some b →
      ((MemoryManager.new.init 1024).run
        [Op.malloc 100, Op.malloc 200, Op.free 1,
          Op.setStrategy AllocStrategy.BEST_FIT, Op.malloc 50]).blocks[i + 1]? = some c →
      b.address + b.size = c.address) ∧
    (((MemoryManager.new.init 1024).run
        [Op.malloc 100, Op.malloc 200, Op.free 1,
          Op.setStrategy AllocStrategy.BEST_FIT, Op.malloc 50]).blocks.map
      (fun b => b.size)).sum = 1024 :=
  ⟨by decide, contiguous_tiling_invariant MemoryManager.new 1024 (by decide) _⟩

/-- C2, coalescing invariant of the contiguous allocator, at the failing input
`init(1024)`, `malloc(100)` on a new manager.  The call returns id 1, but the insert of
the remainder moves the vector (size 1, capacity 1), the writes through `chosen` miss
it, and the block list is left with two free blocks side by side: `[0, 100)` and
`[100, 1024)`, both with id -1.  After two more calls the third split finds the vector
below its capacity and does mark its block used: `malloc(50)`, `malloc(30)` lead to a
used block `[0, 30)` with id 3 followed by three free blocks. -/
theorem malloc_split_leaves_adjacent_free :
    ((MemoryManager.new.init 1024).malloc 100).1 = 1 ∧
    ((MemoryManager.new.init 1024).run [Op.malloc 100]).blocks =
      [{ address := 0, size := 100, is_free := true, id := -1 },
       { address := 100, size := 924, is_free := true, id := -1 }] ∧
    ¬ (∀ i b c, ((MemoryManager.new.init 1024).run [Op.malloc 100]).blocks[i]? = some b →
      ((MemoryManager.new.init 1024).run [Op.malloc 100]).blocks[i + 1]? = some c →
      ¬ (b.is_free = true ∧ c.is_free = true)) ∧
    ((MemoryManager.new.init 1024).run [Op.malloc 100, Op.malloc 50, Op.malloc 30]).blocks =
      [{ address := 0, size := 30, is_free := false, id := 3 },
       { address := 30, size := 20, is_free := true, id := -1 },
       { address := 50, size := 50, is_free := true, id := -1 },
       { address := 100, size := 924, is_free := true, id := -1 }] := by
  refine ⟨by decide, by decide, ?_, by decide⟩
  intro h
  exact h 0 { address := 0, size := 100, is_free := true, id := -1 }
    { address := 100, size := 924, is_free := true, id := -1 } (by decide) (by decide)
    ⟨rfl, rfl⟩

/-- C6, first fit.  `firstFit(n)` returns index `i` exactly when `blocks[i]` is free
with `size >= n` and no lower index has such a block; it returns -1 (`none`) exactly
when no block is free with `size >= n`; on free sizes 50, 200, 80 and `n = 60` it
returns the index of the block of size 200. -/
theorem firstFit_selects_first (blocks : List Block) (n : Nat) :
    (∀ i, firstFit blocks n = some i ↔
      ((∃ b, blocks[i]? = some b ∧ b.is_free = true ∧ n ≤ b.size) ∧
        ∀ j c, j < i → blocks[j]? = some c → ¬ (c.is_free = true ∧ n ≤ c.size))) ∧
    (firstFit blocks n = none ↔ ∀ b ∈ blocks, ¬ (b.is_free = true ∧ n ≤ b.size)) ∧
    firstFit
      [{ address := 0, size := 50, is_free := true, id := -1 },
       { address := 50, size := 200, is_free := true, id := -1 },
       { address := 250, size := 80, is_free := true, id := -1 }] 60 = some 1 := by
  refine ⟨?_, firstFitFrom_none n blocks 0, by decide⟩
  intro i
  constructor
  · intro h
    obtain ⟨j, b, hi, hb, hfit, hmin⟩ := firstFitFrom_some n blocks 0 i h
    have hij : i = j := by omega
    subst hij
    exact ⟨⟨b, hb, hfit.1, hfit.2⟩, fun j c hj hc => hmin j c hj hc⟩
  · rintro ⟨⟨b, hb, hfree, hsize⟩, hmin⟩
    cases hres : firstFit blocks n with
    | none =>
      have := (firstFitFrom_none n blocks 0).1 hres b (List.getElem?_mem hb)
      exact absurd ⟨hfree, hsize⟩ this
    | some k =>
      obtain ⟨j, c, hk, hc, hfit, hmin2⟩ := firstFitFrom_some n blocks 0 k hres
      have hkj : k = j := by omega
      subst hkj
      rcases Nat.lt_trichotomy k i with hlt | heq | hgt
      · exact absurd hfit (hmin k c hlt hc)
      · rw [heq]
      · exact absurd ⟨hfree, hsize⟩ (hmin2 i b hgt hb)

/-- C8, worst fit.  For `n >= 1`, when `worstFit(n)` returns index `i` the block
`blocks[i]` is free with `size >= n`, no free block is larger, and no lower index has
a free block of the same size; it returns -1 (`none`) exactly when no block is free
with `size >= n`. -/
theorem worstFit_selects_largest (blocks : List Block) (n : Nat) (hn : 1 ≤ n) :
    (∀ i, worstFit blocks n = some i →
      ∃ b, blocks[i]? = some b ∧ b.is_free = true ∧ n ≤ b.size ∧
        (∀ c ∈ blocks, c.is_free = true → c.size ≤ b.size) ∧
        (∀ j c, j < i → blocks[j]? = some c → c.is_free = true → c.size ≠ b.size)) ∧
    (worstFit blocks n = none ↔ ∀ b ∈ blocks, ¬ (b.is_free = true ∧ n ≤ b.size)) := by
  refine ⟨?_, worstFit_none n hn blocks⟩
  intro i h
  obtain ⟨b, hb, hfit, hmax, hfirst⟩ := worstFit_some n blocks i h
  refine ⟨b, hb, hfit.1, hfit.2, ?_, ?_⟩
  · intro c hc hfree
    rcases Nat.lt_or_ge b.size c.size with hlt | hge
    · have := hmax c hc ⟨hfree, by have := hfit.2; omega⟩
      omega
    · exact hge
  · intro j c hj hc hfree heq
    have := hfirst j c hj hc ⟨hfree, by have := hfit.2; omega⟩
    omega

/-- C8 on free sizes 50, 300, 80 and `n = 60`: index 1, the block of size 300. -/
theorem worstFit_selects_largest_witness :
    1 ≤ 60 ∧
    worstFit
      [{ address := 0, size := 50, is_free := true, id := -1 },
       { address := 50, size := 300, is_free := true, id := -1 },
       { address := 350, size := 80, is_free := true, id := -1 }] 60 = some 1 ∧
    ∃ b, [({ address := 0, size := 50, is_free := true, id := -1 } : Block),
       { address := 50, size := 300, is_free := true, id := -1 },
       { address := 350, size := 80, is_free := true, id := -1 }][1]? = some b ∧
      b.is_free = true ∧ 60 ≤ b.size ∧
      (∀ c ∈ [({ address := 0, size := 50, is_free := true, id := -1 } : Block),
       { address := 50, size := 300, is_free := true, id := -1 },
       { address := 350, size := 80, is_free := true, id := -1 }],
        c.is_free = true → c.size ≤ b.size) ∧
      (∀ j c, j < 1 →
        [({ address := 0, size := 50, is_free := true, id := -1 } : Block),
       { address := 50, size := 300, is_free := true, id := -1 },
       { address := 350, size := 80, is_free := true, id := -1 }][j]? = some c →
        c.is_free = true → c.size ≠ b.size) :=
  ⟨by decide, by decide,
    (worstFit_selects_largest _ 60 (by decide)).1 1 (by decide)⟩

/-- What `bestFit` does on every block list: a returned index names the first of the
smallest free blocks with `size >= n`, and -1 (`none`) is returned exactly when every
free block with `size >= n` has size `SIZE_MAX` (in particular when there is none). -/
theorem bestFit_selects_smallest (blocks : List Block) (n : Nat) :
    (∀ i, bestFit blocks n = some i →
      ∃ b, blocks[i]? = some b ∧ b.is_free = true ∧ n ≤ b.size ∧
        (∀ c ∈ blocks, c.is_free = true → n ≤ c.size → b.size ≤ c.size) ∧
        (∀ j c, j < i → blocks[j]? = some c → c.is_free = true → c.size ≠ b.size)) ∧
    (bestFit blocks n = none ↔
      ∀ b ∈ blocks, b.is_free = true → n ≤ b.size → SIZE_MAX ≤ b.size) := by
  constructor
  · intro i h
    obtain ⟨b, hb, hfit, -, hmin, hfirst⟩ := bestFit_some n blocks i h
    refine ⟨b, hb, hfit.1, hfit.2, fun c hc hfree hsize => hmin c hc ⟨hfree, hsize⟩, ?_⟩
    intro j c hj hc hfree heq
    have := hfirst j c hj hc ⟨hfree, by have := hfit.2; omega⟩
    omega
  · rw [bestFit_none]
    exact ⟨fun h b hb hfree hsize => h b hb ⟨hfree, hsize⟩,
      fun h b hb hfit => h b hb hfit.1 hfit.2⟩

/-- C7, best fit, at the failing input: on the block list holding one free block of
size `SIZE_MAX` and the request `n = 1`, a free block with `size >= n` exists and
`bestFit` returns -1 (`none`), because the block's size is not below the start value
`SIZE_MAX` of `best_size`; `firstFit` and `worstFit` return index 0 there. -/
theorem bestFit_misses_size_max_block :
    (∃ b ∈ [({ address := 0, size := SIZE_MAX, is_free := true, id := -1 } : Block)],
      b.is_free = true ∧ 1 ≤ b.size) ∧
    bestFit [{ address := 0, size := SIZE_MAX, is_free := true, id := -1 }] 1 = none ∧
    firstFit [{ address := 0, size := SIZE_MAX, is_free := true, id := -1 }] 1 = some 0 ∧
    worstFit [{ address := 0, size := SIZE_MAX, is_free := true, id := -1 }] 1 = some 0 := by
  refine ⟨⟨_, List.mem_singleton_self _, rfl, by decide⟩, by decide, by decide, by decide⟩

/-- C5, `malloc` success postcondition, at the failing input: after `init(SIZE_MAX)`
and `setStrategy(BEST_FIT)` the block list holds a free block of size `SIZE_MAX >= 1`,
yet `malloc(1)` returns -1 and carves nothing. -/
theorem malloc_best_fit_fails_with_free_block :
    (∃ b ∈ ((MemoryManager.new.init SIZE_MAX).run
        [Op.setStrategy AllocStrategy.BEST_FIT]).blocks, b.is_free = true ∧ 1 ≤ b.size) ∧
    (((MemoryManager.new.init SIZE_MAX).run
        [Op.setStrategy AllocStrategy.BEST_FIT]).malloc 1).1 = -1 ∧
    (((MemoryManager.new.init SIZE_MAX).run
        [Op.setStrategy AllocStrategy.BEST_FIT]).malloc 1).2.blocks =
      [{ address := 0, size := SIZE_MAX, is_free := true, id := -1 }] := by
  refine ⟨⟨{ address := 0, size := SIZE_MAX, is_free := true, id := -1 }, ?_, rfl, by decide⟩,
    by decide, by decide⟩
  decide

/-- When `malloc` fails, for `n >= 1` in a state whose next id is positive: -1 is
returned exactly when the active strategy finds no block, that is, under first fit and
worst fit when no free block has `size >= n`, and under best fit when every free block
with `size >= n` has size `SIZE_MAX`; the failure counter then goes up by one (as a
`size_t`) and the block list, `used_memory` and the next id are unchanged. -/
theorem malloc_failure (m : MemoryManager) (n : Nat) (hn : 1 ≤ n) (hid : 0 < m.next_id) :
    ((m.malloc n).1 = -1 ↔ selectBlock m.current_strategy m.blocks n = none) ∧
    (selectBlock AllocStrategy.FIRST_FIT m.blocks n = none ↔
      ∀ b ∈ m.blocks, ¬ (b.is_free = true ∧ n ≤ b.size)) ∧
    (selectBlock AllocStrategy.WORST_FIT m.blocks n = none ↔
      ∀ b ∈ m.blocks, ¬ (b.is_free = true ∧ n ≤ b.size)) ∧
    (selectBlock AllocStrategy.BEST_FIT m.blocks n = none ↔
      ∀ b ∈ m.blocks, b.is_free = true → n ≤ b.size → SIZE_MAX ≤ b.size) ∧
    ((m.malloc n).1 = -1 →
      (m.malloc n).2.failed_requests = addSize m.failed_requests 1 ∧
      (m.malloc n).2.blocks = m.blocks ∧
      (m.malloc n).2.used_memory = m.used_memory ∧
      (m.malloc n).2.next_id = m.next_id) := by
  have hn0 : n ≠ 0 := by omega
  have hkey : ((m.malloc n).1 = -1 ↔ selectBlock m.current_strategy m.blocks n = none) ∧
      ((m.malloc n).1 = -1 →
        (m.malloc n).2.failed_requests = addSize m.failed_requests 1 ∧
        (m.malloc n).2.blocks = m.blocks ∧
        (m.malloc n).2.used_memory = m.used_memory ∧
        (m.malloc n).2.next_id = m.next_id) := by
    cases hsel : selectBlock m.current_strategy m.blocks n with
    | none =>
      have hm : m.malloc n = (-1,
          { m with
            total_alloc_requests := addSize m.total_alloc_requests 1
            failed_requests := addSize m.failed_requests 1 }) := by
        unfold MemoryManager.malloc
        simp [hn0, hsel]
      rw [hm]
      exact ⟨⟨fun _ => rfl, fun _ => rfl⟩, fun _ => ⟨rfl, rfl, rfl, rfl⟩⟩
    | some idx =>
      obtain ⟨chosen, hc, -⟩ := selectBlock_some _ _ _ _ hsel
      have hm : (m.malloc n).1 = m.next_id := by
        unfold MemoryManager.malloc
        simp [hn0, hsel, hc]
      rw [hm]
      have hne : m.next_id ≠ -1 := by omega
      exact ⟨⟨fun h => absurd h hne, fun h => by cases h⟩, fun h => absurd h hne⟩
  refine ⟨hkey.1, firstFitFrom_none n m.blocks 0, worstFit_none n hn m.blocks, ?_, hkey.2⟩
  show bestFit m.blocks n = none ↔ _
  rw [bestFit_none]
  exact ⟨fun h b hb hfree hsize => h b hb ⟨hfree, hsize⟩,
    fun h b hb hfit => h b hb hfit.1 hfit.2⟩

/-- C10, out-of-memory condition, at the failing input: after `init(SIZE_MAX)` and
`setStrategy(BEST_FIT)`, `malloc(100)` returns -1 although a free block of size
`SIZE_MAX >= 100` exists, so "returns -1 iff no free block has size >= n" fails for
best fit; under first fit and worst fit the same call returns id 1. -/
theorem malloc_out_of_memory_iff_fails_best_fit :
    ¬ ((((MemoryManager.new.init SIZE_MAX).run
          [Op.setStrategy AllocStrategy.BEST_FIT]).malloc 100).1 = -1 ↔
        ∀ b ∈ ((MemoryManager.new.init SIZE_MAX).run
          [Op.setStrategy AllocStrategy.BEST_FIT]).blocks,
          ¬ (b.is_free = true ∧ 100 ≤ b.size)) ∧
    (((MemoryManager.new.init SIZE_MAX).run
          [Op.setStrategy AllocStrategy.FIRST_FIT]).malloc 100).1 = 1 ∧
    (((MemoryManager.new.init SIZE_MAX).run
          [Op.setStrategy AllocStrategy.WORST_FIT]).malloc 100).1 = 1 := by
  refine ⟨?_, by decide, by decide⟩
  intro h
  have h1 : (((MemoryManager.new.init SIZE_MAX).run
      [Op.setStrategy AllocStrategy.BEST_FIT]).malloc 100).1 = -1 := by decide
  exact h.1 h1 { address := 0, size := SIZE_MAX, is_free := true, id := -1 } (by decide)
    ⟨rfl, by decide⟩

/-- C9, `malloc(0)`, at a state whose failure counter is `SIZE_MAX`: the call returns
-1 and leaves the block list, `used_memory` and the next id alone, but the counter
wraps to 0, so it does not go up by 1. -/
theorem malloc_zero_counter_wraps :
    (({ MemoryManager.new with failed_requests := SIZE_MAX }).malloc 0).2.failed_requests = 0 ∧
    ¬ ((({ MemoryManager.new with failed_requests := SIZE_MAX }).malloc 0).2.failed_requests =
      ({ MemoryManager.new with failed_requests := SIZE_MAX } : MemoryManager).failed_requests
        + 1) := by
  constructor <;> decide

/-- C9 as amended.  In every state `malloc(0)` returns -1, takes the failure counter
`f` to `(f + 1) mod 2^64` (one more than before unless `f = SIZE_MAX`, where it wraps
to 0), and leaves the block list, `used_memory` and the next id unchanged. -/
theorem malloc_zero_rejected (m : MemoryManager) :
    (m.malloc 0).1 = -1 ∧
    (m.malloc 0).2.failed_requests = (m.failed_requests + 1) % 2 ^ 64 ∧
    (m.malloc 0).2.blocks = m.blocks ∧
    (m.malloc 0).2.used_memory = m.used_memory ∧
    (m.malloc 0).2.next_id = m.next_id := by
  simp [MemoryManager.malloc, addSize, SIZE_MOD]
/-! ## Buddy allocator: the claims -/

/-- C4, alignment invariant of the buddy allocator.  For `total = 2^k` and every state
returned by a finite sequence of `allocate` / `free` calls issued after `init(total)`:
every address in the free list of size class `s` is a multiple of `s`, and `s` is a
power of two not above `total`. -/
theorem buddy_alignment_invariant (st0 : BuddyAllocator) (k : Nat) (hk : k < 64)
    (ops : List BuddyOp) (st : BuddyAllocator)
    (hrun : (st0.init (2 ^ k)).run ops = some st) :
    ∀ s a, a ∈ getList st.free_lists s → s ∣ a ∧ (∃ j, s = 2 ^ j) ∧ s ≤ 2 ^ k := by
  intro s a ha
  have hinv := run_buddyInv k hk (st0.init (2 ^ k)) ops st (init_buddyInv st0 k hk) hrun
  obtain ⟨j, hjk, hs, hdvd⟩ := hinv.free_ok s a ha
  exact ⟨hdvd, ⟨j, hs⟩, by rw [hs]; exact (pow2_le j k).2 hjk⟩

/-- C4 at `init(1024)`, `allocate(1)`, `allocate(300)`, `free(1)`, `allocate(60)`. -/
theorem buddy_alignment_invariant_witness :
    10 < 64 ∧
    (BuddyAllocator.new.init (2 ^ 10)).run
      [BuddyOp.allocate 1, BuddyOp.allocate 300, BuddyOp.free 1, BuddyOp.allocate 60] =
      some buddyExample2 ∧
    ∀ s a, a ∈ getList buddyExample2.free_lists s →
      s ∣ a ∧ (∃ j, s = 2 ^ j) ∧ s ≤ 2 ^ 10 :=
  ⟨by decide, by decide,
    buddy_alignment_invariant BuddyAllocator.new 10 (by decide)
      [BuddyOp.allocate 1, BuddyOp.allocate 300, BuddyOp.free 1, BuddyOp.allocate 60]
      buddyExample2 (by decide)⟩
/-! ## Claims C11 to C20 -/

/-- C11, contiguous `free` of an unknown id.  In every state, if no used block carries
the id (as for -1, or for the id of a block that is already free), `free(id)` returns
the state it was called on: block list, `used_memory`, next id, strategy and all
counters are unchanged. -/
theorem contiguous_free_unknown_id (m : MemoryManager) (block_id : Int)
    (h : ∀ b ∈ m.blocks, ¬ (b.id = block_id ∧ b.is_free = false)) :
    m.free block_id = m := by
  rcases free_blocks m block_id with ⟨-, h1⟩ | ⟨i, b, -, hb, hid, hfree, -⟩
  · exact h1
  · exact absurd ⟨hid, hfree⟩ (h b (List.getElem?_mem hb))

/-- C11 at the state after `init(1024)`, `malloc(100)`, `malloc(50)`, `free(1)`, for
the id -1, which the free blocks carry. -/
theorem contiguous_free_unknown_id_witness :
    (∀ b ∈ ((MemoryManager.new.init 1024).run
        [Op.malloc 100, Op.malloc 50, Op.free 1]).blocks,
      ¬ (b.id = -1 ∧ b.is_free = false)) ∧
    ((MemoryManager.new.init 1024).run [Op.malloc 100, Op.malloc 50, Op.free 1]).free (-1) =
      (MemoryManager.new.init 1024).run [Op.malloc 100, Op.malloc 50, Op.free 1] :=
  ⟨by decide, contiguous_free_unknown_id _ (-1) (by decide)⟩

/-- C12, buddy `free` of an unknown id.  In every state, if the id is not a key of the
live-allocation map, `free(id)` returns, and returns the state it was called on: the
free lists, the live map, `used_memory`, the next id and all counters are unchanged. -/
theorem buddy_free_unknown_id (st : BuddyAllocator) (block_id : Int)
    (h : findBlock st.allocated_blocks block_id = none) :
    st.free block_id = some st := by
  unfold BuddyAllocator.free
  rw [h]

/-- C12 at the state after `init(1024)`, `allocate(100)`, `allocate(200)`, `free(1)`,
for the id 1 (freed before), with the map holding the key 2 only. -/
theorem buddy_free_unknown_id_witness :
    findBlock buddyExample.allocated_blocks 1 = none ∧
    buddyExample.free 1 = some buddyExample :=
  ⟨by decide, buddy_free_unknown_id buddyExample 1 (by decide)⟩

/-- C18 at `init(1024)`, `malloc(100)`: the block of size 1024 is split and the
internal-fragmentation counter is 924, not 0. -/
theorem internal_frag_not_zero :
    ((MemoryManager.new.init 1024).run [Op.malloc 100]).internal_frag = 924 ∧
    ¬ ((MemoryManager.new.init 1024).run [Op.malloc 100]).internal_frag = 0 := by
  constructor <;> decide

/-- C18 as amended.  The internal-fragmentation counter is 0 after `init`; `free` and
`setStrategy` never change it; `malloc(n)` leaves it unchanged when `n = 0`, when the
strategy finds no block and when the block it finds has size `n` or less, and adds
`size - n` to it (as a `size_t`) when the block it finds is larger than `n`. -/
theorem internal_frag_accounting (m : MemoryManager) :
    (∀ total, (m.init total).internal_frag = 0) ∧
    (∀ block_id, (m.free block_id).internal_frag = m.internal_frag) ∧
    (∀ strategy, (m.setStrategy strategy).internal_frag = m.internal_frag) ∧
    (m.malloc 0).2.internal_frag = m.internal_frag ∧
    (∀ n, selectBlock m.current_strategy m.blocks n = none →
      (m.malloc n).2.internal_frag = m.internal_frag) ∧
    (∀ n block_index chosen, n ≠ 0 →
      selectBlock m.current_strategy m.blocks n = some block_index →
      m.blocks[block_index]? = some chosen →
      (m.malloc n).2.internal_frag =
        if chosen.size > n then (m.internal_frag + (chosen.size - n)) % 2 ^ 64
        else m.internal_frag) := by
  refine ⟨fun _ => rfl, ?_, fun _ => rfl, by simp [MemoryManager.malloc], ?_, ?_⟩
  · intro block_id
    rcases free_blocks m block_id with ⟨-, h1⟩ | ⟨i, b, -, -, -, -, h1⟩
    · rw [h1]
    · rw [h1]
  · intro n hsel
    unfold MemoryManager.malloc
    by_cases hn : n = 0
    · simp [hn]
    · simp [hn, hsel]
  · intro n block_index chosen hn hsel hc
    unfold MemoryManager.malloc
    simp only [hn, if_false, hsel, hc]
    rfl

theorem largestFreeFrom_eq (bs : List Block) (largest : Nat) :
    largestFreeFrom bs largest = max largest (freeMax bs) := by
  induction bs generalizing largest with
  | nil => simp [largestFreeFrom, freeMax]
  | cons b bs ih =>
    unfold largestFreeFrom
    have hmax : freeMax (b :: bs) = if b.is_free then max b.size (freeMax bs) else freeMax bs := by
      unfold freeMax
      by_cases hf : b.is_free = true <;> simp [hf]
    by_cases hf : b.is_free = true
    · by_cases hgt : b.size > largest
      · rw [if_pos (by simp [hf, hgt]), ih, hmax, if_pos hf]
        omega
      · rw [if_neg (by simp [hf, hgt]), ih, hmax, if_pos hf]
        omega
    · rw [if_neg (by simp [hf]), ih, hmax, if_neg hf]

theorem totalFreeFrom_eq (bs : List Block) (total_free : Nat) (h : total_free < SIZE_MOD) :
    totalFreeFrom bs total_free = (total_free + freeSum bs) % SIZE_MOD := by
  induction bs generalizing total_free with
  | nil => simp [totalFreeFrom, freeSum, Nat.mod_eq_of_lt h]
  | cons b bs ih =>
    unfold totalFreeFrom
    have hsum : freeSum (b :: bs) = if b.is_free then b.size + freeSum bs else freeSum bs := by
      unfold freeSum
      by_cases hf : b.is_free = true <;> simp [hf]
    have hpos : 0 < SIZE_MOD := by decide
    by_cases hf : b.is_free = true
    · have hlt : addSize total_free b.size < SIZE_MOD := Nat.mod_lt _ hpos
      rw [if_pos hf, hsum, if_pos hf, ih _ hlt]
      unfold addSize
      rw [Nat.mod_add_mod, Nat.add_assoc]
    · rw [if_neg hf, hsum, if_neg hf, ih _ h]

theorem freeMax_le_freeSum (bs : List Block) : freeMax bs ≤ freeSum bs := by
  induction bs with
  | nil => simp [freeMax, freeSum]
  | cons b bs ih =>
    unfold freeMax freeSum at *
    by_cases hf : b.is_free = true
    · simp only [hf, List.filter_cons_of_pos, List.map_cons, List.foldr_cons, List.sum_cons]
      omega
    · simp only [hf, Bool.false_eq_true, not_false_eq_true, List.filter_cons_of_neg]
      exact ih

/-- What `calculateExternalFragmentation` returns as long as nothing wraps: when the
free sizes sum to `F < 2^64` and `(F - L) * 100 < 2^64` for the largest free size `L`,
the result is 0 for `F = 0` and `((F - L) * 100) / F` otherwise. -/
theorem externalFragmentation_no_wrap (m : MemoryManager)
    (hF : freeSum m.blocks < SIZE_MOD)
    (hmul : (freeSum m.blocks - freeMax m.blocks) * 100 < SIZE_MOD) :
    m.calculateExternalFragmentation =
      if freeSum m.blocks = 0 then 0
      else ((freeSum m.blocks - freeMax m.blocks) * 100) / freeSum m.blocks := by
  have hpos : 0 < SIZE_MOD := by decide
  have h1 : totalFreeFrom m.blocks 0 = freeSum m.blocks := by
    rw [totalFreeFrom_eq _ 0 hpos, Nat.zero_add, Nat.mod_eq_of_lt hF]
  have h2 : m.getLargestFreeBlock = freeMax m.blocks := by
    unfold MemoryManager.getLargestFreeBlock
    rw [largestFreeFrom_eq]
    omega
  have hle := freeMax_le_freeSum m.blocks
  unfold MemoryManager.calculateExternalFragmentation
  rw [h1, h2]
  by_cases h0 : freeSum m.blocks = 0
  · rw [if_pos h0, if_pos h0]
  · rw [if_neg h0, if_neg h0]
    have h3 : subSize (freeSum m.blocks) (freeMax m.blocks) =
        freeSum m.blocks - freeMax m.blocks := by
      unfold subSize
      rw [Nat.mod_eq_of_lt (by omega : freeMax m.blocks < SIZE_MOD)]
      have e : freeSum m.blocks + (SIZE_MOD - freeMax m.blocks) =
          (freeSum m.blocks - freeMax m.blocks) + SIZE_MOD := by omega
      rw [e, Nat.add_mod_right]
      exact Nat.mod_eq_of_lt (by omega)
    rw [h3]
    unfold mulSize
    rw [Nat.mod_eq_of_lt hmul]

/-- C19, external fragmentation, at the failing input: on the block list of two free
blocks `[0, 2^61)` and `[2^61, 2^63)` (the list held after `init(2^63)`,
`malloc(2^61)` on a new manager) the free sizes sum to `F = 2^63`, the largest is
`L = 3 * 2^61`, and `((F - L) * 100) / F = 25`; the product `2^61 * 100` wraps to
`2^63` and `calculateExternalFragmentation` returns 1. -/
theorem externalFragmentation_wraps :
    freeSum
      [{ address := 0, size := 2 ^ 61, is_free := true, id := -1 },
       { address := 2 ^ 61, size := 3 * 2 ^ 61, is_free := true, id := -1 }] = 2 ^ 63 ∧
    freeMax
      [{ address := 0, size := 2 ^ 61, is_free := true, id := -1 },
       { address := 2 ^ 61, size := 3 * 2 ^ 61, is_free := true, id := -1 }] = 3 * 2 ^ 61 ∧
    ((2 ^ 63 - 3 * 2 ^ 61) * 100) / 2 ^ 63 = 25 ∧
    ({ MemoryManager.new with
        blocks :=
          [{ address := 0, size := 2 ^ 61, is_free := true, id := -1 },
           { address := 2 ^ 61, size := 3 * 2 ^ 61, is_free := true, id := -1 }]
        total_memory := 2 ^ 63 } : MemoryManager).calculateExternalFragmentation = 1 := by
  refine ⟨by decide, by decide, by decide, by decide⟩

/-- C20 at the state left by `init(1024)`: a second `init(1024)` leaves every field
unchanged although `1024 = 2^10`, so "unchanged exactly when `total` is not a power of
two" fails there. -/
theorem buddy_init_twice_unchanged :
    (BuddyAllocator.new.init 1024).init 1024 = BuddyAllocator.new.init 1024 ∧
    ¬ ((BuddyAllocator.new.init 1024).init 1024 = BuddyAllocator.new.init 1024 ↔
      ¬ ∃ k, 1024 = 2 ^ k) := by
  have h : (BuddyAllocator.new.init 1024).init 1024 = BuddyAllocator.new.init 1024 := by decide
  refine ⟨h, fun hiff => hiff.1 h ⟨10, by norm_num⟩⟩

/-- C20 as amended.  For every state and every `total`: when `total` is not a power of
two (0 included) `init(total)` returns the state unchanged; when `total = 2^k` it
returns the state with one free address 0 under size class `total`, no live
allocation, `total_memory = total`, zeroed counters and next id 1, whatever the state
before; and `init(total)` leaves every state unchanged exactly when `total` is not a
power of two. -/
theorem buddy_init_spec (st : BuddyAllocator) (total : Nat) :
    ((¬ ∃ k, total = 2 ^ k) → st.init total = st) ∧
    ((∃ k, total = 2 ^ k) → st.init total =
      { free_lists := [(total, [0])], allocated_blocks := [], total_memory := total,
        used_memory := 0, next_id := 1, total_alloc_requests := 0, failed_requests := 0,
        internal_frag := 0 }) ∧
    ((∀ st2 : BuddyAllocator, st2.init total = st2) ↔ ¬ ∃ k, total = 2 ^ k) ∧
    BuddyAllocator.new.init 0 = BuddyAllocator.new := by
  have hno : ∀ s : BuddyAllocator, (¬ ∃ k, total = 2 ^ k) → s.init total = s := by
    intro s hnp
    have hp : isPowerOfTwo total = false := by
      cases hb : isPowerOfTwo total with
      | false => rfl
      | true => exact absurd ((isPowerOfTwo_iff total).1 hb) hnp
    unfold BuddyAllocator.init
    simp [hp]
  have hyes : ∀ s : BuddyAllocator, (∃ k, total = 2 ^ k) → s.init total =
      { free_lists := [(total, [0])], allocated_blocks := [], total_memory := total,
        used_memory := 0, next_id := 1, total_alloc_requests := 0, failed_requests := 0,
        internal_frag := 0 } := by
    intro s hp
    have hb : isPowerOfTwo total = true := (isPowerOfTwo_iff total).2 hp
    unfold BuddyAllocator.init
    simp [hb, pushBack, setList, getList]
  refine ⟨hno st, hyes st, ⟨?_, fun hnp s => hno s hnp⟩, by decide⟩
  intro hall hp
  have h1 := hall { BuddyAllocator.new with next_id := 2 }
  rw [hyes _ hp] at h1
  have h2 := congrArg BuddyAllocator.next_id h1
  simp at h2
/-! ## Claims C13 to C17 -/

/-- C14, contiguous round trip, at the failing input `init(1024)`, `malloc(100)`,
`free(1)` on a new manager.  `malloc(100)` returns id 1, but the insert of the
remainder moved the vector and the block `[0, 100)` was left free with id -1, so
`free(1)` finds no used block with id 1 and changes nothing: the block list stays
split in `[0, 100)` and `[100, 1024)` and is not the single block it was before the
`malloc`.  The free blocks left side by side also show where a later block is marked
used: after `init(1024)`, `malloc(100)`, `malloc(200)`, `free(1)`, the call
`malloc(60)` returns id 3 and `free(3)` merges the whole list into one block of 1024
bytes, which is not the list of three blocks before `malloc(60)`. -/
theorem malloc_free_does_not_restore :
    ((MemoryManager.new.init 1024).malloc 100).1 = 1 ∧
    ((MemoryManager.new.init 1024).malloc 100).2.free 1 =
      ((MemoryManager.new.init 1024).malloc 100).2 ∧
    (((MemoryManager.new.init 1024).malloc 100).2.free 1).blocks =
      [{ address := 0, size := 100, is_free := true, id := -1 },
       { address := 100, size := 924, is_free := true, id := -1 }] ∧
    (MemoryManager.new.init 1024).blocks =
      [{ address := 0, size := 1024, is_free := true, id := -1 }] ∧
    ((MemoryManager.new.init 1024).run [Op.malloc 100, Op.malloc 200, Op.free 1]).blocks =
      [{ address := 0, size := 100, is_free := true, id := -1 },
       { address := 100, size := 200, is_free := true, id := -1 },
       { address := 300, size := 724, is_free := true, id := -1 }] ∧
    (((MemoryManager.new.init 1024).run
      [Op.malloc 100, Op.malloc 200, Op.free 1]).malloc 60).1 = 3 ∧
    ((((MemoryManager.new.init 1024).run
        [Op.malloc 100, Op.malloc 200, Op.free 1]).malloc 60).2.free 3).blocks =
      [{ address := 0, size := 1024, is_free := true, id := -1 }] := by
  refine ⟨by decide, by decide, by decide, by decide, by decide, by decide, by decide⟩

theorem nextPowerOfTwo_lt (n r : Nat) (hn : 1 ≤ n) (hlt : n < SIZE_MOD)
    (h : nextPowerOfTwo n = some r) : n ≤ r ∧ r < SIZE_MOD := by
  by_cases h63 : n ≤ 2 ^ 63
  · obtain ⟨j, hj, hr, hle, -⟩ := nextPowerOfTwo_spec n hn h63
    rw [hr] at h
    rw [← Option.some.inj h]
    exact ⟨hle, pow2_lt_size j hj⟩
  · rw [nextPowerOfTwo_none n (by omega) hlt] at h
    cases h

/-- C21 at `init(1024)` followed by four `allocate(2^62 + 1)`: every call fails and
adds `2^63 - (2^62 + 1) = 2^62 - 1` to the counter, which stands at `2^64 - 4`; a fifth
`allocate(2^62 + 1)` leaves the counter at `2^62 - 5`, not `2^62 - 1` higher. -/
theorem buddy_frag_counter_wraps :
    (BuddyAllocator.new.init 1024).run
      [BuddyOp.allocate (2 ^ 62 + 1), BuddyOp.allocate (2 ^ 62 + 1),
        BuddyOp.allocate (2 ^ 62 + 1), BuddyOp.allocate (2 ^ 62 + 1)] = some buddyFragFull ∧
    nextPowerOfTwo (2 ^ 62 + 1) = some (2 ^ 63) ∧
    buddyFragFull.allocate (2 ^ 62 + 1) =
      some (-1, { buddyFragFull with
        total_alloc_requests := 5, failed_requests := 5, internal_frag := 2 ^ 62 - 5 }) ∧
    ¬ (2 ^ 62 - 5 = buddyFragFull.internal_frag + (2 ^ 63 - (2 ^ 62 + 1))) := by
  refine ⟨by decide, by decide, by decide, by decide⟩

/-- C21 as amended.  In every state, `allocate(0)` returns -1 and leaves the
internal-fragmentation counter unchanged; for a request `n` from 1 up, whenever
`allocate(n)` returns, with an id or with -1, the counter `c` has become
`(c + (nextPowerOfTwo(n) - n)) mod 2^64`, the sum as a `size_t`; and in every state
reached from `init(2^k)` with `k < 63` the call returns for every `n` up to `2^63`. -/
theorem buddy_frag_accounting (st : BuddyAllocator) (n : Nat) (hn : n < SIZE_MOD) :
    (∃ st1, st.allocate 0 = some (-1, st1) ∧ st1.internal_frag = st.internal_frag) ∧
    (∀ id st1, 1 ≤ n → st.allocate n = some (id, st1) →
      ∃ r, nextPowerOfTwo n = some r ∧ n ≤ r ∧
        st1.internal_frag = (st.internal_frag + (r - n)) % 2 ^ 64) ∧
    (∀ (st0 : BuddyAllocator) (k : Nat) (ops : List BuddyOp), k < 63 → (st0.init (2 ^ k)).run ops = some st → n ≤ 2 ^ 63 →
      ∃ id st1, st.allocate n = some (id, st1)) := by
  refine ⟨⟨_, allocate_zero st, rfl⟩, ?_, ?_⟩
  · intro id st1 h1 h
    obtain ⟨r, hr, hfrag⟩ := allocate_frag st n id st1 (by omega) h
    obtain ⟨hle, hlt⟩ := nextPowerOfTwo_lt n r h1 hn hr
    refine ⟨r, hr, hle, ?_⟩
    rw [hfrag, subSize_eq r n hle hlt]
    rfl
  · intro st0 k ops hk hrun hn63
    have hinv := run_buddyInv k (by omega) (st0.init (2 ^ k)) ops st
      (init_buddyInv st0 k (by omega)) hrun
    exact allocate_returns k (by omega) st n hinv hn63 (Or.inl hk)

/-- C21 as amended, at `init(1024)` and `n = 100`: the call returns id 1 and the counter
goes from 0 to 28. -/
theorem buddy_frag_accounting_witness :
    100 < SIZE_MOD ∧
    ((BuddyAllocator.new.init 1024).allocate 100).map (fun r => (r.1, r.2.internal_frag)) =
      some (1, 28) ∧
    ((∃ st1, (BuddyAllocator.new.init 1024).allocate 0 = some (-1, st1) ∧
        st1.internal_frag = (BuddyAllocator.new.init 1024).internal_frag) ∧
      (∀ id st1, 1 ≤ 100 → (BuddyAllocator.new.init 1024).allocate 100 = some (id, st1) →
        ∃ r, nextPowerOfTwo 100 = some r ∧ 100 ≤ r ∧
          st1.internal_frag =
            ((BuddyAllocator.new.init 1024).internal_frag + (r - 100)) % 2 ^ 64) ∧
      (∀ (st0 : BuddyAllocator) (k : Nat) (ops : List BuddyOp), k < 63 →
        (st0.init (2 ^ k)).run ops = some (BuddyAllocator.new.init 1024) → 100 ≤ 2 ^ 63 →
        ∃ id st1, (BuddyAllocator.new.init 1024).allocate 100 = some (id, st1))) :=
  ⟨by decide, by decide, buddy_frag_accounting (BuddyAllocator.new.init 1024) 100 (by decide)⟩

/-- C23 at `init(1024)`, `malloc(0)`: the call returns -1 and the allocation-request
count and the failure count both go from 0 to 1, so the prior state is not
preserved. -/
theorem malloc_failure_moves_counters :
    ((MemoryManager.new.init 1024).malloc 0).1 = -1 ∧
    ((MemoryManager.new.init 1024).malloc 0).2.total_alloc_requests = 1 ∧
    ((MemoryManager.new.init 1024).malloc 0).2.failed_requests = 1 ∧
    (MemoryManager.new.init 1024).total_alloc_requests = 0 ∧
    (MemoryManager.new.init 1024).failed_requests = 0 ∧
    ¬ ((MemoryManager.new.init 1024).malloc 0).2 = MemoryManager.new.init 1024 := by
  refine ⟨by decide, by decide, by decide, by decide, by decide, by decide⟩

/-- C23 as amended.  In every state whose next id is not -1 (the next id is at least 1
in every state reached from `init`) and for every `n`: if `malloc(n)` returns -1, the
state after the call is the prior state with the allocation-request count and the
failure count each incremented as a `size_t`; the block list, `used_memory`, the next
id, the internal-fragmentation counter, `total_memory` and the strategy are
unchanged. -/
theorem malloc_failure_preserves (m : MemoryManager) (n : Nat) (hid : m.next_id ≠ -1)
    (h : (m.malloc n).1 = -1) :
    (m.malloc n).2 =
      { m with
        total_alloc_requests := (m.total_alloc_requests + 1) % 2 ^ 64
        failed_requests := (m.failed_requests + 1) % 2 ^ 64 } := by
  rcases malloc_cases m n with h1 | ⟨idx, chosen, -, -, -, -, h1⟩
  · rw [h1]
    rfl
  · rw [h1] at h
    exact absurd h hid

/-- C23 as amended, at `init(1024)`, `malloc(100)` and the request 2000, which finds no
block. -/
theorem malloc_failure_preserves_witness :
    ((MemoryManager.new.init 1024).run [Op.malloc 100]).next_id ≠ -1 ∧
    (((MemoryManager.new.init 1024).run [Op.malloc 100]).malloc 2000).1 = -1 ∧
    (((MemoryManager.new.init 1024).run [Op.malloc 100]).malloc 2000).2 =
      { (MemoryManager.new.init 1024).run [Op.malloc 100] with
        total_alloc_requests :=
          (((MemoryManager.new.init 1024).run [Op.malloc 100]).total_alloc_requests + 1) %
            2 ^ 64
        failed_requests :=
          (((MemoryManager.new.init 1024).run [Op.malloc 100]).failed_requests + 1) %
            2 ^ 64 } :=
  ⟨by decide, by decide,
    malloc_failure_preserves ((MemoryManager.new.init 1024).run [Op.malloc 100]) 2000
      (by decide) (by decide)⟩

/-- C28 at `n = 2^63 + 1`, a representable request: no `size_t` value is a power of two
at or above it, and the doubling loop never leaves, whatever the number of rounds
(`power` reaches `2^63`, wraps to 0 and stays below `n`). -/
theorem nextPowerOfTwo_no_result :
    2 ^ 63 + 1 < 2 ^ 64 ∧
    (¬ ∃ p, p < 2 ^ 64 ∧ (∃ j, p = 2 ^ j) ∧ 2 ^ 63 + 1 ≤ p) ∧
    (∀ fuel, nextPowerOfTwoLoop fuel 1 (2 ^ 63 + 1) = none) ∧
    nextPowerOfTwo (2 ^ 63 + 1) = none := by
  refine ⟨by norm_num, ?_, ?_, nextPowerOfTwo_none _ (by norm_num) (by norm_num)⟩
  · rintro ⟨p, hp, ⟨j, rfl⟩, hle⟩
    have e1 := (pow2_lt j 64).1 hp
    have e2 := (pow2_lt 63 j).1 (by omega)
    omega
  · intro fuel
    have := nextPowerOfTwoLoop_diverges fuel 0 (2 ^ 63 + 1) (by norm_num) (by norm_num)
    rwa [Nat.pow_zero] at this

/-- C28 as amended.  `nextPowerOfTwo(0) = 1`, and for every `n` from 1 to `2^63`
`nextPowerOfTwo(n)` returns a value `p` that is a power of two, is at least `n`, and
has no power of two `q` with `n <= q < p` below it. -/
theorem nextPowerOfTwo_correct (n : Nat) (h1 : 1 ≤ n) (h2 : n ≤ 2 ^ 63) :
    nextPowerOfTwo 0 = some 1 ∧
    ∃ p, nextPowerOfTwo n = some p ∧ (∃ j, p = 2 ^ j) ∧ n ≤ p ∧
      ¬ ∃ q, (∃ i, q = 2 ^ i) ∧ n ≤ q ∧ q < p := by
  obtain ⟨j, -, hr, hle, hmin⟩ := nextPowerOfTwo_spec n h1 h2
  refine ⟨rfl, 2 ^ j, hr, ⟨j, rfl⟩, hle, ?_⟩
  rintro ⟨q, ⟨i, rfl⟩, hq1, hq2⟩
  have e1 := hmin i hq1
  have e2 := (pow2_lt i j).1 hq2
  omega

/-- C28 as amended, at `n = 100`, which rounds to 128. -/
theorem nextPowerOfTwo_correct_witness :
    1 ≤ 100 ∧ 100 ≤ 2 ^ 63 ∧ nextPowerOfTwo 100 = some 128 ∧
    nextPowerOfTwo 0 = some 1 ∧
    ∃ p, nextPowerOfTwo 100 = some p ∧ (∃ j, p = 2 ^ j) ∧ 100 ≤ p ∧
      ¬ ∃ q, (∃ i, q = 2 ^ i) ∧ 100 ≤ q ∧ q < p :=
  ⟨by decide, by decide, by decide, nextPowerOfTwo_correct 100 (by decide) (by decide)⟩

/-- C29 at two failing inputs.  After `init(1024)`, `allocate(2^64 - 1)` does not
return: the doubling loop of `nextPowerOfTwo` never leaves, whatever the number of
rounds.  After `init(2^63)`, `allocate(2^63)`, a second `allocate(2^63)` does not
return: no size class has a free address and the search loop never leaves, whatever
the number of rounds, because the size it tests wraps from `2^63` to 0. -/
theorem allocate_does_not_return :
    (∀ fuel, nextPowerOfTwoLoop fuel 1 (2 ^ 64 - 1) = none) ∧
    (BuddyAllocator.new.init 1024).allocate (2 ^ 64 - 1) = none ∧
    (BuddyAllocator.new.init (2 ^ 63)).run [BuddyOp.allocate (2 ^ 63)] = some buddyTopFull ∧
    nextPowerOfTwo (2 ^ 63) = some (2 ^ 63) ∧
    (∀ fuel, findBlockSize fuel buddyTopFull.free_lists buddyTopFull.total_memory (2 ^ 63) =
      none) ∧
    buddyTopFull.allocate (2 ^ 63) = none := by
  refine ⟨?_, by decide, by decide, by decide, ?_, by decide⟩
  · intro fuel
    have := nextPowerOfTwoLoop_diverges fuel 0 (2 ^ 64 - 1) (by norm_num) (by norm_num)
    rwa [Nat.pow_zero] at this
  · intro fuel
    apply findBlockSize_diverges fuel buddyTopFull.free_lists 63 (by norm_num)
    · intro s a ha
      have hnil : getList buddyTopFull.free_lists s = [] := by
        show getList [(2 ^ 63, [])] s = []
        unfold getList
        split <;> rfl
      rw [hnil] at ha
      cases ha
    · intro t _ _
      show getList [(2 ^ 63, [])] (2 ^ t) = []
      unfold getList
      split <;> rfl

/-- C30, used-bytes accounting of the contiguous allocator, at the failing input
`init(1024)`, `malloc(100)` on a new manager.  The call returns id 1, but the insert
of the remainder moved the vector: no block of the list is marked used, so the used
sizes sum to 0, and `used_memory += chosen.size` read the released storage, so
`used_memory` is the value `g` found there (as a `size_t`), whatever it is.
`used_memory` is the sum of the used sizes only if that value is 0, and it is not the
100 bytes handed out unless that value is 100. -/
theorem used_memory_reads_released_storage (g : Nat) :
    ((({ MemoryManager.new with released := [g] } : MemoryManager).init 1024).malloc 100).1
      = 1 ∧
    ((({ MemoryManager.new with released := [g] } : MemoryManager).init 1024).malloc
        100).2.blocks =
      [{ address := 0, size := 100, is_free := true, id := -1 },
       { address := 100, size := 924, is_free := true, id := -1 }] ∧
    usedSum ((({ MemoryManager.new with released := [g] } : MemoryManager).init 1024).malloc
        100).2.blocks = 0 ∧
    ((({ MemoryManager.new with released := [g] } : MemoryManager).init 1024).malloc
        100).2.used_memory = g % SIZE_MOD ∧
    (((({ MemoryManager.new with released := [g] } : MemoryManager).init 1024).malloc
        100).2.used_memory =
      usedSum ((({ MemoryManager.new with released := [g] } : MemoryManager).init 1024).malloc
        100).2.blocks ↔ g % SIZE_MOD = 0) := by
  have hused : ((({ MemoryManager.new with released := [g] } : MemoryManager).init
      1024).malloc 100).2.used_memory = g % SIZE_MOD := by
    show (0 + g) % SIZE_MOD = g % SIZE_MOD
    rw [Nat.zero_add]
  have hsum : usedSum ((({ MemoryManager.new with released := [g] } : MemoryManager).init
      1024).malloc 100).2.blocks = 0 := rfl
  refine ⟨rfl, rfl, hsum, hused, ?_⟩
  rw [hused, hsum]

/-- C26, merge on `free` in the buddy allocator.  In every state reached from
`init(2^K)`, for a live id with record `b` (address `a`, size `s`): `free(id)` returns;
with `k` the number such that for each `t < k` the size `s * 2^t` is below the extent
and the buddy of `a` rounded down to a multiple of `s * 2^t` is in the free list of
class `s * 2^t`, while this fails for `t = k`, the call erases that buddy from the
list of class `s * 2^t` for each `t < k` and appends `a` rounded down to a multiple of
`s * 2^k` to the list of class `s * 2^k`; every other list is unchanged; the record is
removed and every other live record is unchanged; `used_memory` drops by `s`. -/
theorem buddy_free_merges (st0 : BuddyAllocator) (K : Nat) (hK : K < 64)
    (ops : List BuddyOp) (st : BuddyAllocator)
    (hrun : (st0.init (2 ^ K)).run ops = some st) (block_id : Int) (b : BuddyBlock)
    (hfind : findBlock st.allocated_blocks block_id = some b) :
    ∃ k st2, st.free block_id = some st2 ∧
      (∀ t, t < k → b.size * 2 ^ t < st.total_memory ∧
        getBuddyAddress (roundDown b.address (b.size * 2 ^ t)) (b.size * 2 ^ t) ∈
          getList st.free_lists (b.size * 2 ^ t)) ∧
      ¬ (b.size * 2 ^ k < st.total_memory ∧
        getBuddyAddress (roundDown b.address (b.size * 2 ^ k)) (b.size * 2 ^ k) ∈
          getList st.free_lists (b.size * 2 ^ k)) ∧
      findBlock st2.allocated_blocks block_id = none ∧
      (∀ id2, id2 ≠ block_id →
        findBlock st2.allocated_blocks id2 = findBlock st.allocated_blocks id2) ∧
      st2.used_memory + b.size = st.used_memory ∧
      (∀ t, t < k → getList st2.free_lists (b.size * 2 ^ t) =
        (getList st.free_lists (b.size * 2 ^ t)).erase
          (getBuddyAddress (roundDown b.address (b.size * 2 ^ t)) (b.size * 2 ^ t))) ∧
      getList st2.free_lists (b.size * 2 ^ k) =
        getList st.free_lists (b.size * 2 ^ k) ++ [roundDown b.address (b.size * 2 ^ k)] ∧
      (∀ s, (∀ t, t ≤ k → s ≠ b.size * 2 ^ t) →
        getList st2.free_lists s = getList st.free_lists s) := by
  have hinv := run_buddyInv K hK (st0.init (2 ^ K)) ops st (init_buddyInv st0 K hK) hrun
  have hu := run_buddyUsed K hK (st0.init (2 ^ K)) ops st (init_buddyInv st0 K hK)
    (init_buddyUsed st0 K) hrun
  obtain ⟨-, -, j0, hj0, hsz, hdv⟩ := hinv.live_ok block_id b hfind
  rw [hsz] at hdv
  obtain ⟨i, fl2, hji, hiK, hres, hin, hstop, her, hoth⟩ :=
    mergeLoop_exact K hK 65 st.free_lists b.address j0 hj0 hdv (by omega)
  have hfree := free_found st block_id b fl2 (roundDown b.address (2 ^ i)) (2 ^ i) hfind
    (by rw [hinv.total, hsz]; exact hres)
  have hpow : ∀ t, b.size * 2 ^ t = 2 ^ (j0 + t) := fun t => by rw [hsz, Nat.pow_add]
  have hki : j0 + (i - j0) = i := by omega
  have hne : ∀ t, t < i → (2 : Nat) ^ t ≠ 2 ^ i := fun t ht heq => by
    have := Nat.pow_right_injective (le_refl 2) heq
    omega
  refine ⟨i - j0, _, hfree, ?_, ?_, ?_, ?_, ?_, ?_, ?_, ?_⟩
  · intro t ht
    rw [hpow, hinv.total]
    exact ⟨(pow2_lt _ K).2 (by omega), hin (j0 + t) (by omega) (by omega)⟩
  · rw [hpow, hki, hinv.total]
    rintro ⟨h1, h2⟩
    exact hstop ((pow2_lt i K).1 h1) h2
  · show findBlock (eraseBlock st.allocated_blocks block_id) block_id = none
    rw [findBlock_eraseBlock, if_pos rfl]
  · intro id2 hid2
    show findBlock (eraseBlock st.allocated_blocks block_id) id2 = _
    rw [findBlock_eraseBlock, if_neg hid2]
  · exact (free_buddyUsed K hK st block_id _ hinv hu hfree).2 b hfind
  · intro t ht
    rw [hpow]
    show getList (pushBack fl2 (2 ^ i) (roundDown b.address (2 ^ i))) (2 ^ (j0 + t)) = _
    rw [getList_pushBack, if_neg (hne _ (by omega)), her (j0 + t) (by omega) (by omega)]
  · rw [hpow, hki]
    show getList (pushBack fl2 (2 ^ i) (roundDown b.address (2 ^ i))) (2 ^ i) = _
    rw [getList_pushBack, if_pos rfl, hoth _ (fun t _ ht heq => hne t ht heq.symm)]
  · intro s hs
    have hsi : s ≠ 2 ^ i := by
      have := hs (i - j0) (le_refl _)
      rwa [hpow, hki] at this
    show getList (pushBack fl2 (2 ^ i) (roundDown b.address (2 ^ i))) s = _
    rw [getList_pushBack, if_neg hsi]
    apply hoth
    intro t ht1 ht2
    have := hs (t - j0) (by omega)
    rw [hpow] at this
    have e : j0 + (t - j0) = t := by omega
    rwa [e] at this

/-- C26 at `init(1024)`, `allocate(100)`, `allocate(200)`, `free(1)` and `free(2)`: the
block at 256 of size 256 finds its buddy 0 in class 256 and then the buddy 512 in
class 512, and address 0 goes to class 1024. -/
theorem buddy_free_merges_witness :
    10 < 64 ∧
    (BuddyAllocator.new.init (2 ^ 10)).run
      [BuddyOp.allocate 100, BuddyOp.allocate 200, BuddyOp.free 1] = some buddyExample ∧
    findBlock buddyExample.allocated_blocks 2 =
      some { address := 256, size := 256, id := 2 } ∧
    (buddyExample.free 2).map (fun s => s.free_lists) =
      some [(128, []), (256, []), (512, []), (1024, [0])] ∧
    ∃ k st2, buddyExample.free 2 = some st2 ∧
      (∀ t, t < k → 256 * 2 ^ t < buddyExample.total_memory ∧
        getBuddyAddress (roundDown 256 (256 * 2 ^ t)) (256 * 2 ^ t) ∈
          getList buddyExample.free_lists (256 * 2 ^ t)) ∧
      ¬ (256 * 2 ^ k < buddyExample.total_memory ∧
        getBuddyAddress (roundDown 256 (256 * 2 ^ k)) (256 * 2 ^ k) ∈
          getList buddyExample.free_lists (256 * 2 ^ k)) ∧
      findBlock st2.allocated_blocks 2 = none ∧
      (∀ id2, id2 ≠ 2 →
        findBlock st2.allocated_blocks id2 = findBlock buddyExample.allocated_blocks id2) ∧
      st2.used_memory + 256 = buddyExample.used_memory ∧
      (∀ t, t < k → getList st2.free_lists (256 * 2 ^ t) =
        (getList buddyExample.free_lists (256 * 2 ^ t)).erase
          (getBuddyAddress (roundDown 256 (256 * 2 ^ t)) (256 * 2 ^ t))) ∧
      getList st2.free_lists (256 * 2 ^ k) =
        getList buddyExample.free_lists (256 * 2 ^ k) ++ [roundDown 256 (256 * 2 ^ k)] ∧
      (∀ s, (∀ t, t ≤ k → s ≠ 256 * 2 ^ t) →
        getList st2.free_lists s = getList buddyExample.free_lists s) :=
  ⟨by decide, by decide, by decide, by decide,
    buddy_free_merges BuddyAllocator.new 10 (by decide)
      [BuddyOp.allocate 100, BuddyOp.allocate 200, BuddyOp.free 1] buddyExample (by decide)
      2 { address := 256, size := 256, id := 2 } (by decide)⟩

/-- C27, coalescing on `free` in the contiguous allocator, at the failing input of the
claim's example on a new manager: `init(1024)`, `malloc(100)`, `malloc(200)`,
`free(1)`, `free(2)`.  The two `malloc` calls return the ids 1 and 2, but both splits
moved the vector and left their blocks free with id -1; `free(1)` and `free(2)` find
no used block and change nothing, so the list ends as three free blocks `[0, 100)`,
`[100, 300)`, `[300, 1024)` and not as one free block spanning the full extent. -/
theorem free_example_leaves_three_blocks :
    (MemoryManager.new.init 1024).mallocResults [Op.malloc 100, Op.malloc 200] = [1, 2] ∧
    ((MemoryManager.new.init 1024).run [Op.malloc 100, Op.malloc 200]).blocks =
      [{ address := 0, size := 100, is_free := true, id := -1 },
       { address := 100, size := 200, is_free := true, id := -1 },
       { address := 300, size := 724, is_free := true, id := -1 }] ∧
    ((MemoryManager.new.init 1024).run [Op.malloc 100, Op.malloc 200]).free 1 =
      (MemoryManager.new.init 1024).run [Op.malloc 100, Op.malloc 200] ∧
    ((MemoryManager.new.init 1024).run [Op.malloc 100, Op.malloc 200]).free 2 =
      (MemoryManager.new.init 1024).run [Op.malloc 100, Op.malloc 200] ∧
    ((MemoryManager.new.init 1024).run
        [Op.malloc 100, Op.malloc 200, Op.free 1, Op.free 2]).blocks =
      [{ address := 0, size := 100, is_free := true, id := -1 },
       { address := 100, size := 200, is_free := true, id := -1 },
       { address := 300, size := 724, is_free := true, id := -1 }] ∧
    ((MemoryManager.new.init 1024).run
        [Op.malloc 100, Op.malloc 200, Op.free 1, Op.free 2]).blocks ≠
      [{ address := 0, size := 1024, is_free := true, id := -1 }] := by
  refine ⟨by decide, by decide, by decide, by decide, by decide, by decide⟩
end MemSim
